import Mathlib

/-!
Verification of the `phie` surface syntax: a shallow embedding of
`src/loc.rs`, `src/object.rs` and `src/basket.rs` (printer and parser for
`Loc`, `Object` and `Basket`), together with proofs of the spec's
round-trip, ordering, invariant and error-taxonomy claims.

Strings are modelled as `List Char`; Rust byte lengths (`str::len`) are
modelled through `Char.utf8Size`, and Rust's byte-wise lexicographic
`String` order coincides with code-point lexicographic order on
`List Char` because UTF-8 preserves code-point order.
-/

namespace Phie

abbrev Str := List Char

instance {ε α : Type} [DecidableEq ε] [DecidableEq α] :
    DecidableEq (Except ε α) := fun a b =>
  match a, b with
  | .error x, .error y =>
    if h : x = y then isTrue (by rw [h])
    else isFalse (fun he => h (Except.error.inj he))
  | .error _, .ok _ => isFalse (fun he => Except.noConfusion he)
  | .ok _, .error _ => isFalse (fun he => Except.noConfusion he)
  | .ok x, .ok y =>
    if h : x = y then isTrue (by rw [h])
    else isFalse (fun he => h (Except.ok.inj he))

/-- Unicode `White_Space` code points, as used by Rust's `str::trim`
(`char::is_whitespace`). -/
def isWhite (c : Char) : Bool :=
  let n := c.toNat
  (0x9 ≤ n && n ≤ 0xD) || n = 0x20 || n = 0x85 || n = 0xA0 || n = 0x1680 ||
  (0x2000 ≤ n && n ≤ 0x200A) || n = 0x2028 || n = 0x2029 || n = 0x202F ||
  n = 0x205F || n = 0x3000

/-- `str::trim_start`. -/
def trimLeft (l : Str) : Str := l.dropWhile isWhite

/-- `str::trim_end`. -/
def trimRight (l : Str) : Str := (l.reverse.dropWhile isWhite).reverse

/-- Rust `str::trim`. -/
def trim (l : Str) : Str := trimRight (trimLeft l)

/-- Rust `str::split(sep)` (on a single `char`): splitting the empty string
gives `[""]`, a trailing separator gives a trailing empty piece. -/
def splitOnChar (sep : Char) : Str → List Str
  | [] => [[]]
  | c :: cs =>
    let r := splitOnChar sep cs
    if c = sep then [] :: r
    else
      match r with
      | [] => [[c]]
      | h :: t => (c :: h) :: t

/-- Itertools' `join(sep)` / the result of `format!` concatenation with a
separator between consecutive parts. -/
def joinSep (sep : Str) : List Str → Str
  | [] => []
  | [p] => p
  | p :: rest => p ++ sep ++ joinSep sep rest

/-- The UTF-8 encoding length of one scalar value (same function as
`Char.utf8Size`, phrased on code points). -/
def byteSize (c : Char) : Nat :=
  if c.toNat ≤ 0x7F then 1
  else if c.toNat ≤ 0x7FF then 2
  else if c.toNat ≤ 0xFFFF then 3
  else 4

/-- Rust `str::len`: the number of UTF-8 bytes. -/
def strBytes (l : Str) : Nat := (l.map byteSize).sum

/-- Rust `str::ends_with`: a byte-suffix test, which for whole-char
suffixes coincides with the char-list suffix test. -/
def endsWith (suf l : Str) : Bool := List.isPrefixOf suf.reverse l.reverse

/-- The decimal digit / uppercase hex digit for `d < 16`, as produced by
Rust's `{}` and `{:X}` formatting. -/
def digitChar (d : Nat) : Char :=
  if d < 10 then Char.ofNat (48 + d) else Char.ofNat (55 + d)

/-- Digit production with explicit fuel, so that it is structurally
recursive and reduces inside the kernel; `fuel > n` always suffices. -/
def decDigitsF : Nat → Nat → Str
  | 0, _ => []
  | fuel + 1, n =>
    if n < 10 then [digitChar n]
    else decDigitsF fuel (n / 10) ++ [digitChar (n % 10)]

/-- Decimal digits of `n`, most significant first (Rust `{}` on an
unsigned integer). -/
def decDigits (n : Nat) : Str := decDigitsF (n + 1) n

def hexDigitsF : Nat → Nat → Str
  | 0, _ => []
  | fuel + 1, n =>
    if n < 16 then [digitChar n]
    else hexDigitsF fuel (n / 16) ++ [digitChar (n % 16)]

/-- Uppercase hexadecimal digits of `n`, most significant first
(Rust `{:X}`). -/
def hexDigits (n : Nat) : Str := hexDigitsF (n + 1) n

/-- Zero padding to width 4 (Rust `{:04X}` on an already-produced digit
string). -/
def pad4 (l : Str) : Str := List.replicate (4 - l.length) '0' ++ l

/-- The four-digit uppercase hex form used for `Data` values. -/
def hex4 (n : Nat) : Str := pad4 (hexDigits n)

/-- Rust `{}` on a signed integer. -/
def intToChars (i : Int) : Str :=
  if i < 0 then '-' :: decDigits i.natAbs else decDigits i.toNat

def isDigit (c : Char) : Bool := 48 ≤ c.toNat && c.toNat ≤ 57

def digitVal? (c : Char) : Option Nat :=
  if 48 ≤ c.toNat && c.toNat ≤ 57 then some (c.toNat - 48) else none

def hexVal? (c : Char) : Option Nat :=
  if 48 ≤ c.toNat && c.toNat ≤ 57 then some (c.toNat - 48)
  else if 65 ≤ c.toNat && c.toNat ≤ 70 then some (c.toNat - 55)
  else if 97 ≤ c.toNat && c.toNat ≤ 102 then some (c.toNat - 87)
  else none

/-- `std::num::ParseIntError` display strings. -/
def msgEmpty : Str := "cannot parse integer from empty string".data
def msgInvalid : Str := "invalid digit found in string".data
def msgPosOver : Str := "number too large to fit in target type".data
def msgNegOver : Str := "number too small to fit in target type".data

/-- The digit-accumulation loop of Rust's integer `from_str_radix`, for a
non-negative value bounded by `hi`: an invalid digit is reported at the
first non-digit character, overflow as soon as the accumulator passes
`hi`. -/
def accumPos (dv : Char → Option Nat) (base : Nat) (hi : Nat) :
    Nat → Str → Except Str Nat
  | acc, [] => .ok acc
  | acc, c :: cs =>
    match dv c with
    | none => .error msgInvalid
    | some d =>
      let acc' := acc * base + d
      if acc' ≤ hi then accumPos dv base hi acc' cs else .error msgPosOver

/-- The accumulation loop for a negative value bounded below by `lo`. -/
def accumNeg (dv : Char → Option Nat) (base : Nat) (lo : Int) :
    Int → Str → Except Str Int
  | acc, [] => .ok acc
  | acc, c :: cs =>
    match dv c with
    | none => .error msgInvalid
    | some d =>
      let acc' := acc * (base : Int) - (d : Int)
      if lo ≤ acc' then accumNeg dv base lo acc' cs else .error msgNegOver

/-- Rust `from_str` / `from_str_radix` for a signed integer type with
range `[lo, hi]`: optional `+`/`-` sign, then at least one digit. -/
def parseSigned (dv : Char → Option Nat) (base : Nat) (lo hi : Int)
    (l : Str) : Except Str Int :=
  match l with
  | [] => .error msgEmpty
  | '-' :: rest =>
    if rest = [] then .error msgInvalid
    else accumNeg dv base lo 0 rest
  | '+' :: rest =>
    if rest = [] then .error msgInvalid
    else (accumPos dv base hi.toNat 0 rest).map Int.ofNat
  | _ => (accumPos dv base hi.toNat 0 l).map Int.ofNat

/-- Rust `from_str` for an unsigned integer type with maximum `hi`:
optional `+` sign (no `-`), then at least one digit. -/
def parseUnsigned (dv : Char → Option Nat) (base : Nat) (hi : Nat)
    (l : Str) : Except Str Nat :=
  match l with
  | [] => .error msgEmpty
  | '+' :: rest =>
    if rest = [] then .error msgInvalid
    else accumPos dv base hi 0 rest
  | _ => accumPos dv base hi 0 l

def usizeMax : Nat := 18446744073709551615
def isizeMin : Int := -9223372036854775808
def isizeMax : Int := 9223372036854775807

/-- `str::parse::<usize>()`. -/
def parseUsize (l : Str) : Except Str Nat := parseUnsigned digitVal? 10 usizeMax l

/-- `str::parse::<isize>()`. -/
def parseIsize (l : Str) : Except Str Int := parseSigned digitVal? 10 isizeMin isizeMax l

/-- `str::parse::<i8>()`. -/
def parseI8 (l : Str) : Except Str Int := parseSigned digitVal? 10 (-128) 127 l

/-- `i16::from_str_radix(s, 16)`, the parse of `Data` hex literals
(`Data` is `i16`: `run_emulator` in `src/bin/custom_executor.rs` returns
the emulated `Data` at type `i16`, and the spec fixes `Data` as a 16-bit
signed integer). -/
def i16FromStrRadix16 (l : Str) : Except Str Int :=
  parseSigned hexVal? 16 (-32768) 32767 l

/-- The 16-bit two's-complement bit pattern of an `i16` value, i.e. what
Rust's `{:04X}` formats. -/
def data16 (d : Int) : Nat := (d % 65536).toNat

/-- Byte-wise (equivalently code-point-wise) lexicographic `≤` on strings:
Rust's `Ord for String`. -/
def strLeB : Str → Str → Bool
  | [], _ => true
  | _ :: _, [] => false
  | a :: xs, b :: ys =>
    if a < b then true
    else if b < a then false
    else strLeB xs ys

/-- The proposition form of `strLeB`, used as the sorting relation. -/
def SLe (x y : Str) : Prop := strLeB x y = true

instance : DecidableRel SLe := fun x y => inferInstanceAs (Decidable (_ = true))

/-- `Vec::sort` on the collected part strings. -/
def sortParts (l : List Str) : List Str := List.insertionSort SLe l

/-! ## `src/loc.rs` -/

/-- `Loc` from `src/loc.rs`.  `Attr` carries an `i8` (its parser only ever
produces `0..=127`), `Obj` carries a `usize` (`Ob`). -/
inductive Loc
  | Root
  | Rho
  | Phi
  | Pi
  | Delta
  | Sigma
  | Attr (i : Int)
  | Obj (n : Nat)
deriving DecidableEq

/-- The regex `^𝛼?(\d+)$` of `Loc::from_str`: the captured digit string,
if the whole input matches. -/
def reArgMatch (s : Str) : Option Str :=
  let body := match s with
    | c :: rest => if c = '𝛼' then rest else s
    | [] => s
  if body ≠ [] ∧ body.all isDigit then some body else none

/-- The regex `^ν(\d+)$` of `Loc::from_str`. -/
def reObjMatch (s : Str) : Option Str :=
  match s with
  | c :: rest =>
    if c = 'ν' then
      if rest ≠ [] ∧ rest.all isDigit then some rest else none
    else none
  | [] => none

/-- The symbolic / ASCII-alias `match` at the end of `Loc::from_str`. -/
def locTable (s : Str) : Except Str Loc :=
  if s = ['Φ'] ∨ s = ['Q'] then .ok Loc.Root
  else if s = ['Δ'] ∨ s = ['D'] then .ok Loc.Delta
  else if s = ['𝜋'] ∨ s = ['P'] then .ok Loc.Pi
  else if s = ['ρ'] ∨ s = ['^'] then .ok Loc.Rho
  else if s = ['𝜑'] ∨ s = ['@'] then .ok Loc.Phi
  else if s = ['σ'] ∨ s = ['&'] then .ok Loc.Sigma
  else .error ("Unknown loc: '".data ++ s ++ "'".data)

/-- `Loc::from_str` (`src/loc.rs`): argument-slot pattern first, then the
object pattern, then the symbolic / ASCII-alias table. -/
def Loc.fromStr (s : Str) : Except Str Loc :=
  match reArgMatch s with
  | some ds =>
    match parseI8 ds with
    | .ok v => .ok (Loc.Attr v)
    | .error e =>
      .error ("Failed to parse attr number '".data ++ ds ++ "': ".data ++ e)
  | none =>
    match reObjMatch s with
    | some ds =>
      match parseUsize ds with
      | .ok v => .ok (Loc.Obj v)
      | .error e =>
        .error ("Failed to parse obj number '".data ++ ds ++ "': ".data ++ e)
    | none => locTable s

/-- `Display for Loc` (`src/loc.rs`): the canonical symbolic forms. -/
def Loc.print : Loc → Str
  | .Root => ['Φ']
  | .Rho => ['ρ']
  | .Delta => ['Δ']
  | .Phi => ['𝜑']
  | .Pi => ['𝜋']
  | .Sigma => ['σ']
  | .Attr i => '𝛼' :: intToChars i
  | .Obj n => 'ν' :: decDigits n

/-! ## `Atom` and `Locator`

`src/atom.rs` and `src/locator.rs` are not part of the available sources;
they are modelled from the spec. -/

/-- Modelled from the spec: the fixed atom registry is a closed set of
seven named primitives (`src/atom.rs` is not in the available sources;
the names and the closedness are fixed by §4.4/§6 of the spec and by the
`match` in `Object::from_str`). -/
inductive Atom
  | intTimes
  | intDiv
  | intSub
  | intAdd
  | intNeg
  | boolIf
  | intLess
deriving DecidableEq

/-- The names accepted by the `match` in `Object::from_str`
(`src/object.rs`). -/
def registryNames : List Str :=
  ["int-times".data, "int-div".data, "int-sub".data, "int-add".data,
   "int-neg".data, "bool-if".data, "int-less".data]

/-- The λ-name lookup performed by the `match` in `Object::from_str`. -/
def atomLook (name : Str) : Option Atom :=
  if name = "int-times".data then some Atom.intTimes
  else if name = "int-div".data then some Atom.intDiv
  else if name = "int-sub".data then some Atom.intSub
  else if name = "int-add".data then some Atom.intAdd
  else if name = "int-neg".data then some Atom.intNeg
  else if name = "bool-if".data then some Atom.boolIf
  else if name = "int-less".data then some Atom.intLess
  else none

/-- Modelled from the spec: a `Locator` is a non-empty ordered sequence of
`Loc` steps, printed dot-joined in canonical form (`src/locator.rs` is not
in the available sources; §3 and §6 of the spec fix the dot-joined
sequence form, and `Locator::loc(0)` returns the first step). -/
abbrev Locator := List Loc

/-- Modelled from the spec: `Display for Locator` — steps dot-joined in
canonical form. -/
def Locator.print (p : Locator) : Str := joinSep ['.'] (p.map Loc.print)

/-- Modelled from the spec: `Locator::from_str` — split on `.` and parse
each step via `Loc::from_str` (an empty string fails, so a parsed locator
is never empty). -/
def Locator.fromStr (s : Str) : Except Str Locator :=
  (splitOnChar '.' s).mapM Loc.fromStr

/-! ## `src/object.rs` -/

/-- `Object` from `src/object.rs`.  `attrs` (a `HashMap` in Rust) is
modelled as an association list with `HashMap::insert`'s
replace-or-append semantics; the printer sorts, so iteration order is
immaterial. -/
structure Object where
  delta : Option Int
  lambda : Option (Str × Atom)
  constant : Bool
  attrs : List (Loc × (Locator × Bool))
deriving DecidableEq

/-- `HashMap::insert`: replace the value at an existing key, otherwise
append. -/
def alistInsert {β : Type} (l : List (Loc × β)) (k : Loc) (v : β) :
    List (Loc × β) :=
  match l with
  | [] => [(k, v)]
  | (k', v') :: t => if k' = k then (k, v) :: t else (k', v') :: alistInsert t k v

/-- `Object::open()`. -/
def Object.open' : Object := ⟨none, none, false, []⟩

/-- `Object::dataic(d)`. -/
def Object.dataic (d : Int) : Object := ⟨some d, none, true, []⟩

/-- `Object::atomic(n, a)`. -/
def Object.atomic (n : Str) (a : Atom) : Object := ⟨none, some (n, a), false, []⟩

/-- `Object::is_empty()`. -/
def Object.is_empty (o : Object) : Bool :=
  o.lambda.isNone && o.delta.isNone && o.attrs.isEmpty

/-- `Object::push`. -/
def Object.push (o : Object) (loc : Loc) (p : Locator) (xi : Bool) : Object :=
  { o with attrs := alistInsert o.attrs loc (p, xi) }

/-- `Object::copy` (private; rebuilds an equal object). -/
def Object.copy (o : Object) : Object := ⟨o.delta, o.lambda, o.constant, o.attrs⟩

/-- `Object::with`. -/
def Object.with' (o : Object) (loc : Loc) (p : Locator) (xi : Bool) : Object :=
  { o.copy with attrs := alistInsert o.copy.attrs loc (p, xi) }

/-- `Object::as_constant`. -/
def Object.as_constant (o : Object) : Object := { o.copy with constant := true }

def xiSuf : Str := ['(', 'ξ', ')']
def piSuf : Str := ['(', '𝜋', ')']

/-- The suffix appended by `Object::fmt` to one attribute body: `(ξ)` for
ξ-flagged attributes, `(𝜋)` when the locator's first step is an `Obj`,
nothing otherwise. -/
def attrSuffix (p : Locator) (xi : Bool) : Str :=
  if xi then xiSuf
  else
    match p.head? with
    | some (Loc.Obj _) => piSuf
    | _ => []

/-- One attribute part of `Object::fmt`: `{attr}↦{locator}` plus the
suffix. -/
def attrPart (k : Loc) (p : Locator) (xi : Bool) : Str :=
  k.print ++ '↦' :: (Locator.print p ++ attrSuffix p xi)

/-- The `λ↦{name}` part of `Object::fmt`. -/
def lambdaPart (n : Str) : Str := ['λ', '↦'] ++ n

/-- The `Δ↦0x{:04X}` part of `Object::fmt`. -/
def deltaPart (d : Int) : Str := ['Δ', '↦', '0', 'x'] ++ hex4 (data16 d)

/-- The unsorted part list built by `Object::fmt` (λ part, then Δ part,
then one part per attribute). -/
def Object.parts (o : Object) : List Str :=
  (match o.lambda with
   | some (n, _) => [lambdaPart n]
   | none => []) ++
  (match o.delta with
   | some d => [deltaPart d]
   | none => []) ++
  o.attrs.map (fun e => attrPart e.1 e.2.1 e.2.2)

/-- `Display for Object` (`src/object.rs`): `⟦[! ]…⟧` with the parts
sorted and comma-joined. -/
def Object.print (o : Object) : Str :=
  '⟦' :: ((if o.constant then ['!', ' '] else []) ++
    joinSep [',', ' '] (sortParts o.parts)) ++ ['⟧']

/-- The part of a string before its last occurrence of `c` (meaningful
when `c` occurs). -/
def beforeLast (c : Char) (l : Str) : Str :=
  ((l.reverse.dropWhile (· ≠ c)).drop 1).reverse

/-- The region `.` can span from a position: up to the next newline. -/
def lineRegion (l : Str) : Str := l.takeWhile (· ≠ '\n')

/-- The unanchored regex `⟦(!?)(.*)⟧` of `Object::from_str`
(leftmost-first match semantics of the `regex` crate): scan for the first
`⟦` followed, before any newline, by a `⟧`; the optional `!` binds iff it
immediately follows that `⟦`; greedy `(.*)` extends to the last `⟧` in the
line region.  Returns the `!?` capture (as a `Bool`) and the `(.*)`
capture. -/
def objCaptures : Str → Option (Bool × Str)
  | [] => none
  | c :: cs =>
    if c = '⟦' then
      let region := lineRegion cs
      if region.contains '⟧' then
        match beforeLast '⟧' region with
        | x :: rest => if x = '!' then some (true, rest) else some (false, x :: rest)
        | [] => some (false, [])
      else objCaptures cs
    else objCaptures cs

/-- One iteration of the attribute loop of `Object::from_str`: split the
pair at `↦`, then dispatch on the first character of the attribute name
(`λ` and `Δ` replace the object built so far via `atomic` / `dataic`;
everything else strips the `(𝜋)`/`(ξ)` suffixes — with Rust's byte-length
arithmetic fed to a char-count `take` — and pushes the attribute). -/
def processPair (s : Str) (obj : Object) (pair : Str) : Except Str Object :=
  match (splitOnChar '↦' pair).map trim with
  | [i, p] =>
    match i with
    | [] => .error ("Empty attribute name in '".data ++ pair ++ "'".data)
    | c :: _ =>
      if c = 'λ' then
        match atomLook p with
        | some a => .ok (Object.atomic p a)
        | none =>
          .error ("Unknown lambda '".data ++ p ++ "' in '".data ++ s ++ "'".data)
      else if c = 'Δ' then
        let hex := p.drop 2
        match i16FromStrRadix16 hex with
        | .ok d => .ok (Object.dataic d)
        | .error e =>
          .error ("Can't parse hex '".data ++ hex ++ "' in '".data ++ s ++
            "': ".data ++ e)
      else
        let tl := if endsWith piSuf p then p.take (strBytes p - 6 - 1) else p
        let xi := endsWith xiSuf tl
        let locator := if xi then tl.take (strBytes tl - 4 - 1) else tl
        match Loc.fromStr i with
        | .error e =>
          .error ("Can't parse location '".data ++ i ++ "': ".data ++ e)
        | .ok loc =>
          match Locator.fromStr locator with
          | .error e =>
            .error ("Can't parse locator '".data ++ locator ++ "': ".data ++ e)
          | .ok lp => .ok (obj.push loc lp xi)
  | _ =>
    .error ("Can't split '".data ++ pair ++ "' in two parts at '".data ++ s ++
      "'".data)

/-- `Object::from_str` (`src/object.rs`). -/
def Object.fromStr (s : Str) : Except Str Object :=
  match objCaptures s with
  | none => .error ("Can't parse object format in '".data ++ s ++ "'".data)
  | some (bang, inner0) =>
    let inner := trim inner0
    match ((splitOnChar ',' inner).map trim).foldlM (processPair s) Object.open' with
    | .error e => .error e
    | .ok obj => .ok (if bang then { obj with constant := true } else obj)

/-! ## `src/basket.rs` -/

/-- `Kid` from `src/basket.rs` (`Ob = usize`, `Bk = isize`,
`Data = i16`). -/
inductive Kid
  | Empt
  | Rqtd
  | Need (ob : Nat) (bk : Int)
  | Wait (bk : Int) (loc : Loc)
  | Dtzd (d : Int)
deriving DecidableEq

/-- `Basket` from `src/basket.rs` (`kids` modelled as an association
list, like `Object.attrs`). -/
structure Basket where
  ob : Nat
  psi : Int
  kids : List (Loc × Kid)
deriving DecidableEq

/-- `Basket::empty()`. -/
def Basket.empty : Basket := ⟨0, -1, []⟩

/-- `Basket::start(ob, psi)`. -/
def Basket.start (ob : Nat) (psi : Int) : Basket := ⟨ob, psi, []⟩

/-- `Basket::is_empty()`. -/
def Basket.is_empty (b : Basket) : Bool := b.psi < 0

/-- `Basket::put`. -/
def Basket.put (b : Basket) (loc : Loc) (kid : Kid) : Basket :=
  { b with kids := alistInsert b.kids loc kid }

/-- `Display for Kid` (`src/basket.rs`). -/
def Kid.print : Kid → Str
  | .Empt => ['→', '∅']
  | .Rqtd => ['→', '?']
  | .Need ob bk =>
    ['→', '(', 'ν'] ++ decDigits ob ++ [';', 'β'] ++ intToChars bk ++ [')']
  | .Wait bk loc => ['⇉', 'β'] ++ intToChars bk ++ '.' :: loc.print
  | .Dtzd d => ['⇶', '0', 'x'] ++ hex4 (data16 d)

/-- `Display for Basket` (`src/basket.rs`): the `ν{ob}` and `ξ:β{psi}`
parts come first, then the kid entries sorted. -/
def Basket.print (b : Basket) : Str :=
  let parts := ('ν' :: decDigits b.ob) ::
    (['ξ', ':', 'β'] ++ intToChars b.psi) ::
    sortParts (b.kids.map (fun e => e.1.print ++ e.2.print))
  '[' :: joinSep [',', ' '] parts ++ [']']

/-- The unanchored regex `\[(.*)]` of `Basket::from_str`: first `[`
followed by a `]` in its line region; `(.*)` extends to the last such
`]`. -/
def basketCaptures : Str → Option Str
  | [] => none
  | c :: cs =>
    if c = '[' then
      let region := lineRegion cs
      if region.contains ']' then some (beforeLast ']' region)
      else basketCaptures cs
    else basketCaptures cs

/-- The five kid-kind tokens of the regex
`^(.*)(⇶0x|⇉β|→\(ν|→∅|→\?)(.*?)\)?$`, in alternation order. -/
inductive KTok
  | dtzd
  | wait
  | need
  | empt
  | rqtd
deriving DecidableEq

def ktokChars : KTok → Str
  | .dtzd => ['⇶', '0', 'x']
  | .wait => ['⇉', 'β']
  | .need => ['→', '(', 'ν']
  | .empt => ['→', '∅']
  | .rqtd => ['→', '?']

/-- The token (if any) starting at the head of `l`; at most one token can
start at a given position, so alternation order is immaterial. -/
def tokAt (l : Str) : Option KTok :=
  if (ktokChars KTok.dtzd).isPrefixOf l then some KTok.dtzd
  else if (ktokChars KTok.wait).isPrefixOf l then some KTok.wait
  else if (ktokChars KTok.need).isPrefixOf l then some KTok.need
  else if (ktokChars KTok.empt).isPrefixOf l then some KTok.empt
  else if (ktokChars KTok.rqtd).isPrefixOf l then some KTok.rqtd
  else none

/-- The rightmost token occurrence in `l` (the backtracking of the greedy
`(.*)` group): the part before it, the token, and the part after it. -/
def lastTok : Str → Option (Str × KTok × Str)
  | [] => none
  | c :: cs =>
    match lastTok cs with
    | some (pre, t, post) => some (c :: pre, t, post)
    | none =>
      match tokAt (c :: cs) with
      | some t => some ([], t, cs.drop ((ktokChars t).length - 1))
      | none => none

/-- The lazy `(.*?)\)?$` tail of the kid regex: the payload with one
trailing `)` removed when present. -/
def stripParen (l : Str) : Str :=
  match l.getLast? with
  | some c => if c = ')' then l.dropLast else l
  | none => l

/-- The whole kid regex applied to one comma-part: `.` cannot match a
newline, group 1 is everything before the rightmost token, group 3 the
payload after it with a trailing `)` stripped. -/
def kidCaptures (p : Str) : Option (Str × KTok × Str) :=
  if p.contains '\n' then none
  else (lastTok p).map (fun r => (r.1, r.2.1, stripParen r.2.2))

/-- One iteration of the kid loop of `Basket::from_str`. -/
def processKid (b : Basket) (p : Str) : Except Str Basket :=
  match kidCaptures p with
  | none => .error ("Can't parse kid pattern in '".data ++ p ++ "'".data)
  | some (locStr, t, payload) =>
    let kidE : Except Str Kid :=
      match t with
      | .empt => .ok Kid.Empt
      | .rqtd => .ok Kid.Rqtd
      | .dtzd =>
        match i16FromStrRadix16 payload with
        | .ok d => .ok (Kid.Dtzd d)
        | .error e =>
          .error ("Can't parse data '".data ++ payload ++ "': ".data ++ e)
      | .wait =>
        match splitOnChar '.' payload with
        | [bs, ls] =>
          match parseIsize bs with
          | .error e =>
            .error ("Can't parse wait number '".data ++ bs ++ "': ".data ++ e)
          | .ok bk =>
            match Loc.fromStr ls with
            | .error e =>
              .error ("Can't parse wait loc '".data ++ ls ++ "': ".data ++ e)
            | .ok loc => .ok (Kid.Wait bk loc)
        | _ => .error ("Invalid wait format in '".data ++ payload ++ "'".data)
      | .need =>
        match splitOnChar ';' payload with
        | [os, ps] =>
          let psiStr := ps.drop 1
          match parseUsize os with
          | .error e =>
            .error ("Can't parse need obj '".data ++ os ++ "': ".data ++ e)
          | .ok ob =>
            match parseIsize psiStr with
            | .error e =>
              .error ("Can't parse need psi '".data ++ psiStr ++ "': ".data ++ e)
            | .ok bk => .ok (Kid.Need ob bk)
        | _ => .error ("Can't parse the needed pair '".data ++ payload ++ "'".data)
    match kidE with
    | .error e => .error e
    | .ok kid =>
      match Loc.fromStr locStr with
      | .error e =>
        .error ("Can't parse location '".data ++ locStr ++ "': ".data ++ e)
      | .ok loc => .ok (b.put loc kid)

/-- `Basket::from_str` (`src/basket.rs`). -/
def Basket.fromStr (s : Str) : Except Str Basket :=
  match basketCaptures s with
  | none => .error ("Can't parse the basket: '".data ++ s ++ "'".data)
  | some inner =>
    match (splitOnChar ',' (trim inner)).map trim with
    | [] => .error ("Empty basket content in '".data ++ s ++ "'".data)
    | p0 :: rest =>
      let obStr := p0.drop 1
      match parseUsize obStr with
      | .error e =>
        .error ("Can't parse the v part '".data ++ obStr ++ "': ".data ++ e)
      | .ok ob =>
        match rest with
        | [] => .error ("Missing psi part in basket '".data ++ s ++ "'".data)
        | p1 :: kidParts =>
          let psiStr := p1.drop 3
          match parseIsize psiStr with
          | .error e =>
            .error ("Can't parse the psi part '".data ++ psiStr ++ "': ".data ++ e)
          | .ok psi => kidParts.foldlM processKid ⟨ob, psi, []⟩

def isLower (c : Char) : Bool := 97 ≤ c.toNat && c.toNat ≤ 122

/-- The character class of everything the printers emit inside brackets
(digits, hex digits, atom-name letters, and the fixed symbols). -/
def printChar (c : Char) : Bool :=
  (48 ≤ c.toNat && c.toNat ≤ 57) ||
  (65 ≤ c.toNat && c.toNat ≤ 70) ||
  (97 ≤ c.toNat && c.toNat ≤ 122) ||
  decide (c ∈ (['Φ', 'ρ', 'Δ', '𝜑', '𝜋', 'σ', '𝛼', 'ν', 'λ', '-', '.', '(',
    ')', 'ξ', '↦', 'β', ';', ':', '→', '∅', '?', '⇉', '⇶'] : List Char))

/-! ## Auxiliary value functions and well-formedness predicates -/

/-- The value accumulated by `accumPos` when no overflow occurs. -/
def accVal (dv : Char → Option Nat) (base : Nat) : Nat → Str → Nat
  | acc, [] => acc
  | acc, c :: cs => accVal dv base (acc * base + (dv c).getD 0) cs

/-- The value accumulated by `accumNeg` when no overflow occurs. -/
def accValZ (dv : Char → Option Nat) (base : Nat) : Int → Str → Int
  | acc, [] => acc
  | acc, c :: cs => accValZ dv base (acc * (base : Int) - ((dv c).getD 0 : Int)) cs

/-- The numeric value of an all-digit decimal string. -/
def decValOf (l : Str) : Nat := accVal digitVal? 10 0 l

/-- The numeric value of an all-hex-digit string. -/
def hexValOf (l : Str) : Nat := accVal hexVal? 16 0 l

def isUpperHex (c : Char) : Bool :=
  (48 ≤ c.toNat && c.toNat ≤ 57) || (65 ≤ c.toNat && c.toNat ≤ 70)

/-- The side conditions under which a `Loc` value is representable in the
Rust types (`i8` attr index that the parser can produce, `usize` object
index). -/
def GoodStepB : Loc → Bool
  | .Attr i => decide (0 ≤ i) && decide (i ≤ 127)
  | .Obj n => decide (n ≤ usizeMax)
  | _ => true

/-- The representability conditions for a `Locator` whose print is
stripped by the `(ξ)` suffix logic: its single step must print with
exactly one two-byte character (which is what Rust's byte-length
arithmetic in `Object::from_str` assumes). -/
def PiXiSafeB : Loc → Bool
  | .Root => true
  | .Rho => true
  | .Delta => true
  | .Sigma => true
  | .Obj n => decide (n ≤ usizeMax)
  | _ => false

/-- Attribute keys that survive an `Object` print/parse round trip: not
`Δ` (whose entry would be mistaken for the data slot), and with
representable numbers. -/
def GoodKeyB : Loc → Bool
  | .Delta => false
  | .Attr i => decide (0 ≤ i) && decide (i ≤ 127)
  | .Obj n => decide (n ≤ usizeMax)
  | _ => true

/-- One `Object` attribute that survives a print/parse round trip. -/
def GoodAttrB : Loc × Locator × Bool → Bool
  | (k, p, xi) =>
    GoodKeyB k && decide (p ≠ []) && p.all GoodStepB &&
    (if xi then
      (match p with
       | [l] => PiXiSafeB l
       | _ => false)
     else
      (match p with
       | Loc.Obj _ :: rest => decide (rest = [])
       | _ => true))

/-- An `Object` value that the `Display`/`FromStr` pair round-trips
textually. -/
def GoodObjectB (o : Object) : Bool :=
  (o.delta.isSome || o.lambda.isSome || decide (o.attrs ≠ [])) &&
  (match o.delta with
   | some d => decide (0 ≤ d) && decide (d < 32768) && o.constant
   | none => true) &&
  !(o.delta.isSome && o.lambda.isSome) &&
  (match o.lambda with
   | some (n, _) => decide (n ∈ registryNames) &&
       o.attrs.all (fun e => decide (e.1 ≠ Loc.Root))
   | none => true) &&
  decide ((o.attrs.map Prod.fst).Nodup) &&
  o.attrs.all GoodAttrB

/-- One `Basket` kid that survives a print/parse round trip. -/
def GoodKidB : Kid → Bool
  | .Empt => true
  | .Rqtd => true
  | .Need ob bk =>
    decide (ob ≤ usizeMax) && decide (isizeMin ≤ bk) && decide (bk ≤ isizeMax)
  | .Wait bk loc =>
    decide (isizeMin ≤ bk) && decide (bk ≤ isizeMax) && GoodStepB loc
  | .Dtzd d => decide (0 ≤ d) && decide (d < 32768)

/-- A `Basket` value that the `Display`/`FromStr` pair round-trips
textually. -/
def GoodBasketB (b : Basket) : Bool :=
  decide (b.ob ≤ usizeMax) && decide (isizeMin ≤ b.psi) &&
  decide (b.psi ≤ isizeMax) && decide ((b.kids.map Prod.fst).Nodup) &&
  b.kids.all (fun e => GoodStepB e.1 && GoodKidB e.2)

/-- The printed form of one attribute entry (uncurried `attrPart`). -/
def attrEntry (e : Loc × Locator × Bool) : Str := attrPart e.1 e.2.1 e.2.2

/-- The printed form of one kid entry. -/
def kidEntry (e : Loc × Kid) : Str := e.1.print ++ e.2.print

/-- `o.attrs` sorted by the string order of the printed entries. -/
def sortedAttrs (o : Object) : List (Loc × Locator × Bool) :=
  List.insertionSort (fun a b => SLe (attrEntry a) (attrEntry b)) o.attrs

/-- `b.kids` sorted by the string order of the printed entries. -/
def sortedKids (b : Basket) : List (Loc × Kid) :=
  List.insertionSort (fun a b => SLe (kidEntry a) (kidEntry b)) b.kids

/-- Following the spec's words (§4.1 table): the textual Loc forms — the
twelve symbolic/ASCII single characters, `𝛼` followed by digits, bare
digits, and `ν` followed by digits.  Stated from the spec for comparison
with `Loc.fromStr`. -/
def specLocFormB (s : Str) : Bool :=
  decide (s ∈ ([['Φ'], ['Q'], ['ρ'], ['^'], ['Δ'], ['D'], ['𝜑'], ['@'],
    ['𝜋'], ['P'], ['σ'], ['&']] : List Str)) ||
  (match s with
   | c :: ds =>
     (decide (c = '𝛼') && decide (ds ≠ []) && ds.all isDigit) ||
     (decide (c = 'ν') && decide (ds ≠ []) && ds.all isDigit)
   | [] => false) ||
  (decide (s ≠ []) && s.all isDigit)

/-- The `Object` values produced by the public constructors, the public
operations, and `Object::from_str`. -/
inductive Object.Reach : Object → Prop
  | open_ : Object.Reach Object.open'
  | dataic (d : Int) : Object.Reach (Object.dataic d)
  | atomic (n : Str) (a : Atom) : Object.Reach (Object.atomic n a)
  | push (o : Object) (l : Loc) (p : Locator) (xi : Bool) :
      Object.Reach o → Object.Reach (o.push l p xi)
  | with' (o : Object) (l : Loc) (p : Locator) (xi : Bool) :
      Object.Reach o → Object.Reach (o.with' l p xi)
  | as_constant (o : Object) : Object.Reach o → Object.Reach o.as_constant
  | copy (o : Object) : Object.Reach o → Object.Reach o.copy
  | fromStr (s : Str) (o : Object) :
      Object.fromStr s = .ok o → Object.Reach o

/-! ## Digit and number lemmas -/

theorem accVal_append (dv : Char → Option Nat) (base : Nat) (l1 l2 : Str)
    (acc : Nat) :
    accVal dv base acc (l1 ++ l2) = accVal dv base (accVal dv base acc l1) l2 := by
  induction l1 generalizing acc with
  | nil => rfl
  | cons c cs ih => simp [accVal, ih]

theorem accVal_ge (dv : Char → Option Nat) (base : Nat) (hb : 1 ≤ base)
    (l : Str) (acc : Nat) : acc ≤ accVal dv base acc l := by
  induction l generalizing acc with
  | nil => exact le_refl _
  | cons c cs ih =>
    have h1 : acc ≤ acc * base := Nat.le_mul_of_pos_right acc hb
    exact le_trans (le_trans h1 (Nat.le_add_right _ _)) (ih _)

theorem accumPos_spec (dv : Char → Option Nat) (base hi : Nat) (hb : 1 ≤ base)
    (l : Str) (acc : Nat) (hacc : acc ≤ hi)
    (hall : ∀ c ∈ l, (dv c).isSome) :
    accumPos dv base hi acc l =
      if accVal dv base acc l ≤ hi then .ok (accVal dv base acc l)
      else .error msgPosOver := by
  induction l generalizing acc with
  | nil => simp [accumPos, accVal, hacc]
  | cons c cs ih =>
    obtain ⟨d, hd⟩ : ∃ d, dv c = some d :=
      Option.isSome_iff_exists.mp (hall c (by simp))
    have hall' : ∀ x ∈ cs, (dv x).isSome := fun x hx => hall x (by simp [hx])
    simp only [accumPos, accVal, hd, Option.getD_some]
    by_cases h : acc * base + d ≤ hi
    · rw [if_pos h, ih _ h hall']
    · rw [if_neg h, if_neg]
      intro hv
      exact h (le_trans (accVal_ge dv base hb cs _) hv)

theorem accValZ_le (dv : Char → Option Nat) (base : Nat) (hb : 1 ≤ base)
    (l : Str) (acc : Int) (hacc : acc ≤ 0) :
    accValZ dv base acc l ≤ acc ∧ accValZ dv base acc l ≤ 0 := by
  induction l generalizing acc with
  | nil => exact ⟨le_refl _, hacc⟩
  | cons c cs ih =>
    have h1 : acc * (base : Int) ≤ acc := by
      calc acc * (base : Int) ≤ acc * 1 := by
            apply mul_le_mul_of_nonpos_left _ hacc
            exact_mod_cast hb
        _ = acc := mul_one acc
    have h2 : acc * (base : Int) - ((dv c).getD 0 : Int) ≤ acc := by
      have : (0 : Int) ≤ ((dv c).getD 0 : Int) := Int.ofNat_nonneg _
      omega
    have := ih (acc * (base : Int) - ((dv c).getD 0 : Int)) (le_trans h2 hacc)
    exact ⟨le_trans this.1 h2, this.2⟩

theorem accumNeg_spec (dv : Char → Option Nat) (base : Nat) (lo : Int)
    (hb : 1 ≤ base) (l : Str) (acc : Int) (hlo : lo ≤ acc) (hacc : acc ≤ 0)
    (hall : ∀ c ∈ l, (dv c).isSome) :
    accumNeg dv base lo acc l =
      if lo ≤ accValZ dv base acc l then .ok (accValZ dv base acc l)
      else .error msgNegOver := by
  induction l generalizing acc with
  | nil => simp [accumNeg, accValZ, hlo]
  | cons c cs ih =>
    obtain ⟨d, hd⟩ : ∃ d, dv c = some d :=
      Option.isSome_iff_exists.mp (hall c (by simp))
    have hall' : ∀ x ∈ cs, (dv x).isSome := fun x hx => hall x (by simp [hx])
    simp only [accumNeg, accValZ, hd, Option.getD_some]
    have hle : acc * (base : Int) - (d : Int) ≤ acc := by
      have h1 : acc * (base : Int) ≤ acc * 1 := by
        apply mul_le_mul_of_nonpos_left _ hacc
        exact_mod_cast hb
      have : (0 : Int) ≤ (d : Int) := Int.ofNat_nonneg _
      omega
    by_cases h : lo ≤ acc * (base : Int) - (d : Int)
    · rw [if_pos h, ih _ h (le_trans hle hacc) hall']
    · rw [if_neg h, if_neg]
      intro hv
      exact h (le_trans hv
        (accValZ_le dv base hb cs _ (le_trans hle hacc)).1)

theorem decDigitsF_congr (n : Nat) : ∀ f₁ f₂, n < f₁ → n < f₂ →
    decDigitsF f₁ n = decDigitsF f₂ n := by
  induction n using Nat.strong_induction_on with
  | _ n ih =>
    intro f₁ f₂ h₁ h₂
    match f₁, f₂, h₁, h₂ with
    | g₁ + 1, g₂ + 1, _, _ =>
      simp only [decDigitsF]
      by_cases h : n < 10
      · simp [h]
      · simp only [if_neg h]
        have hlt : n / 10 < n := Nat.div_lt_self (by omega) (by omega)
        rw [ih (n / 10) hlt g₁ g₂ (by omega) (by omega)]

/-- The recursion equation of `decDigits`. -/
theorem decDigits_eq (n : Nat) :
    decDigits n =
      if n < 10 then [digitChar n]
      else decDigits (n / 10) ++ [digitChar (n % 10)] := by
  show decDigitsF (n + 1) n = _
  simp only [decDigitsF]
  by_cases h : n < 10
  · simp [h]
  · simp only [if_neg h]
    have hlt : n / 10 < n := Nat.div_lt_self (by omega) (by omega)
    rw [decDigitsF_congr (n / 10) n (n / 10 + 1) (by omega) (by omega)]
    rfl

theorem hexDigitsF_congr (n : Nat) : ∀ f₁ f₂, n < f₁ → n < f₂ →
    hexDigitsF f₁ n = hexDigitsF f₂ n := by
  induction n using Nat.strong_induction_on with
  | _ n ih =>
    intro f₁ f₂ h₁ h₂
    match f₁, f₂, h₁, h₂ with
    | g₁ + 1, g₂ + 1, _, _ =>
      simp only [hexDigitsF]
      by_cases h : n < 16
      · simp [h]
      · simp only [if_neg h]
        have hlt : n / 16 < n := Nat.div_lt_self (by omega) (by omega)
        rw [ih (n / 16) hlt g₁ g₂ (by omega) (by omega)]

/-- The recursion equation of `hexDigits`. -/
theorem hexDigits_eq (n : Nat) :
    hexDigits n =
      if n < 16 then [digitChar n]
      else hexDigits (n / 16) ++ [digitChar (n % 16)] := by
  show hexDigitsF (n + 1) n = _
  simp only [hexDigitsF]
  by_cases h : n < 16
  · simp [h]
  · simp only [if_neg h]
    have hlt : n / 16 < n := Nat.div_lt_self (by omega) (by omega)
    rw [hexDigitsF_congr (n / 16) n (n / 16 + 1) (by omega) (by omega)]
    rfl

theorem digitVal_digitChar (d : Nat) (h : d < 10) :
    digitVal? (digitChar d) = some d := by
  interval_cases d <;> decide

theorem hexVal_digitChar (d : Nat) (h : d < 16) :
    hexVal? (digitChar d) = some d := by
  interval_cases d <;> decide

theorem isDigit_digitChar (d : Nat) (h : d < 10) : isDigit (digitChar d) := by
  interval_cases d <;> decide

theorem isUpperHex_digitChar (d : Nat) (h : d < 16) :
    isUpperHex (digitChar d) := by
  interval_cases d <;> decide

theorem decDigits_ne_nil (n : Nat) : decDigits n ≠ [] := by
  rw [decDigits_eq]
  split <;> simp

theorem hexDigits_ne_nil (n : Nat) : hexDigits n ≠ [] := by
  rw [hexDigits_eq]
  split <;> simp

theorem decDigits_digits (n : Nat) : ∀ c ∈ decDigits n, isDigit c := by
  induction n using Nat.strong_induction_on with
  | _ n ih =>
    rw [decDigits_eq]
    split
    · next h =>
      intro c hc
      rw [List.mem_singleton] at hc
      exact hc ▸ isDigit_digitChar n h
    · next h =>
      intro c hc
      rw [List.mem_append] at hc
      rcases hc with hc | hc
      · exact ih (n / 10) (Nat.div_lt_self (by omega) (by omega)) c hc
      · rw [List.mem_singleton] at hc
        exact hc ▸ isDigit_digitChar (n % 10) (Nat.mod_lt n (by omega))

theorem hexDigits_chars (n : Nat) : ∀ c ∈ hexDigits n, isUpperHex c := by
  induction n using Nat.strong_induction_on with
  | _ n ih =>
    rw [hexDigits_eq]
    split
    · next h =>
      intro c hc
      rw [List.mem_singleton] at hc
      exact hc ▸ isUpperHex_digitChar n h
    · next h =>
      intro c hc
      rw [List.mem_append] at hc
      rcases hc with hc | hc
      · exact ih (n / 16) (Nat.div_lt_self (by omega) (by omega)) c hc
      · rw [List.mem_singleton] at hc
        exact hc ▸ isUpperHex_digitChar (n % 16) (Nat.mod_lt n (by omega))

theorem decDigits_val (n : Nat) :
    ∀ acc, accVal digitVal? 10 acc (decDigits n) =
      acc * 10 ^ (decDigits n).length + n := by
  induction n using Nat.strong_induction_on with
  | _ n ih =>
    intro acc
    rw [decDigits_eq]
    split
    · next h =>
      simp [accVal, digitVal_digitChar n h]
    · next h =>
      rw [accVal_append]
      have hd : n / 10 < n := Nat.div_lt_self (by omega) (by omega)
      rw [ih (n / 10) hd]
      simp only [accVal, digitVal_digitChar (n % 10) (Nat.mod_lt n (by omega)),
        Option.getD_some, List.length_append, List.length_singleton]
      calc (acc * 10 ^ (decDigits (n / 10)).length + n / 10) * 10 + n % 10
          = acc * (10 ^ (decDigits (n / 10)).length * 10) +
              (10 * (n / 10) + n % 10) := by ring
        _ = acc * 10 ^ ((decDigits (n / 10)).length + 1) + n := by
            rw [Nat.div_add_mod, pow_succ]

theorem hexDigits_val (n : Nat) :
    ∀ acc, accVal hexVal? 16 acc (hexDigits n) =
      acc * 16 ^ (hexDigits n).length + n := by
  induction n using Nat.strong_induction_on with
  | _ n ih =>
    intro acc
    rw [hexDigits_eq]
    split
    · next h =>
      simp [accVal, hexVal_digitChar n h]
    · next h =>
      rw [accVal_append]
      have hd : n / 16 < n := Nat.div_lt_self (by omega) (by omega)
      rw [ih (n / 16) hd]
      simp only [accVal, hexVal_digitChar (n % 16) (Nat.mod_lt n (by omega)),
        Option.getD_some, List.length_append, List.length_singleton]
      calc (acc * 16 ^ (hexDigits (n / 16)).length + n / 16) * 16 + n % 16
          = acc * (16 ^ (hexDigits (n / 16)).length * 16) +
              (16 * (n / 16) + n % 16) := by ring
        _ = acc * 16 ^ ((hexDigits (n / 16)).length + 1) + n := by
            rw [Nat.div_add_mod, pow_succ]

theorem decValOf_decDigits (n : Nat) : decValOf (decDigits n) = n := by
  have := decDigits_val n 0
  simpa [decValOf] using this

theorem hexValOf_hexDigits (n : Nat) : hexValOf (hexDigits n) = n := by
  have := hexDigits_val n 0
  simpa [hexValOf] using this

theorem isDigit_isSome (c : Char) (h : isDigit c) : (digitVal? c).isSome := by
  simp only [isDigit, Bool.and_eq_true, decide_eq_true_eq] at h
  simp [digitVal?, h.1, h.2]

theorem isUpperHex_isSome (c : Char) (h : isUpperHex c) : (hexVal? c).isSome := by
  simp only [isUpperHex, Bool.or_eq_true, Bool.and_eq_true, decide_eq_true_eq] at h
  rcases h with ⟨h1, h2⟩ | ⟨h1, h2⟩
  · have hb : (48 ≤ c.toNat && c.toNat ≤ 57) = true := by simp [h1, h2]
    simp [hexVal?, hb]
  · have hb : (48 ≤ c.toNat && c.toNat ≤ 57) = false := by
      simp only [Bool.and_eq_false_iff, decide_eq_false_iff_not]
      right
      omega
    have hb2 : (65 ≤ c.toNat && c.toNat ≤ 70) = true := by simp [h1, h2]
    simp [hexVal?, hb, hb2]

theorem isDigit_ne_plus (c : Char) (h : isDigit c) : c ≠ '+' := by
  intro he
  subst he
  exact absurd h (by decide)

theorem isDigit_ne_minus (c : Char) (h : isDigit c) : c ≠ '-' := by
  intro he
  subst he
  exact absurd h (by decide)

theorem isUpperHex_ne_plus (c : Char) (h : isUpperHex c) : c ≠ '+' := by
  intro he
  subst he
  exact absurd h (by decide)

theorem isUpperHex_ne_minus (c : Char) (h : isUpperHex c) : c ≠ '-' := by
  intro he
  subst he
  exact absurd h (by decide)

/-- `parseUnsigned` on a list whose head is not a sign character falls
through to the plain accumulation. -/
theorem parseUnsigned_head (dv : Char → Option Nat) (base hi : Nat)
    (c : Char) (cs : Str) (hc : c ≠ '+') :
    parseUnsigned dv base hi (c :: cs) = accumPos dv base hi 0 (c :: cs) := by
  rw [parseUnsigned.eq_def]
  split
  · next heq => exact absurd heq (by simp)
  · next heq =>
    exfalso
    apply hc
    have := List.head_eq_of_cons_eq heq.symm
    exact this.symm
  · rfl

/-- `parseSigned` on a list whose head is not a sign character falls
through to the plain accumulation. -/
theorem parseSigned_head (dv : Char → Option Nat) (base : Nat) (lo hi : Int)
    (c : Char) (cs : Str) (hplus : c ≠ '+') (hminus : c ≠ '-') :
    parseSigned dv base lo hi (c :: cs) =
      (accumPos dv base hi.toNat 0 (c :: cs)).map Int.ofNat := by
  rw [parseSigned.eq_def]
  split
  · next heq => exact absurd heq (by simp)
  · next heq =>
    exfalso
    exact hminus (List.head_eq_of_cons_eq heq.symm).symm
  · next heq =>
    exfalso
    exact hplus (List.head_eq_of_cons_eq heq.symm).symm
  · rfl

/-- `parseUnsigned` on a nonempty all-digit string: the value, or a
positive-overflow error. -/
theorem parseUnsigned_digits (hi : Nat) (l : Str) (hne : l ≠ [])
    (hall : ∀ c ∈ l, isDigit c) :
    parseUnsigned digitVal? 10 hi l =
      if decValOf l ≤ hi then .ok (decValOf l) else .error msgPosOver := by
  match l, hne with
  | c :: cs, _ =>
    rw [parseUnsigned_head digitVal? 10 hi c cs
      (isDigit_ne_plus c (hall c (by simp)))]
    exact accumPos_spec digitVal? 10 hi (by omega) (c :: cs) 0 (Nat.zero_le hi)
      (fun x hx => isDigit_isSome x (hall x hx))

/-- `parseSigned` on a nonempty all-digit string. -/
theorem parseSigned_digits (lo hi : Int) (l : Str) (hne : l ≠ [])
    (hall : ∀ c ∈ l, isDigit c) :
    parseSigned digitVal? 10 lo hi l =
      if decValOf l ≤ hi.toNat then .ok (Int.ofNat (decValOf l))
      else .error msgPosOver := by
  match l, hne with
  | c :: cs, _ =>
    rw [parseSigned_head digitVal? 10 lo hi c cs
      (isDigit_ne_plus c (hall c (by simp)))
      (isDigit_ne_minus c (hall c (by simp)))]
    rw [accumPos_spec digitVal? 10 hi.toNat (by omega) (c :: cs) 0
      (Nat.zero_le _) (fun x hx => isDigit_isSome x (hall x hx))]
    simp only [decValOf]
    by_cases h : accVal digitVal? 10 0 (c :: cs) ≤ hi.toNat
    · rw [if_pos h, if_pos h]; rfl
    · rw [if_neg h, if_neg h]; rfl

/-- `parseSigned` with base 16 on a nonempty all-upper-hex string. -/
theorem parseSigned_hex (lo hi : Int) (l : Str) (hne : l ≠ [])
    (hall : ∀ c ∈ l, isUpperHex c) :
    parseSigned hexVal? 16 lo hi l =
      if hexValOf l ≤ hi.toNat then .ok (Int.ofNat (hexValOf l))
      else .error msgPosOver := by
  match l, hne with
  | c :: cs, _ =>
    rw [parseSigned_head hexVal? 16 lo hi c cs
      (isUpperHex_ne_plus c (hall c (by simp)))
      (isUpperHex_ne_minus c (hall c (by simp)))]
    rw [accumPos_spec hexVal? 16 hi.toNat (by omega) (c :: cs) 0
      (Nat.zero_le _) (fun x hx => isUpperHex_isSome x (hall x hx))]
    simp only [hexValOf]
    by_cases h : accVal hexVal? 16 0 (c :: cs) ≤ hi.toNat
    · rw [if_pos h, if_pos h]; rfl
    · rw [if_neg h, if_neg h]; rfl

theorem parseUsize_decDigits (n : Nat) (h : n ≤ usizeMax) :
    parseUsize (decDigits n) = .ok n := by
  rw [parseUsize, parseUnsigned_digits usizeMax (decDigits n)
    (decDigits_ne_nil n) (decDigits_digits n), decValOf_decDigits,
    if_pos h]

/-- The negative-accumulation value over decimal digits. -/
theorem accValZ_decDigits (n : Nat) :
    ∀ acc : Int, accValZ digitVal? 10 acc (decDigits n) =
      acc * 10 ^ (decDigits n).length - n := by
  induction n using Nat.strong_induction_on with
  | _ n ih =>
    intro acc
    rw [decDigits_eq]
    split
    · next h =>
      simp [accValZ, digitVal_digitChar n h]
    · next h =>
      have happ : ∀ (l1 l2 : Str) (a : Int),
          accValZ digitVal? 10 a (l1 ++ l2) =
            accValZ digitVal? 10 (accValZ digitVal? 10 a l1) l2 := by
        intro l1
        induction l1 with
        | nil => intro l2 a; rfl
        | cons x xs ihx => intro l2 a; simp [accValZ, ihx]
      rw [happ]
      have hd : n / 10 < n := Nat.div_lt_self (by omega) (by omega)
      rw [ih (n / 10) hd]
      simp only [accValZ, digitVal_digitChar (n % 10) (Nat.mod_lt n (by omega)),
        Option.getD_some, List.length_append, List.length_singleton]
      have hnm : 10 * ((n / 10 : Nat) : Int) + ((n % 10 : Nat) : Int) = (n : Int) := by
        exact_mod_cast congrArg (Nat.cast (R := Int)) (Nat.div_add_mod n 10)
      rw [pow_succ]
      linear_combination -hnm

/-- `i.natAbs` digits, printed with a leading `-`, parse back to `i`. -/
theorem parseSigned_intToChars (lo hi i : Int) (h1 : lo ≤ i) (h2 : i ≤ hi)
    (hhi : 0 ≤ hi) :
    parseSigned digitVal? 10 lo hi (intToChars i) = .ok i := by
  by_cases hneg : i < 0
  · have hpr : intToChars i = '-' :: decDigits i.natAbs := by
      simp [intToChars, hneg]
    rw [hpr]
    have hne : decDigits i.natAbs ≠ [] := decDigits_ne_nil _
    simp only [parseSigned, hne, if_neg, ite_false]
    rw [accumNeg_spec digitVal? 10 lo (by omega) _ 0 (by omega) (le_refl 0)
      (fun x hx => isDigit_isSome x (decDigits_digits _ x hx))]
    have hv : accValZ digitVal? 10 0 (decDigits i.natAbs) = i := by
      rw [accValZ_decDigits]
      have : ((i.natAbs : Nat) : Int) = -i := by omega
      rw [this]
      ring
    rw [hv, if_pos h1]
  · have hge : 0 ≤ i := by omega
    have hpr : intToChars i = decDigits i.toNat := by
      simp [intToChars, hneg]
    rw [hpr, parseSigned_digits lo hi _ (decDigits_ne_nil _) (decDigits_digits _),
      decValOf_decDigits]
    rw [if_pos (by omega)]
    congr 1
    exact_mod_cast Int.toNat_of_nonneg hge

theorem parseIsize_intToChars (i : Int) (h1 : isizeMin ≤ i) (h2 : i ≤ isizeMax) :
    parseIsize (intToChars i) = .ok i :=
  parseSigned_intToChars isizeMin isizeMax i h1 h2 (by norm_num [isizeMax])

/-! ### hex4 -/

theorem hex4_chars (n : Nat) : ∀ c ∈ hex4 n, isUpperHex c := by
  intro c hc
  rw [hex4, pad4, List.mem_append] at hc
  rcases hc with hc | hc
  · rw [List.eq_of_mem_replicate hc]
    decide
  · exact hexDigits_chars n c hc

theorem hex4_ne_nil (n : Nat) : hex4 n ≠ [] := by
  rw [hex4, pad4]
  intro h
  exact hexDigits_ne_nil n (List.append_eq_nil.mp h).2

theorem accVal_zeros (k : Nat) :
    accVal hexVal? 16 0 (List.replicate k '0') = 0 := by
  induction k with
  | zero => rfl
  | succ k ih =>
    have : (hexVal? '0').getD 0 = 0 := by decide
    simp [List.replicate_succ, accVal, this, ih]

theorem hexValOf_hex4 (n : Nat) : hexValOf (hex4 n) = n := by
  rw [hex4, pad4, hexValOf, accVal_append, accVal_zeros]
  exact hexValOf_hexDigits n

theorem hexDigits_length_le (k : Nat) :
    ∀ n, n < 16 ^ k → 1 ≤ k → (hexDigits n).length ≤ k := by
  induction k with
  | zero => omega
  | succ k ih =>
    intro n hn _
    rw [hexDigits_eq]
    split
    · simp
    · next h =>
      have h16 : 16 ≤ n := by omega
      have hk1 : 1 ≤ k := by
        by_contra hk
        have : k = 0 := by omega
        subst this
        simp [pow_succ] at hn
        omega
      have hdiv : n / 16 < 16 ^ k := by
        rw [Nat.div_lt_iff_lt_mul (by omega)]
        calc n < 16 ^ (k + 1) := hn
          _ = 16 ^ k * 16 := pow_succ 16 k
      have := ih (n / 16) hdiv hk1
      simp only [List.length_append, List.length_singleton]
      omega

theorem hex4_length (n : Nat) (h : n < 65536) : (hex4 n).length = 4 := by
  have hle : (hexDigits n).length ≤ 4 :=
    hexDigits_length_le 4 n (by norm_num; omega) (by omega)
  rw [hex4, pad4, List.length_append, List.length_replicate]
  omega

theorem i16Hex_hex4 (n : Nat) (h : n ≤ 32767) :
    i16FromStrRadix16 (hex4 n) = .ok (Int.ofNat n) := by
  rw [i16FromStrRadix16, parseSigned_hex _ _ _ (hex4_ne_nil n) (hex4_chars n),
    hexValOf_hex4]
  rw [if_pos (by norm_num; omega)]

/-! ### Loc round-trip -/

/-- Helper: distinct code points give distinct characters. -/
theorem ne_of_toNat_ne (c c' : Char) (h : c.toNat ≠ c'.toNat) : c ≠ c' :=
  fun he => h (he ▸ rfl)

theorem isDigit_toNat (c : Char) (h : isDigit c) :
    48 ≤ c.toNat ∧ c.toNat ≤ 57 := by
  simp only [isDigit, Bool.and_eq_true, decide_eq_true_eq] at h
  exact h

theorem reArgMatch_alpha_digits (ds : Str) (hne : ds ≠ [])
    (hall : ∀ c ∈ ds, isDigit c) : reArgMatch ('𝛼' :: ds) = some ds := by
  simp only [reArgMatch, eq_self_iff_true, if_true]
  rw [if_pos]
  exact ⟨hne, List.all_eq_true.mpr (fun c hc => hall c hc)⟩

theorem reArgMatch_digits (ds : Str) (hne : ds ≠ [])
    (hall : ∀ c ∈ ds, isDigit c) : reArgMatch ds = some ds := by
  match ds, hne with
  | c :: cs, _ =>
    have hc : isDigit c := hall c (by simp)
    have hcne : c ≠ '𝛼' := by
      apply ne_of_toNat_ne
      have := isDigit_toNat c hc
      intro he
      rw [he] at this
      revert this
      decide
    simp only [reArgMatch, if_neg hcne]
    rw [if_pos]
    exact ⟨by simp, List.all_eq_true.mpr (fun x hx => hall x hx)⟩

theorem reArgMatch_none (c : Char) (cs : Str) (hc1 : c ≠ '𝛼')
    (hc2 : ¬ isDigit c) : reArgMatch (c :: cs) = none := by
  simp only [reArgMatch, if_neg hc1]
  rw [if_neg]
  intro hcon
  have := List.all_eq_true.mp hcon.2 c (by simp)
  exact hc2 this

theorem reObjMatch_digits (ds : Str) (hne : ds ≠ [])
    (hall : ∀ c ∈ ds, isDigit c) : reObjMatch ('ν' :: ds) = some ds := by
  simp only [reObjMatch, eq_self_iff_true, if_true]
  rw [if_pos]
  exact ⟨hne, List.all_eq_true.mpr (fun c hc => hall c hc)⟩

theorem parseI8_digits (l : Str) (hne : l ≠ []) (hall : ∀ c ∈ l, isDigit c) :
    parseI8 l =
      if decValOf l ≤ 127 then .ok (Int.ofNat (decValOf l))
      else .error msgPosOver := by
  rw [parseI8, parseSigned_digits _ _ _ hne hall]
  norm_num

theorem nu_not_digit : ¬ isDigit 'ν' := by decide

theorem locFromStr_attrPrint (i : Int) (h0 : 0 ≤ i) (h127 : i ≤ 127) :
    Loc.fromStr (Loc.print (Loc.Attr i)) = .ok (Loc.Attr i) := by
  have hpr : Loc.print (Loc.Attr i) = '𝛼' :: decDigits i.toNat := by
    simp [Loc.print, intToChars, not_lt.mpr h0]
  have hre : reArgMatch ('𝛼' :: decDigits i.toNat) = some (decDigits i.toNat) :=
    reArgMatch_alpha_digits _ (decDigits_ne_nil _) (decDigits_digits _)
  have hparse : parseI8 (decDigits i.toNat) = .ok i := by
    rw [parseI8_digits _ (decDigits_ne_nil _) (decDigits_digits _),
      decValOf_decDigits, if_pos (by omega)]
    congr 1
    exact_mod_cast Int.toNat_of_nonneg h0
  rw [hpr]
  simp [Loc.fromStr, hre, hparse]

theorem locFromStr_objPrint (n : Nat) (h : n ≤ usizeMax) :
    Loc.fromStr (Loc.print (Loc.Obj n)) = .ok (Loc.Obj n) := by
  have hre : reArgMatch ('ν' :: decDigits n) = none :=
    reArgMatch_none 'ν' _ (by decide) nu_not_digit
  have hre2 : reObjMatch ('ν' :: decDigits n) = some (decDigits n) :=
    reObjMatch_digits _ (decDigits_ne_nil _) (decDigits_digits _)
  have hparse : parseUsize (decDigits n) = .ok n := parseUsize_decDigits n h
  simp [Loc.print, Loc.fromStr, hre, hre2, hparse]

/-! ## String-order lemmas -/

theorem strLeB_total (x y : Str) : strLeB x y = true ∨ strLeB y x = true := by
  induction x generalizing y with
  | nil => left; rfl
  | cons a xs ih =>
    cases y with
    | nil => right; rfl
    | cons b ys =>
      rcases lt_trichotomy a b with h | h | h
      · left; simp [strLeB, h]
      · subst h
        rcases ih ys with h2 | h2
        · left; simp [strLeB, lt_irrefl, h2]
        · right; simp [strLeB, lt_irrefl, h2]
      · right; simp [strLeB, h]

theorem strLeB_trans (x y z : Str) (h1 : strLeB x y = true)
    (h2 : strLeB y z = true) : strLeB x z = true := by
  induction x generalizing y z with
  | nil => rfl
  | cons a xs ih =>
    cases y with
    | nil => simp [strLeB] at h1
    | cons b ys =>
      cases z with
      | nil => simp [strLeB] at h2
      | cons c zs =>
        simp only [strLeB] at h1 h2 ⊢
        rcases lt_trichotomy a b with hab | hab | hab
        · rcases lt_trichotomy b c with hbc | hbc | hbc
          · simp [lt_trans hab hbc]
          · subst hbc; simp [hab]
          · rw [if_neg (lt_asymm hbc), if_pos hbc] at h2
            exact absurd h2 (by simp)
        · subst hab
          rcases lt_trichotomy a c with hac | hac | hac
          · simp [hac]
          · subst hac
            rw [if_neg (lt_irrefl a)] at h1 h2 ⊢
            rw [if_neg (lt_irrefl a)] at h1 h2 ⊢
            exact ih ys zs h1 h2
          · rw [if_neg (lt_asymm hac), if_pos hac] at h2
            exact absurd h2 (by simp)
        · rw [if_neg (lt_asymm hab), if_pos hab] at h1
          exact absurd h1 (by simp)

theorem strLeB_antisymm (x y : Str) (h1 : strLeB x y = true)
    (h2 : strLeB y x = true) : x = y := by
  induction x generalizing y with
  | nil =>
    cases y with
    | nil => rfl
    | cons b ys => simp [strLeB] at h2
  | cons a xs ih =>
    cases y with
    | nil => simp [strLeB] at h1
    | cons b ys =>
      simp only [strLeB] at h1 h2
      rcases lt_trichotomy a b with hab | hab | hab
      · rw [if_neg (lt_asymm hab), if_pos hab] at h2
        exact absurd h2 (by simp)
      · subst hab
        rw [if_neg (lt_irrefl a), if_neg (lt_irrefl a)] at h1 h2
        rw [ih ys h1 h2]
      · rw [if_neg (lt_asymm hab), if_pos hab] at h1
        exact absurd h1 (by simp)

instance : IsTotal Str SLe := ⟨fun x y => strLeB_total x y⟩

instance : IsTrans Str SLe := ⟨fun x y z => strLeB_trans x y z⟩

instance : IsAntisymm Str SLe := ⟨fun x y => strLeB_antisymm x y⟩

instance : IsRefl Str SLe := ⟨fun x => by
  rcases strLeB_total x x with h | h <;> exact h⟩

theorem sortParts_sorted (l : List Str) : List.Sorted SLe (sortParts l) :=
  List.sorted_insertionSort SLe l

theorem sortParts_perm (l : List Str) : (sortParts l).Perm l :=
  List.perm_insertionSort SLe l

theorem sortParts_of_sorted (l : List Str) (h : List.Sorted SLe l) :
    sortParts l = l := h.insertionSort_eq

theorem sortParts_cons_min (x : Str) (l : List Str)
    (h : ∀ y ∈ l, SLe x y) : sortParts (x :: l) = x :: sortParts l :=
  List.insertionSort_cons SLe h

/-- Sorting data by the string order of their prints commutes with
mapping the print. -/
theorem orderedInsert_map {α : Type} (f : α → Str) (x : α) (l : List α) :
    (List.orderedInsert (fun a b => SLe (f a) (f b)) x l).map f =
      List.orderedInsert SLe (f x) (l.map f) := by
  induction l with
  | nil => rfl
  | cons y ys ih =>
    simp only [List.orderedInsert, List.map_cons]
    by_cases h : SLe (f x) (f y)
    · rw [if_pos h, if_pos h]
      rfl
    · rw [if_neg h, if_neg h, List.map_cons, ih]

theorem insertionSort_map {α : Type} (f : α → Str) (l : List α) :
    (List.insertionSort (fun a b => SLe (f a) (f b)) l).map f =
      List.insertionSort SLe (l.map f) := by
  induction l with
  | nil => rfl
  | cons x xs ih =>
    simp only [List.insertionSort, List.map_cons]
    rw [orderedInsert_map, ih]

/-! ## Trim and split lemmas -/

theorem trimLeft_eq_self (l : Str) (h : ∀ c ∈ l, ¬ isWhite c) :
    trimLeft l = l := by
  cases l with
  | nil => rfl
  | cons c cs =>
    rw [trimLeft, List.dropWhile_cons_of_neg]
    simp [h c (by simp)]

theorem trimRight_eq_self (l : Str) (h : ∀ c ∈ l, ¬ isWhite c) :
    trimRight l = l := by
  rw [trimRight]
  have : l.reverse.dropWhile isWhite = l.reverse := by
    cases hrev : l.reverse with
    | nil => rfl
    | cons c cs =>
      rw [List.dropWhile_cons_of_neg]
      have hc : c ∈ l := by
        rw [← List.mem_reverse, hrev]
        simp
      simp [h c hc]
  rw [this, List.reverse_reverse]

theorem trim_eq_self (l : Str) (h : ∀ c ∈ l, ¬ isWhite c) : trim l = l := by
  rw [trim, trimLeft_eq_self l h, trimRight_eq_self l h]

theorem trim_space_cons (l : Str) : trim (' ' :: l) = trim l := by
  rw [trim, trim, trimLeft, trimLeft, List.dropWhile_cons_of_pos]
  decide

theorem splitOnChar_ne_nil (sep : Char) (l : Str) : splitOnChar sep l ≠ [] := by
  cases l with
  | nil => simp [splitOnChar]
  | cons c cs =>
    simp only [splitOnChar]
    by_cases h : c = sep
    · simp [h]
    · rw [if_neg h]
      split <;> simp

theorem splitOnChar_append (sep : Char) (p l : Str) (hp : sep ∉ p) :
    splitOnChar sep (p ++ l) =
      (p ++ (splitOnChar sep l).headI) :: (splitOnChar sep l).tail := by
  induction p with
  | nil =>
    simp only [List.nil_append]
    match hsp : splitOnChar sep l, splitOnChar_ne_nil sep l with
    | h :: t, _ => simp
  | cons c p' ih =>
    have hc : c ≠ sep := fun he => hp (by simp [he])
    have hp' : sep ∉ p' := fun hm => hp (by simp [hm])
    simp only [List.cons_append, splitOnChar, if_neg hc, List.append_eq]
    rw [ih hp']

theorem splitOnChar_noSep (sep : Char) (l : Str) (h : sep ∉ l) :
    splitOnChar sep l = [l] := by
  have := splitOnChar_append sep l [] h
  simpa [splitOnChar] using this

/-- Splitting a `", "`-joined list of comma-free parts on `,` recovers
the parts, each with a leading space except the first. -/
theorem splitOnChar_joinSep (p : Str) (rest : List Str)
    (hall : ∀ x ∈ p :: rest, ',' ∉ x) :
    splitOnChar ',' (joinSep [',', ' '] (p :: rest)) =
      p :: rest.map (' ' :: ·) := by
  induction rest generalizing p with
  | nil => exact splitOnChar_noSep ',' p (hall p (by simp))
  | cons q rest' ih =>
    have hp : ',' ∉ p := hall p (by simp)
    have hq : ∀ x ∈ q :: rest', ',' ∉ x := fun x hx => hall x (by simp [hx])
    have hj : joinSep [',', ' '] (p :: q :: rest') =
        p ++ ',' :: ' ' :: joinSep [',', ' '] (q :: rest') := by
      simp [joinSep]
    rw [hj, splitOnChar_append ',' p _ hp]
    have hsp : splitOnChar ',' (',' :: ' ' :: joinSep [',', ' '] (q :: rest')) =
        [] :: splitOnChar ',' (' ' :: joinSep [',', ' '] (q :: rest')) := by
      simp [splitOnChar]
    rw [hsp]
    have hsp2 : splitOnChar ',' (' ' :: joinSep [',', ' '] (q :: rest')) =
        (' ' :: q) :: rest'.map (' ' :: ·) := by
      rw [show (' ' :: joinSep [',', ' '] (q :: rest')) =
        [' '] ++ joinSep [',', ' '] (q :: rest') from rfl]
      rw [splitOnChar_append ',' [' '] _ (by decide), ih q hq]
      simp
    rw [hsp2]
    simp

/-! ## Regex-capture lemmas -/

theorem lineRegion_all (l : Str) (h : ∀ c ∈ l, c ≠ '\n') : lineRegion l = l := by
  rw [lineRegion, List.takeWhile_eq_self_iff]
  intro x hx
  simp [h x hx]

theorem beforeLast_append (c : Char) (mid : Str) (h : c ∉ mid) :
    beforeLast c (mid ++ [c]) = mid := by
  rw [beforeLast, List.reverse_append]
  have h1 : [c].reverse ++ mid.reverse = c :: mid.reverse := by simp
  rw [h1, List.dropWhile_cons_of_neg (by simp)]
  simp

theorem objCaptures_plain (mid : Str) (h1 : '⟧' ∉ mid) (h2 : '\n' ∉ mid)
    (h3 : ∀ rest, mid ≠ '!' :: rest) :
    objCaptures ('⟦' :: (mid ++ ['⟧'])) = some (false, mid) := by
  have hreg : lineRegion (mid ++ ['⟧']) = mid ++ ['⟧'] := by
    apply lineRegion_all
    intro x hx
    rw [List.mem_append] at hx
    rcases hx with hx | hx
    · exact fun he => h2 (he ▸ hx)
    · rw [List.mem_singleton] at hx
      subst hx
      decide
  have hcont : (mid ++ ['⟧']).contains '⟧' = true :=
    List.elem_eq_true_of_mem (by simp)
  have hbl : beforeLast '⟧' (mid ++ ['⟧']) = mid := beforeLast_append '⟧' mid h1
  simp only [objCaptures, if_pos rfl, hreg, hcont, if_true, hbl]
  match mid, h3 with
  | [], _ => rfl
  | x :: rest, h3 =>
    have hx : x ≠ '!' := fun he => h3 rest (by rw [he])
    simp [hx]

theorem objCaptures_bang (mid : Str) (h1 : '⟧' ∉ mid) (h2 : '\n' ∉ mid) :
    objCaptures ('⟦' :: (('!' :: mid) ++ ['⟧'])) = some (true, mid) := by
  have h1' : '⟧' ∉ '!' :: mid := by simp [h1]
  have h2' : '\n' ∉ '!' :: mid := by simp [h2]
  have hreg : lineRegion (('!' :: mid) ++ ['⟧']) = ('!' :: mid) ++ ['⟧'] := by
    apply lineRegion_all
    intro x hx
    rw [List.mem_append] at hx
    rcases hx with hx | hx
    · exact fun he => h2' (he ▸ hx)
    · rw [List.mem_singleton] at hx
      subst hx
      decide
  have hcont : (('!' :: mid) ++ ['⟧']).contains '⟧' = true :=
    List.elem_eq_true_of_mem (by simp)
  have hbl : beforeLast '⟧' (('!' :: mid) ++ ['⟧']) = '!' :: mid :=
    beforeLast_append '⟧' _ h1'
  simp only [objCaptures, if_pos rfl, hreg, hcont, if_true, hbl]

theorem basketCaptures_wrap (mid : Str) (h1 : ']' ∉ mid) (h2 : '\n' ∉ mid) :
    basketCaptures ('[' :: (mid ++ [']'])) = some mid := by
  have hreg : lineRegion (mid ++ [']']) = mid ++ [']'] := by
    apply lineRegion_all
    intro x hx
    rw [List.mem_append] at hx
    rcases hx with hx | hx
    · exact fun he => h2 (he ▸ hx)
    · rw [List.mem_singleton] at hx
      subst hx
      decide
  have hcont : (mid ++ [']']).contains ']' = true :=
    List.elem_eq_true_of_mem (by simp)
  have hbl : beforeLast ']' (mid ++ [']']) = mid := beforeLast_append ']' mid h1
  simp only [basketCaptures, if_pos rfl, hreg, hcont, if_true, hbl]

/-! ## ends_with and byte-length lemmas -/

theorem endsWith_append (suf x : Str) : endsWith suf (x ++ suf) = true := by
  rw [endsWith, List.reverse_append, List.isPrefixOf_iff_prefix]
  exact List.prefix_append _ _

theorem endsWith_eq_false (suf l : Str) (c : Char) (hc : suf.getLast? = some c)
    (h : c ∉ l) : endsWith suf l = false := by
  rw [endsWith]
  by_contra hne
  have htrue : List.isPrefixOf suf.reverse l.reverse = true := by
    cases hb : List.isPrefixOf suf.reverse l.reverse
    · exact absurd hb hne
    · rfl
  rw [List.isPrefixOf_iff_prefix] at htrue
  have hrev : suf.reverse.head? = some c := by
    rw [List.head?_reverse, hc]
  match hsr : suf.reverse, hrev with
  | d :: rest, hrev =>
    have hd : d = c := by simpa using hrev
    rw [hsr] at htrue
    obtain ⟨t, ht⟩ := htrue
    have : c ∈ l.reverse := by
      rw [← ht, hd]
      simp
    rw [List.mem_reverse] at this
    exact h this

theorem endsWith_piSuf_xi (lp : Str) : endsWith piSuf (lp ++ xiSuf) = false := by
  rw [endsWith, List.reverse_append]
  have hx : xiSuf.reverse = [')', 'ξ', '('] := by decide
  have hp : piSuf.reverse = [')', '𝜋', '('] := by decide
  rw [hx, hp]
  simp [List.isPrefixOf]

theorem byteSize_digit (c : Char) (h : isDigit c) : byteSize c = 1 := by
  have := isDigit_toNat c h
  rw [byteSize, if_pos (by omega)]

theorem strBytes_cons (c : Char) (l : Str) :
    strBytes (c :: l) = byteSize c + strBytes l := by
  simp [strBytes]

theorem strBytes_append (l1 l2 : Str) :
    strBytes (l1 ++ l2) = strBytes l1 + strBytes l2 := by
  simp [strBytes]

theorem strBytes_digits (l : Str) (h : ∀ c ∈ l, isDigit c) :
    strBytes l = l.length := by
  induction l with
  | nil => rfl
  | cons c cs ih =>
    rw [strBytes_cons, byteSize_digit c (h c (by simp)),
      ih (fun x hx => h x (by simp [hx]))]
    simp [Nat.add_comm]

/-! ## Character-class lemmas for the printers -/

theorem ascii_facts (c : Char) (h1 : 45 ≤ c.toNat) (h2 : c.toNat ≤ 122)
    (h3 : c.toNat ≠ 91) (h4 : c.toNat ≠ 93) :
    c ≠ ',' ∧ c ≠ '\n' ∧ c ≠ '⟦' ∧ c ≠ '⟧' ∧ c ≠ '[' ∧ c ≠ ']' ∧
      ¬ isWhite c ∧ c ≠ '!' := by
  refine ⟨ne_of_toNat_ne _ _ (show c.toNat ≠ 44 by omega),
    ne_of_toNat_ne _ _ (show c.toNat ≠ 10 by omega),
    ne_of_toNat_ne _ _ (show c.toNat ≠ 10214 by omega),
    ne_of_toNat_ne _ _ (show c.toNat ≠ 10215 by omega),
    ne_of_toNat_ne _ _ (show c.toNat ≠ 91 by omega),
    ne_of_toNat_ne _ _ (show c.toNat ≠ 93 by omega), ?_,
    ne_of_toNat_ne _ _ (show c.toNat ≠ 33 by omega)⟩
  simp only [isWhite, Bool.or_eq_true, Bool.and_eq_true, decide_eq_true_eq]
  omega

/-- Every `printChar` is inert for the bracket/comma/whitespace structure
of printed objects and baskets. -/
theorem printChar_facts (c : Char) (h : printChar c = true) :
    c ≠ ',' ∧ c ≠ '\n' ∧ c ≠ '⟦' ∧ c ≠ '⟧' ∧ c ≠ '[' ∧ c ≠ ']' ∧
      ¬ isWhite c ∧ c ≠ '!' := by
  simp only [printChar, Bool.or_eq_true, Bool.and_eq_true, decide_eq_true_eq]
    at h
  rcases h with ((⟨h1, h2⟩ | ⟨h1, h2⟩) | ⟨h1, h2⟩) | h
  · exact ascii_facts c (by omega) (by omega) (by omega) (by omega)
  · exact ascii_facts c (by omega) (by omega) (by omega) (by omega)
  · exact ascii_facts c (by omega) (by omega) (by omega) (by omega)
  · fin_cases h <;> exact ⟨by decide, by decide, by decide, by decide,
      by decide, by decide, by decide, by decide⟩

theorem printChar_of_isDigit (c : Char) (h : isDigit c) : printChar c = true := by
  have := isDigit_toNat c h
  simp only [printChar, Bool.or_eq_true, Bool.and_eq_true, decide_eq_true_eq]
  left; left; left
  exact ⟨by omega, by omega⟩

theorem printChar_of_isUpperHex (c : Char) (h : isUpperHex c) :
    printChar c = true := by
  simp only [isUpperHex, Bool.or_eq_true, Bool.and_eq_true,
    decide_eq_true_eq] at h
  simp only [printChar, Bool.or_eq_true, Bool.and_eq_true, decide_eq_true_eq]
  rcases h with h | h
  · left; left; left; exact h
  · left; left; right; exact h

theorem intToChars_chars (i : Int) :
    ∀ c ∈ intToChars i, isDigit c ∨ c = '-' := by
  intro c hc
  rw [intToChars] at hc
  split at hc
  · rcases List.mem_cons.mp hc with hc | hc
    · right; exact hc
    · left; exact decDigits_digits _ c hc
  · left; exact decDigits_digits _ c hc

theorem printChar_intToChars (i : Int) : ∀ c ∈ intToChars i, printChar c = true := by
  intro c hc
  rcases intToChars_chars i c hc with h | h
  · exact printChar_of_isDigit c h
  · subst h; decide

theorem locPrint_printChar (l : Loc) : ∀ c ∈ Loc.print l, printChar c = true := by
  cases l with
  | Attr i =>
    intro c hc
    rcases List.mem_cons.mp hc with hc | hc
    · subst hc; decide
    · exact printChar_intToChars i c hc
  | Obj n =>
    intro c hc
    rcases List.mem_cons.mp hc with hc | hc
    · subst hc; decide
    · exact printChar_of_isDigit c (decDigits_digits n c hc)
  | Root => intro c hc; rw [List.mem_singleton.mp hc]; decide
  | Rho => intro c hc; rw [List.mem_singleton.mp hc]; decide
  | Phi => intro c hc; rw [List.mem_singleton.mp hc]; decide
  | Pi => intro c hc; rw [List.mem_singleton.mp hc]; decide
  | Delta => intro c hc; rw [List.mem_singleton.mp hc]; decide
  | Sigma => intro c hc; rw [List.mem_singleton.mp hc]; decide

theorem joinSep_chars (sep : Str) (parts : List Str) (c : Char)
    (hc : c ∈ joinSep sep parts) : c ∈ sep ∨ ∃ p ∈ parts, c ∈ p := by
  induction parts with
  | nil => simp [joinSep] at hc
  | cons p rest ih =>
    match rest with
    | [] =>
      right
      exact ⟨p, by simp, hc⟩
    | q :: rest' =>
      rw [show joinSep sep (p :: q :: rest') =
        p ++ sep ++ joinSep sep (q :: rest') from rfl] at hc
      rw [List.append_assoc, List.mem_append] at hc
      rcases hc with hc | hc
      · right; exact ⟨p, by simp, hc⟩
      · rw [List.mem_append] at hc
        rcases hc with hc | hc
        · left; exact hc
        · rcases ih hc with hi | ⟨x, hx1, hx2⟩
          · left; exact hi
          · right; exact ⟨x, by simp [hx1], hx2⟩

theorem locatorPrint_printChar (p : Locator) :
    ∀ c ∈ Locator.print p, printChar c = true := by
  intro c hc
  rcases joinSep_chars ['.'] (p.map Loc.print) c hc with h | ⟨x, hx1, hx2⟩
  · rw [List.mem_singleton.mp h]; decide
  · obtain ⟨l, _, rfl⟩ := List.mem_map.mp hx1
    exact locPrint_printChar l c hx2

theorem attrPart_printChar (k : Loc) (p : Locator) (xi : Bool) :
    ∀ c ∈ attrPart k p xi, printChar c = true := by
  intro c hc
  rw [attrPart, List.mem_append] at hc
  rcases hc with hc | hc
  · exact locPrint_printChar k c hc
  · rcases List.mem_cons.mp hc with hc | hc
    · subst hc; decide
    · rw [List.mem_append] at hc
      rcases hc with hc | hc
      · exact locatorPrint_printChar p c hc
      · revert hc
        rw [attrSuffix]
        split
        · intro hc
          simp only [xiSuf, List.mem_cons, List.mem_singleton,
            List.not_mem_nil, or_false] at hc
          rcases hc with rfl | rfl | rfl <;> decide
        · split
          · intro hc
            simp only [piSuf, List.mem_cons, List.mem_singleton,
              List.not_mem_nil, or_false] at hc
            rcases hc with rfl | rfl | rfl <;> decide
          · intro hc
            simp at hc

theorem lambdaPart_printChar (n : Str) (hn : n ∈ registryNames) :
    ∀ c ∈ lambdaPart n, printChar c = true := by
  simp only [registryNames, List.mem_cons, List.not_mem_nil, or_false] at hn
  rcases hn with rfl | rfl | rfl | rfl | rfl | rfl | rfl <;> decide

theorem deltaPart_printChar (d : Int) :
    ∀ c ∈ deltaPart d, printChar c = true := by
  intro c hc
  rw [deltaPart, List.mem_append] at hc
  rcases hc with hc | hc
  · simp only [List.mem_cons, List.mem_singleton, List.not_mem_nil,
      or_false] at hc
    rcases hc with rfl | rfl | rfl | rfl <;> decide
  · exact printChar_of_isUpperHex c (hex4_chars _ c hc)

theorem all_append {P : Char → Prop} (l1 l2 : Str) (h1 : ∀ c ∈ l1, P c)
    (h2 : ∀ c ∈ l2, P c) : ∀ c ∈ l1 ++ l2, P c := by
  intro c hc
  rcases List.mem_append.mp hc with h | h
  · exact h1 c h
  · exact h2 c h

theorem all_cons {P : Char → Prop} (a : Char) (l : Str) (h1 : P a)
    (h2 : ∀ c ∈ l, P c) : ∀ c ∈ a :: l, P c := by
  intro c hc
  rcases List.mem_cons.mp hc with rfl | h
  · exact h1
  · exact h2 c h

theorem kidPrint_printChar (kid : Kid) :
    ∀ c ∈ Kid.print kid, printChar c = true := by
  cases kid with
  | Empt => decide
  | Rqtd => decide
  | Need ob bk =>
    show ∀ c ∈ ['→', '(', 'ν'] ++ decDigits ob ++ [';', 'β'] ++
      intToChars bk ++ [')'], printChar c = true
    exact all_append _ _ (all_append _ _ (all_append _ _ (all_append _ _
      (by decide)
      (fun c hc => printChar_of_isDigit c (decDigits_digits ob c hc)))
      (by decide)) (printChar_intToChars bk)) (by decide)
  | Wait bk loc =>
    show ∀ c ∈ ['⇉', 'β'] ++ intToChars bk ++ '.' :: Loc.print loc,
      printChar c = true
    exact all_append _ _ (all_append _ _ (by decide)
      (printChar_intToChars bk))
      (all_cons _ _ (by decide) (locPrint_printChar loc))
  | Dtzd d =>
    show ∀ c ∈ ['⇶', '0', 'x'] ++ hex4 (data16 d), printChar c = true
    exact all_append _ _ (by decide)
      (fun c hc => printChar_of_isUpperHex c (hex4_chars _ c hc))

/-- Characters of a canonical `Loc` print never collide with any of the
structural characters of locators, attr bodies, or kid entries. -/
theorem locPrint_inert (l : Loc) : ∀ c ∈ Loc.print l,
    c ≠ '.' ∧ c ≠ '↦' ∧ c ≠ '(' ∧ c ≠ ')' ∧ c ≠ '→' ∧ c ≠ '⇉' ∧
      c ≠ '⇶' ∧ c ≠ ';' ∧ c ≠ 'λ' ∧ c ≠ '!' := by
  have hdigit : ∀ c : Char, isDigit c →
      c ≠ '.' ∧ c ≠ '↦' ∧ c ≠ '(' ∧ c ≠ ')' ∧ c ≠ '→' ∧ c ≠ '⇉' ∧
        c ≠ '⇶' ∧ c ≠ ';' ∧ c ≠ 'λ' ∧ c ≠ '!' := by
    intro c hc
    have := isDigit_toNat c hc
    exact ⟨ne_of_toNat_ne _ _ (show c.toNat ≠ 46 by omega),
      ne_of_toNat_ne _ _ (show c.toNat ≠ 8614 by omega),
      ne_of_toNat_ne _ _ (show c.toNat ≠ 40 by omega),
      ne_of_toNat_ne _ _ (show c.toNat ≠ 41 by omega),
      ne_of_toNat_ne _ _ (show c.toNat ≠ 8594 by omega),
      ne_of_toNat_ne _ _ (show c.toNat ≠ 8649 by omega),
      ne_of_toNat_ne _ _ (show c.toNat ≠ 8694 by omega),
      ne_of_toNat_ne _ _ (show c.toNat ≠ 59 by omega),
      ne_of_toNat_ne _ _ (show c.toNat ≠ 955 by omega),
      ne_of_toNat_ne _ _ (show c.toNat ≠ 33 by omega)⟩
  cases l with
  | Attr i =>
    intro c hc
    rcases List.mem_cons.mp hc with rfl | hc
    · decide
    · rcases intToChars_chars i c hc with h | h
      · exact hdigit c h
      · subst h; decide
  | Obj n =>
    intro c hc
    rcases List.mem_cons.mp hc with rfl | hc
    · decide
    · exact hdigit c (decDigits_digits n c hc)
  | Root => decide
  | Rho => decide
  | Phi => decide
  | Pi => decide
  | Delta => decide
  | Sigma => decide

theorem splitOnChar_joinSep1 (sep : Char) (p : Str) (rest : List Str)
    (hall : ∀ x ∈ p :: rest, sep ∉ x) :
    splitOnChar sep (joinSep [sep] (p :: rest)) = p :: rest := by
  induction rest generalizing p with
  | nil => exact splitOnChar_noSep sep p (hall p (by simp))
  | cons q rest' ih =>
    have hp : sep ∉ p := hall p (by simp)
    have hq : ∀ x ∈ q :: rest', sep ∉ x := fun x hx => hall x (by simp [hx])
    have hj : joinSep [sep] (p :: q :: rest') =
        p ++ sep :: joinSep [sep] (q :: rest') := by
      simp [joinSep]
    rw [hj, splitOnChar_append sep p _ hp]
    have hsp : splitOnChar sep (sep :: joinSep [sep] (q :: rest')) =
        [] :: splitOnChar sep (joinSep [sep] (q :: rest')) := by
      simp [splitOnChar]
    rw [hsp, ih q hq]
    simp

theorem locatorPrint_split (p : Locator) (hne : p ≠ []) :
    splitOnChar '.' (Locator.print p) = p.map Loc.print := by
  rw [Locator.print]
  match p, hne with
  | l :: rest, _ =>
    rw [List.map_cons]
    apply splitOnChar_joinSep1
    intro x hx hdot
    rcases List.mem_cons.mp hx with rfl | hx
    · exact (locPrint_inert l '.' hdot).1 rfl
    · obtain ⟨l', _, rfl⟩ := List.mem_map.mp hx
      exact (locPrint_inert l' '.' hdot).1 rfl

/-- Canonical `Loc` prints parse back to the same value. -/
theorem locRoundtrip (l : Loc) (h : GoodStepB l = true) :
    Loc.fromStr (Loc.print l) = .ok l := by
  cases l with
  | Root => decide
  | Rho => decide
  | Phi => decide
  | Pi => decide
  | Delta => decide
  | Sigma => decide
  | Attr i =>
    simp only [GoodStepB, Bool.and_eq_true, decide_eq_true_eq] at h
    exact locFromStr_attrPrint i h.1 h.2
  | Obj n =>
    simp only [GoodStepB, decide_eq_true_eq] at h
    exact locFromStr_objPrint n h


theorem mapM_locFromStr_print : ∀ (p : Locator),
    (∀ l ∈ p, GoodStepB l = true) →
      (p.map Loc.print).mapM Loc.fromStr = Except.ok p
  | [], _ => rfl
  | l :: rest, hgood => by
    have h1 : Loc.fromStr (Loc.print l) = .ok l :=
      locRoundtrip l (hgood l (by simp))
    have h2 := mapM_locFromStr_print rest (fun x hx => hgood x (by simp [hx]))
    rw [List.map_cons, List.mapM_cons, h1, h2]
    rfl

/-- Canonical `Locator` prints parse back to the same step list. -/
theorem locatorRoundtrip (p : Locator) (hne : p ≠ [])
    (hgood : ∀ l ∈ p, GoodStepB l = true) :
    Locator.fromStr (Locator.print p) = .ok p := by
  rw [Locator.fromStr, locatorPrint_split p hne]
  exact mapM_locFromStr_print p hgood


/-! ## Kid-regex (lastTok) lemmas -/

theorem tokAt_none (c : Char) (cs : Str) (h1 : c ≠ '⇶') (h2 : c ≠ '⇉')
    (h3 : c ≠ '→') : tokAt (c :: cs) = none := by
  have b1 : ('⇶' == c) = false := by
    cases hb : ('⇶' == c)
    · rfl
    · exact absurd (eq_of_beq hb).symm h1
  have b2 : ('⇉' == c) = false := by
    cases hb : ('⇉' == c)
    · rfl
    · exact absurd (eq_of_beq hb).symm h2
  have b3 : ('→' == c) = false := by
    cases hb : ('→' == c)
    · rfl
    · exact absurd (eq_of_beq hb).symm h3
  simp [tokAt, ktokChars, List.isPrefixOf, b1, b2, b3]

theorem lastTok_none (l : Str)
    (h : ∀ c ∈ l, c ≠ '→' ∧ c ≠ '⇉' ∧ c ≠ '⇶') : lastTok l = none := by
  induction l with
  | nil => rfl
  | cons c cs ih =>
    have hc := h c (by simp)
    rw [lastTok, ih (fun x hx => h x (by simp [hx])),
      tokAt_none c cs hc.2.2 hc.2.1 hc.1]

theorem lastTok_prepend (a : Str) (l : Str) (pre : Str) (t : KTok)
    (post : Str) (h : lastTok l = some (pre, t, post)) :
    lastTok (a ++ l) = some (a ++ pre, t, post) := by
  induction a with
  | nil => simpa using h
  | cons c a' ih =>
    rw [List.cons_append, lastTok, ih]
    rfl

theorem tokAt_tok (t : KTok) (rest : Str) :
    tokAt (ktokChars t ++ rest) = some t := by
  cases t <;> simp [tokAt, ktokChars, List.isPrefixOf]

theorem lastTok_tok (t : KTok) (rest : Str)
    (hrest : ∀ c ∈ rest, c ≠ '→' ∧ c ≠ '⇉' ∧ c ≠ '⇶') :
    lastTok (ktokChars t ++ rest) = some ([], t, rest) := by
  have htail : ∀ tl : Str, (∀ c ∈ tl, c ≠ '→' ∧ c ≠ '⇉' ∧ c ≠ '⇶') →
      lastTok (tl ++ rest) = none := by
    intro tl htl
    apply lastTok_none
    intro c hc
    rcases List.mem_append.mp hc with hc | hc
    · exact htl c hc
    · exact hrest c hc
  cases t with
  | dtzd =>
    rw [show ktokChars KTok.dtzd ++ rest = '⇶' :: (['0', 'x'] ++ rest) from rfl,
      lastTok, htail ['0', 'x'] (by decide),
      show '⇶' :: (['0', 'x'] ++ rest) = ktokChars KTok.dtzd ++ rest from rfl,
      tokAt_tok]
    simp [ktokChars]
  | wait =>
    rw [show ktokChars KTok.wait ++ rest = '⇉' :: (['β'] ++ rest) from rfl,
      lastTok, htail ['β'] (by decide),
      show '⇉' :: (['β'] ++ rest) = ktokChars KTok.wait ++ rest from rfl,
      tokAt_tok]
    simp [ktokChars]
  | need =>
    rw [show ktokChars KTok.need ++ rest = '→' :: (['(', 'ν'] ++ rest) from rfl,
      lastTok, htail ['(', 'ν'] (by decide),
      show '→' :: (['(', 'ν'] ++ rest) = ktokChars KTok.need ++ rest from rfl,
      tokAt_tok]
    simp [ktokChars]
  | empt =>
    rw [show ktokChars KTok.empt ++ rest = '→' :: (['∅'] ++ rest) from rfl,
      lastTok, htail ['∅'] (by decide),
      show '→' :: (['∅'] ++ rest) = ktokChars KTok.empt ++ rest from rfl,
      tokAt_tok]
    simp [ktokChars]
  | rqtd =>
    rw [show ktokChars KTok.rqtd ++ rest = '→' :: (['?'] ++ rest) from rfl,
      lastTok, htail ['?'] (by decide),
      show '→' :: (['?'] ++ rest) = ktokChars KTok.rqtd ++ rest from rfl,
      tokAt_tok]
    simp [ktokChars]

theorem stripParen_concat (l : Str) : stripParen (l ++ [')']) = l := by
  rw [stripParen]
  have hl : (l ++ [')']).getLast? = some ')' := by
    rw [List.getLast?_append]
    rfl
  rw [hl]
  simp

theorem stripParen_id (l : Str) (h : ')' ∉ l) : stripParen l = l := by
  rw [stripParen]
  match hl : l.getLast? with
  | some c =>
    have hc : c ∈ l := by
      have := List.mem_of_mem_getLast? hl
      exact this
    have : c ≠ ')' := fun he => h (he ▸ hc)
    simp [this]
  | none => rfl


/-! ## Kid entry round-trip -/

theorem contains_false (l : Str) (c : Char) (h : c ∉ l) :
    l.contains c = false := by
  cases hb : l.contains c
  · rfl
  · exact absurd (List.elem_iff.mp hb) h

theorem isUpperHex_inert (c : Char) (h : isUpperHex c) :
    c ≠ '→' ∧ c ≠ '⇉' ∧ c ≠ '⇶' ∧ c ≠ ')' ∧ c ≠ ';' ∧ c ≠ '.' ∧
      c ≠ '\n' := by
  simp only [isUpperHex, Bool.or_eq_true, Bool.and_eq_true,
    decide_eq_true_eq] at h
  rcases h with ⟨h1, h2⟩ | ⟨h1, h2⟩ <;>
    exact ⟨ne_of_toNat_ne _ _ (show c.toNat ≠ 8594 by omega),
      ne_of_toNat_ne _ _ (show c.toNat ≠ 8649 by omega),
      ne_of_toNat_ne _ _ (show c.toNat ≠ 8694 by omega),
      ne_of_toNat_ne _ _ (show c.toNat ≠ 41 by omega),
      ne_of_toNat_ne _ _ (show c.toNat ≠ 59 by omega),
      ne_of_toNat_ne _ _ (show c.toNat ≠ 46 by omega),
      ne_of_toNat_ne _ _ (show c.toNat ≠ 10 by omega)⟩

theorem intToChars_inert (i : Int) : ∀ c ∈ intToChars i,
    c ≠ '→' ∧ c ≠ '⇉' ∧ c ≠ '⇶' ∧ c ≠ ')' ∧ c ≠ ';' ∧ c ≠ '.' ∧
      c ≠ '\n' := by
  intro c hc
  rcases intToChars_chars i c hc with h | h
  · have := isDigit_toNat c h
    exact ⟨ne_of_toNat_ne _ _ (show c.toNat ≠ 8594 by omega),
      ne_of_toNat_ne _ _ (show c.toNat ≠ 8649 by omega),
      ne_of_toNat_ne _ _ (show c.toNat ≠ 8694 by omega),
      ne_of_toNat_ne _ _ (show c.toNat ≠ 41 by omega),
      ne_of_toNat_ne _ _ (show c.toNat ≠ 59 by omega),
      ne_of_toNat_ne _ _ (show c.toNat ≠ 46 by omega),
      ne_of_toNat_ne _ _ (show c.toNat ≠ 10 by omega)⟩
  · subst h; decide

theorem kidCaptures_generic (k : Loc) (t : KTok) (payload : Str)
    (hfree : ∀ c ∈ payload, c ≠ '→' ∧ c ≠ '⇉' ∧ c ≠ '⇶')
    (hnl : ∀ c ∈ payload, c ≠ '\n') :
    kidCaptures (k.print ++ (ktokChars t ++ payload)) =
      some (k.print, t, stripParen payload) := by
  have h1 : lastTok (ktokChars t ++ payload) = some ([], t, payload) :=
    lastTok_tok t payload hfree
  have h2 : lastTok (k.print ++ (ktokChars t ++ payload)) =
      some (k.print ++ [], t, payload) :=
    lastTok_prepend _ _ _ _ _ h1
  have hnonl : (k.print ++ (ktokChars t ++ payload)).contains '\n' = false := by
    apply contains_false
    intro hm
    rcases List.mem_append.mp hm with hm | hm
    · exact (printChar_facts _ (locPrint_printChar k _ hm)).2.1 rfl
    · rcases List.mem_append.mp hm with hm | hm
      · cases t <;> revert hm <;> decide
      · exact hnl _ hm rfl
  rw [kidCaptures, if_neg (by rw [hnonl]; simp), h2]
  simp

theorem processKid_entry (b : Basket) (k : Loc) (kid : Kid)
    (hk : GoodStepB k = true) (hkid : GoodKidB kid = true) :
    processKid b (kidEntry (k, kid)) = .ok (b.put k kid) := by
  have hkparse : Loc.fromStr k.print = .ok k := locRoundtrip k hk
  cases kid with
  | Empt =>
    have hpr : kidEntry (k, Kid.Empt) =
        k.print ++ (ktokChars KTok.empt ++ []) := by
      simp [kidEntry, Kid.print, ktokChars]
    rw [hpr, processKid,
      kidCaptures_generic k KTok.empt [] (by simp) (by simp)]
    simp [stripParen, hkparse]
  | Rqtd =>
    have hpr : kidEntry (k, Kid.Rqtd) =
        k.print ++ (ktokChars KTok.rqtd ++ []) := by
      simp [kidEntry, Kid.print, ktokChars]
    rw [hpr, processKid,
      kidCaptures_generic k KTok.rqtd [] (by simp) (by simp)]
    simp [stripParen, hkparse]
  | Dtzd d =>
    simp only [GoodKidB, Bool.and_eq_true, decide_eq_true_eq] at hkid
    obtain ⟨h0, h32⟩ := hkid
    have hd16 : data16 d = d.toNat := by
      rw [data16, Int.emod_eq_of_lt h0 (by omega)]
    have hpr : kidEntry (k, Kid.Dtzd d) =
        k.print ++ (ktokChars KTok.dtzd ++ hex4 (data16 d)) := by
      simp [kidEntry, Kid.print, ktokChars]
    have hfree : ∀ c ∈ hex4 (data16 d),
        c ≠ '→' ∧ c ≠ '⇉' ∧ c ≠ '⇶' := by
      intro c hc
      have := isUpperHex_inert c (hex4_chars _ c hc)
      exact ⟨this.1, this.2.1, this.2.2.1⟩
    have hnl : ∀ c ∈ hex4 (data16 d), c ≠ '\n' := by
      intro c hc
      exact (isUpperHex_inert c (hex4_chars _ c hc)).2.2.2.2.2.2
    rw [hpr, processKid, kidCaptures_generic k KTok.dtzd _ hfree hnl]
    have hstrip : stripParen (hex4 (data16 d)) = hex4 (data16 d) := by
      apply stripParen_id
      intro hm
      exact (isUpperHex_inert _ (hex4_chars _ _ hm)).2.2.2.1 rfl
    have hparse : i16FromStrRadix16 (hex4 (data16 d)) = .ok d := by
      rw [i16Hex_hex4 (data16 d) (by omega)]
      congr 1
      rw [hd16]
      exact_mod_cast Int.toNat_of_nonneg h0
    simp [hstrip, hparse, hkparse]
  | Wait bk loc =>
    simp only [GoodKidB, Bool.and_eq_true, decide_eq_true_eq] at hkid
    obtain ⟨⟨hlo, hhi⟩, hloc⟩ := hkid
    have hpr : kidEntry (k, Kid.Wait bk loc) =
        k.print ++ (ktokChars KTok.wait ++
          (intToChars bk ++ '.' :: Loc.print loc)) := by
      simp [kidEntry, Kid.print, ktokChars]
    have hfree : ∀ c ∈ intToChars bk ++ '.' :: Loc.print loc,
        c ≠ '→' ∧ c ≠ '⇉' ∧ c ≠ '⇶' := by
      intro c hc
      rcases List.mem_append.mp hc with hc | hc
      · have := intToChars_inert bk c hc
        exact ⟨this.1, this.2.1, this.2.2.1⟩
      · rcases List.mem_cons.mp hc with rfl | hc
        · exact ⟨by decide, by decide, by decide⟩
        · have := locPrint_inert loc c hc
          exact ⟨this.2.2.2.2.1, this.2.2.2.2.2.1, this.2.2.2.2.2.2.1⟩
    have hnl : ∀ c ∈ intToChars bk ++ '.' :: Loc.print loc, c ≠ '\n' := by
      intro c hc
      rcases List.mem_append.mp hc with hc | hc
      · exact (intToChars_inert bk c hc).2.2.2.2.2.2
      · rcases List.mem_cons.mp hc with rfl | hc
        · decide
        · exact (printChar_facts _ (locPrint_printChar loc _ hc)).2.1
    rw [hpr, processKid, kidCaptures_generic k KTok.wait _ hfree hnl]
    have hnop : ')' ∉ intToChars bk ++ '.' :: Loc.print loc := by
      intro hm
      rcases List.mem_append.mp hm with hm | hm
      · exact (intToChars_inert bk _ hm).2.2.2.1 rfl
      · rcases List.mem_cons.mp hm with he | hm
        · exact absurd he.symm (by decide)
        · exact (locPrint_inert loc _ hm).2.2.2.1 rfl
    have hstrip : stripParen (intToChars bk ++ '.' :: Loc.print loc) =
        intToChars bk ++ '.' :: Loc.print loc := stripParen_id _ hnop
    have hnodot : '.' ∉ intToChars bk := by
      intro hm
      exact (intToChars_inert bk _ hm).2.2.2.2.2.1 rfl
    have hsplit : splitOnChar '.' (intToChars bk ++ '.' :: Loc.print loc) =
        [intToChars bk, Loc.print loc] := by
      rw [splitOnChar_append '.' _ _ hnodot]
      have h1 : splitOnChar '.' ('.' :: Loc.print loc) =
          [] :: splitOnChar '.' (Loc.print loc) := by
        simp [splitOnChar]
      have h2 : splitOnChar '.' (Loc.print loc) = [Loc.print loc] := by
        apply splitOnChar_noSep
        intro hm
        exact (locPrint_inert loc _ hm).1 rfl
      rw [h1, h2]
      simp
    have hbk : parseIsize (intToChars bk) = .ok bk :=
      parseIsize_intToChars bk hlo hhi
    have hlparse : Loc.fromStr (Loc.print loc) = .ok loc :=
      locRoundtrip loc hloc
    simp [hstrip, hsplit, hbk, hlparse, hkparse]
  | Need ob bk =>
    simp only [GoodKidB, Bool.and_eq_true, decide_eq_true_eq] at hkid
    obtain ⟨⟨hob, hlo⟩, hhi⟩ := hkid
    have hpr : kidEntry (k, Kid.Need ob bk) =
        k.print ++ (ktokChars KTok.need ++
          (decDigits ob ++ (';' :: 'β' :: (intToChars bk ++ [')'])))) := by
      simp [kidEntry, Kid.print, ktokChars]
    have hfree : ∀ c ∈ decDigits ob ++ (';' :: 'β' :: (intToChars bk ++ [')'])),
        c ≠ '→' ∧ c ≠ '⇉' ∧ c ≠ '⇶' := by
      intro c hc
      rcases List.mem_append.mp hc with hc | hc
      · have := isDigit_toNat c (decDigits_digits ob c hc)
        exact ⟨ne_of_toNat_ne _ _ (show c.toNat ≠ 8594 by omega),
          ne_of_toNat_ne _ _ (show c.toNat ≠ 8649 by omega),
          ne_of_toNat_ne _ _ (show c.toNat ≠ 8694 by omega)⟩
      · rcases List.mem_cons.mp hc with rfl | hc
        · exact ⟨by decide, by decide, by decide⟩
        · rcases List.mem_cons.mp hc with rfl | hc
          · exact ⟨by decide, by decide, by decide⟩
          · rcases List.mem_append.mp hc with hc | hc
            · have := intToChars_inert bk c hc
              exact ⟨this.1, this.2.1, this.2.2.1⟩
            · rw [List.mem_singleton.mp hc]
              exact ⟨by decide, by decide, by decide⟩
    have hnl : ∀ c ∈ decDigits ob ++ (';' :: 'β' :: (intToChars bk ++ [')'])),
        c ≠ '\n' := by
      intro c hc
      rcases List.mem_append.mp hc with hc | hc
      · have := isDigit_toNat c (decDigits_digits ob c hc)
        exact ne_of_toNat_ne _ _ (show c.toNat ≠ 10 by omega)
      · rcases List.mem_cons.mp hc with rfl | hc
        · decide
        · rcases List.mem_cons.mp hc with rfl | hc
          · decide
          · rcases List.mem_append.mp hc with hc | hc
            · exact (intToChars_inert bk c hc).2.2.2.2.2.2
            · rw [List.mem_singleton.mp hc]
              decide
    rw [hpr, processKid, kidCaptures_generic k KTok.need _ hfree hnl]
    have hstrip : stripParen (decDigits ob ++ (';' :: 'β' :: (intToChars bk ++ [')']))) =
        decDigits ob ++ (';' :: 'β' :: intToChars bk) := by
      have he : decDigits ob ++ (';' :: 'β' :: (intToChars bk ++ [')'])) =
          (decDigits ob ++ (';' :: 'β' :: intToChars bk)) ++ [')'] := by
        simp
      rw [he, stripParen_concat]
    have hnosemi : ';' ∉ decDigits ob := by
      intro hm
      have := isDigit_toNat _ (decDigits_digits ob _ hm)
      exact absurd rfl (ne_of_toNat_ne _ _ (show (';' : Char).toNat ≠ 59 by omega))
    have hsplit : splitOnChar ';' (decDigits ob ++ (';' :: 'β' :: intToChars bk)) =
        [decDigits ob, 'β' :: intToChars bk] := by
      rw [splitOnChar_append ';' _ _ hnosemi]
      have h1 : splitOnChar ';' (';' :: 'β' :: intToChars bk) =
          [] :: splitOnChar ';' ('β' :: intToChars bk) := by
        simp [splitOnChar]
      have h2 : splitOnChar ';' ('β' :: intToChars bk) =
          ['β' :: intToChars bk] := by
        apply splitOnChar_noSep
        intro hm
        rcases List.mem_cons.mp hm with he | hm
        · exact absurd he.symm (by decide)
        · exact (intToChars_inert bk _ hm).2.2.2.2.1 rfl
      rw [h1, h2]
      simp
    have hobp : parseUsize (decDigits ob) = .ok ob := parseUsize_decDigits ob hob
    have hbk : parseIsize (intToChars bk) = .ok bk :=
      parseIsize_intToChars bk hlo hhi
    simp [hstrip, hsplit, hobp, hbk, hkparse]


/-! ## Attribute entry round-trip -/

theorem locPrint_ne_nil (k : Loc) : Loc.print k ≠ [] := by
  cases k <;> simp [Loc.print]

theorem locPrint_head_shape (k : Loc) (hk : GoodKeyB k = true) :
    ∃ c rest, Loc.print k = c :: rest ∧ c ≠ 'λ' ∧ c ≠ 'Δ' := by
  cases k with
  | Delta => exact absurd hk (by decide)
  | Root => exact ⟨'Φ', [], rfl, by decide, by decide⟩
  | Rho => exact ⟨'ρ', [], rfl, by decide, by decide⟩
  | Phi => exact ⟨'𝜑', [], rfl, by decide, by decide⟩
  | Pi => exact ⟨'𝜋', [], rfl, by decide, by decide⟩
  | Sigma => exact ⟨'σ', [], rfl, by decide, by decide⟩
  | Attr i => exact ⟨'𝛼', intToChars i, rfl, by decide, by decide⟩
  | Obj n => exact ⟨'ν', decDigits n, rfl, by decide, by decide⟩

theorem locPrint_nonwhite (k : Loc) : ∀ c ∈ Loc.print k, ¬ isWhite c :=
  fun c hc => (printChar_facts c (locPrint_printChar k c hc)).2.2.2.2.2.2.1

theorem locatorPrint_inert (p : Locator) : ∀ c ∈ Locator.print p,
    c ≠ '↦' ∧ c ≠ ')' ∧ ¬ isWhite c := by
  intro c hc
  have hw : ¬ isWhite c :=
    (printChar_facts c (locatorPrint_printChar p c hc)).2.2.2.2.2.2.1
  rcases joinSep_chars ['.'] (p.map Loc.print) c hc with h | ⟨x, hx1, hx2⟩
  · rw [List.mem_singleton.mp h]
    exact ⟨by decide, by decide, by decide⟩
  · obtain ⟨l, _, rfl⟩ := List.mem_map.mp hx1
    have := locPrint_inert l c hx2
    exact ⟨this.2.1, this.2.2.2.1, hw⟩

theorem attrSuffix_chars (p : Locator) (xi : Bool) :
    ∀ c ∈ attrSuffix p xi, c ≠ '↦' ∧ ¬ isWhite c := by
  intro c hc
  rw [attrSuffix] at hc
  revert hc
  split
  · intro hc
    simp only [xiSuf, List.mem_cons, List.mem_singleton, List.not_mem_nil,
      or_false] at hc
    rcases hc with rfl | rfl | rfl <;> exact ⟨by decide, by decide⟩
  · split
    · intro hc
      simp only [piSuf, List.mem_cons, List.mem_singleton, List.not_mem_nil,
        or_false] at hc
      rcases hc with rfl | rfl | rfl <;> exact ⟨by decide, by decide⟩
    · intro hc
      simp at hc

theorem attrPart_split (k : Loc) (p : Locator) (xi : Bool) :
    (splitOnChar '↦' (attrPart k p xi)).map trim =
      [Loc.print k, Locator.print p ++ attrSuffix p xi] := by
  have hk : '↦' ∉ Loc.print k := fun hm => (locPrint_inert k _ hm).2.1 rfl
  have hbody : '↦' ∉ Locator.print p ++ attrSuffix p xi := by
    intro hm
    rcases List.mem_append.mp hm with hm | hm
    · exact (locatorPrint_inert p _ hm).1 rfl
    · exact (attrSuffix_chars p xi _ hm).1 rfl
  rw [attrPart, splitOnChar_append '↦' _ _ hk]
  have h1 : splitOnChar '↦' ('↦' :: (Locator.print p ++ attrSuffix p xi)) =
      [] :: splitOnChar '↦' (Locator.print p ++ attrSuffix p xi) := by
    simp [splitOnChar]
  have h2 : splitOnChar '↦' (Locator.print p ++ attrSuffix p xi) =
      [Locator.print p ++ attrSuffix p xi] := splitOnChar_noSep _ _ hbody
  rw [h1, h2]
  simp only [List.headI, List.tail, List.append_nil, List.map_cons,
    List.map_nil]
  rw [trim_eq_self _ (locPrint_nonwhite k), trim_eq_self]
  intro c hc
  rcases List.mem_append.mp hc with hc | hc
  · exact (locatorPrint_inert p _ hc).2.2
  · exact (attrSuffix_chars p xi _ hc).2

theorem pixiSafe_bytes (l : Loc) (h : PiXiSafeB l = true) :
    strBytes (Loc.print l) = (Loc.print l).length + 1 := by
  cases l with
  | Root => decide
  | Rho => decide
  | Delta => decide
  | Sigma => decide
  | Obj n =>
    show strBytes ('ν' :: decDigits n) = ('ν' :: decDigits n).length + 1
    rw [strBytes_cons, strBytes_digits _ (decDigits_digits n),
      show byteSize 'ν' = 2 from by decide]
    simp only [List.length_cons]
    omega
  | Pi => exact absurd h (by decide)
  | Phi => exact absurd h (by decide)
  | Attr i => simp [PiXiSafeB] at h

theorem endsWith_xiSuf_false (l : Str) (h : ')' ∉ l) :
    endsWith xiSuf l = false :=
  endsWith_eq_false xiSuf l ')' (by decide) h

theorem endsWith_piSuf_false (l : Str) (h : ')' ∉ l) :
    endsWith piSuf l = false :=
  endsWith_eq_false piSuf l ')' (by decide) h

theorem goodKey_step (k : Loc) (h : GoodKeyB k = true) : GoodStepB k = true := by
  cases k <;> simp_all [GoodKeyB, GoodStepB]

/-- The no-suffix case of one attribute-entry parse. -/
theorem processPair_attr_plain (s : Str) (obj : Object) (k : Loc) (p : Locator)
    (hkey : GoodKeyB k = true)
    (hpparse : Locator.fromStr (Locator.print p) = .ok p)
    (hnoparen : ')' ∉ Locator.print p)
    (hasuf : attrSuffix p false = []) :
    processPair s obj (attrPart k p false) = .ok (obj.push k p false) := by
  obtain ⟨c, rest, hkpr, hcl, hcd⟩ := locPrint_head_shape k hkey
  have hkparse : Loc.fromStr (Loc.print k) = .ok k :=
    locRoundtrip k (goodKey_step k hkey)
  have hpi : endsWith piSuf (Locator.print p) = false :=
    endsWith_piSuf_false _ hnoparen
  have hxi2 : endsWith xiSuf (Locator.print p) = false :=
    endsWith_xiSuf_false _ hnoparen
  rw [processPair, attrPart_split k p false, hkpr]
  simp only [if_neg hcl, if_neg hcd, ← hkpr, hasuf, List.append_nil, hpi,
    Bool.false_eq_true, if_false, hxi2, hkparse, hpparse]

theorem processPair_attr (s : Str) (obj : Object) (k : Loc) (p : Locator)
    (xi : Bool) (hgood : GoodAttrB (k, p, xi) = true) :
    processPair s obj (attrPart k p xi) = .ok (obj.push k p xi) := by
  simp only [GoodAttrB, Bool.and_eq_true, decide_eq_true_eq] at hgood
  obtain ⟨⟨⟨hkey, hne⟩, hsteps⟩, hsuf⟩ := hgood
  have hsteps' : ∀ l ∈ p, GoodStepB l = true :=
    fun l hl => List.all_eq_true.mp hsteps l hl
  obtain ⟨c, rest, hkpr, hcl, hcd⟩ := locPrint_head_shape k hkey
  have hkparse : Loc.fromStr (Loc.print k) = .ok k :=
    locRoundtrip k (goodKey_step k hkey)
  have hpparse : Locator.fromStr (Locator.print p) = .ok p :=
    locatorRoundtrip p hne hsteps'
  have hnoparen : ')' ∉ Locator.print p :=
    fun hm => (locatorPrint_inert p _ hm).2.1 rfl
  by_cases hxi : xi = true
  · subst hxi
    rw [if_pos rfl] at hsuf
    match p, hsuf, hne, hpparse, hnoparen with
    | [l], hsuf, hne, hpparse, hnoparen =>
      have hsufl : PiXiSafeB l = true := hsuf
      have hasuf : attrSuffix [l] true = xiSuf := rfl
      have hpi : endsWith piSuf (Locator.print [l] ++ xiSuf) = false :=
        endsWith_piSuf_xi _
      have hxi2 : endsWith xiSuf (Locator.print [l] ++ xiSuf) = true :=
        endsWith_append _ _
      have hb2 : strBytes (Locator.print [l]) =
          (Locator.print [l]).length + 1 := pixiSafe_bytes l hsufl
      have hbytes : strBytes (Locator.print [l] ++ xiSuf) - 4 - 1 =
          (Locator.print [l]).length := by
        rw [strBytes_append, hb2, show strBytes xiSuf = 4 from by decide]
        omega
      have htake : (Locator.print [l] ++ xiSuf).take
          (strBytes (Locator.print [l] ++ xiSuf) - 4 - 1) =
          Locator.print [l] := by
        rw [hbytes]
        exact List.take_left _ _
      rw [processPair, attrPart_split k [l] true, hkpr]
      simp only [if_neg hcl, if_neg hcd, ← hkpr, hasuf, hpi,
        Bool.false_eq_true, if_false, hxi2, eq_self_iff_true, if_true,
        htake, hkparse, hpparse]
  · have hxif : xi = false := by
      cases xi
      · rfl
      · exact absurd rfl hxi
    subst hxif
    rw [if_neg (by simp)] at hsuf
    match p, hsuf, hne, hpparse, hnoparen, hsteps' with
    | Loc.Obj n :: rest2, hsuf, hne, hpparse, hnoparen, hsteps' =>
      have hrest : rest2 = [] := of_decide_eq_true hsuf
      subst hrest
      have hasuf : attrSuffix [Loc.Obj n] false = piSuf := rfl
      have hpi : endsWith piSuf (Locator.print [Loc.Obj n] ++ piSuf) = true :=
        endsWith_append _ _
      have hgn : GoodStepB (Loc.Obj n) = true := hsteps' _ (by simp)
      have hps : PiXiSafeB (Loc.Obj n) = true := hgn
      have hb2 : strBytes (Locator.print [Loc.Obj n]) =
          (Locator.print [Loc.Obj n]).length + 1 := pixiSafe_bytes _ hps
      have hbytes : strBytes (Locator.print [Loc.Obj n] ++ piSuf) - 6 - 1 =
          (Locator.print [Loc.Obj n]).length := by
        rw [strBytes_append, hb2, show strBytes piSuf = 6 from by decide]
        omega
      have htake : (Locator.print [Loc.Obj n] ++ piSuf).take
          (strBytes (Locator.print [Loc.Obj n] ++ piSuf) - 6 - 1) =
          Locator.print [Loc.Obj n] := by
        rw [hbytes]
        exact List.take_left _ _
      have hxi2 : endsWith xiSuf (Locator.print [Loc.Obj n]) = false :=
        endsWith_xiSuf_false _ hnoparen
      rw [processPair, attrPart_split k [Loc.Obj n] false, hkpr]
      simp only [if_neg hcl, if_neg hcd, ← hkpr, hasuf, hpi,
        eq_self_iff_true, if_true, htake, hxi2, Bool.false_eq_true, if_false,
        hkparse, hpparse]
    | Loc.Root :: rest2, hsuf, hne, hpparse, hnoparen, _ =>
      exact processPair_attr_plain s obj k _ hkey hpparse hnoparen rfl
    | Loc.Rho :: rest2, hsuf, hne, hpparse, hnoparen, _ =>
      exact processPair_attr_plain s obj k _ hkey hpparse hnoparen rfl
    | Loc.Phi :: rest2, hsuf, hne, hpparse, hnoparen, _ =>
      exact processPair_attr_plain s obj k _ hkey hpparse hnoparen rfl
    | Loc.Pi :: rest2, hsuf, hne, hpparse, hnoparen, _ =>
      exact processPair_attr_plain s obj k _ hkey hpparse hnoparen rfl
    | Loc.Delta :: rest2, hsuf, hne, hpparse, hnoparen, _ =>
      exact processPair_attr_plain s obj k _ hkey hpparse hnoparen rfl
    | Loc.Sigma :: rest2, hsuf, hne, hpparse, hnoparen, _ =>
      exact processPair_attr_plain s obj k _ hkey hpparse hnoparen rfl
    | Loc.Attr i :: rest2, hsuf, hne, hpparse, hnoparen, _ =>
      exact processPair_attr_plain s obj k _ hkey hpparse hnoparen rfl


/-! ## Lambda and delta entry parses, and the attribute fold -/

theorem processPair_lambda (s : Str) (obj : Object) (name : Str) (a : Atom)
    (hmt : '↦' ∉ name) (hwh : ∀ c ∈ name, ¬ isWhite c)
    (hlook : atomLook name = some a) :
    processPair s obj (lambdaPart name) = .ok (Object.atomic name a) := by
  have hsplit : (splitOnChar '↦' (lambdaPart name)).map trim =
      [['λ'], name] := by
    rw [show lambdaPart name = ['λ'] ++ '↦' :: name from rfl,
      splitOnChar_append '↦' ['λ'] _ (by decide)]
    have h1 : splitOnChar '↦' ('↦' :: name) = [] :: splitOnChar '↦' name := by
      simp [splitOnChar]
    rw [h1, splitOnChar_noSep _ _ hmt]
    simp only [List.headI, List.tail, List.append_nil, List.map_cons,
      List.map_nil]
    rw [trim_eq_self _ (by decide), trim_eq_self _ hwh]
  rw [processPair, hsplit]
  simp [hlook]

theorem processPair_lambda_bad (s : Str) (obj : Object) (name : Str)
    (hmt : '↦' ∉ name) (hwh : ∀ c ∈ name, ¬ isWhite c)
    (hlook : atomLook name = none) :
    processPair s obj (lambdaPart name) =
      .error ("Unknown lambda '".data ++ name ++ "' in '".data ++ s ++
        "'".data) := by
  have hsplit : (splitOnChar '↦' (lambdaPart name)).map trim =
      [['λ'], name] := by
    rw [show lambdaPart name = ['λ'] ++ '↦' :: name from rfl,
      splitOnChar_append '↦' ['λ'] _ (by decide)]
    have h1 : splitOnChar '↦' ('↦' :: name) = [] :: splitOnChar '↦' name := by
      simp [splitOnChar]
    rw [h1, splitOnChar_noSep _ _ hmt]
    simp only [List.headI, List.tail, List.append_nil, List.map_cons,
      List.map_nil]
    rw [trim_eq_self _ (by decide), trim_eq_self _ hwh]
  rw [processPair, hsplit]
  simp [hlook]

theorem processPair_delta (s : Str) (obj : Object) (d : Int)
    (h0 : 0 ≤ d) (h32 : d < 32768) :
    processPair s obj (deltaPart d) = .ok (Object.dataic d) := by
  have hmt : '↦' ∉ '0' :: 'x' :: hex4 (data16 d) := by
    intro hm
    rcases List.mem_cons.mp hm with he | hm
    · exact absurd he.symm (by decide)
    · rcases List.mem_cons.mp hm with he | hm
      · exact absurd he.symm (by decide)
      · have := isUpperHex (c := '↦')
        have h2 := hex4_chars (data16 d) _ hm
        revert h2
        decide
  have hwh : ∀ c ∈ '0' :: 'x' :: hex4 (data16 d), ¬ isWhite c := by
    intro c hc
    rcases List.mem_cons.mp hc with rfl | hc
    · decide
    · rcases List.mem_cons.mp hc with rfl | hc
      · decide
      · exact (printChar_facts c
          (printChar_of_isUpperHex c (hex4_chars _ c hc))).2.2.2.2.2.2.1
  have hsplit : (splitOnChar '↦' (deltaPart d)).map trim =
      [['Δ'], '0' :: 'x' :: hex4 (data16 d)] := by
    rw [show deltaPart d = ['Δ'] ++ '↦' :: ('0' :: 'x' :: hex4 (data16 d))
        from rfl,
      splitOnChar_append '↦' ['Δ'] _ (by decide)]
    have h1 : splitOnChar '↦' ('↦' :: ('0' :: 'x' :: hex4 (data16 d))) =
        [] :: splitOnChar '↦' ('0' :: 'x' :: hex4 (data16 d)) := by
      simp [splitOnChar]
    rw [h1, splitOnChar_noSep _ _ hmt]
    simp only [List.headI, List.tail, List.append_nil, List.map_cons,
      List.map_nil]
    rw [trim_eq_self _ (by decide), trim_eq_self _ hwh]
  have hd16 : data16 d = d.toNat := by
    rw [data16, Int.emod_eq_of_lt h0 (by omega)]
  have hparse : i16FromStrRadix16 (hex4 (data16 d)) = .ok d := by
    rw [i16Hex_hex4 (data16 d) (by omega)]
    congr 1
    rw [hd16]
    exact_mod_cast Int.toNat_of_nonneg h0
  rw [processPair, hsplit]
  simp [hparse]

/-- Folding the attribute-entry parses over printed entries performs the
corresponding pushes. -/
theorem foldlM_attrEntries (s : Str) :
    ∀ (entries : List (Loc × Locator × Bool)) (obj : Object),
      (∀ e ∈ entries, GoodAttrB e = true) →
      (entries.map attrEntry).foldlM (processPair s) obj =
        .ok (entries.foldl (fun o e => o.push e.1 e.2.1 e.2.2) obj)
  | [], obj, _ => rfl
  | e :: rest, obj, hgood => by
    have h1 : processPair s obj (attrEntry e) = .ok (obj.push e.1 e.2.1 e.2.2) :=
      processPair_attr s obj e.1 e.2.1 e.2.2 (by
        have := hgood e (by simp)
        simpa using this)
    rw [List.map_cons, List.foldlM_cons, h1]
    show (rest.map attrEntry).foldlM (processPair s) (obj.push e.1 e.2.1 e.2.2) = _
    rw [foldlM_attrEntries s rest _ (fun x hx => hgood x (by simp [hx]))]
    rfl

/-- Folding pushes only grows the attribute list. -/
theorem foldl_push_spec :
    ∀ (entries : List (Loc × Locator × Bool)) (obj : Object),
      entries.foldl (fun o e => o.push e.1 e.2.1 e.2.2) obj =
        { delta := obj.delta, lambda := obj.lambda, constant := obj.constant,
          attrs := entries.foldl (fun l e => alistInsert l e.1 e.2) obj.attrs }
  | [], obj => rfl
  | e :: rest, obj => by
    rw [List.foldl_cons, List.foldl_cons, foldl_push_spec rest]
    rfl

theorem alistInsert_fresh {β : Type} (acc : List (Loc × β)) (k : Loc) (v : β)
    (h : k ∉ acc.map Prod.fst) : alistInsert acc k v = acc ++ [(k, v)] := by
  induction acc with
  | nil => rfl
  | cons e rest ih =>
    rw [alistInsert]
    have hk : e.1 ≠ k := by
      intro he
      exact h (by simp [he])
    rw [if_neg hk, ih (fun hm => h (by simp [hm]))]
    rfl

theorem foldl_alistInsert_fresh {β : Type} :
    ∀ (entries : List (Loc × β)) (acc : List (Loc × β)),
      (∀ e ∈ entries, e.1 ∉ acc.map Prod.fst) →
      (entries.map Prod.fst).Nodup →
      entries.foldl (fun l e => alistInsert l e.1 e.2) acc = acc ++ entries
  | [], acc, _, _ => by rw [List.foldl_nil, List.append_nil]
  | e :: rest, acc, hfresh, hnd => by
    rw [List.foldl_cons, alistInsert_fresh acc e.1 e.2 (hfresh e (by simp))]
    have hnd' : (rest.map Prod.fst).Nodup := by
      rw [List.map_cons] at hnd
      exact hnd.of_cons
    have hfresh' : ∀ x ∈ rest, x.1 ∉ (acc ++ [(e.1, e.2)]).map Prod.fst := by
      intro x hx
      rw [List.map_append, List.mem_append]
      intro hin
      rcases hin with hin | hin
      · exact hfresh x (by simp [hx]) hin
      · rw [List.map_cons] at hnd
        simp only [List.map_cons, List.map_nil, List.mem_singleton] at hin
        have : x.1 ∈ rest.map Prod.fst := List.mem_map_of_mem Prod.fst hx
        rw [List.nodup_cons] at hnd
        exact hnd.1 (hin ▸ this)
    rw [foldl_alistInsert_fresh rest _ hfresh' hnd']
    simp


/-! ## Object print structure -/

theorem attrEntry_eq (e : Loc × Locator × Bool) :
    attrEntry e = attrPart e.1 e.2.1 e.2.2 := rfl

theorem objectParts_eq (o : Object) : Object.parts o =
    (match o.lambda with
     | some (n, _) => [lambdaPart n]
     | none => []) ++
    (match o.delta with
     | some d => [deltaPart d]
     | none => []) ++ o.attrs.map attrEntry := rfl

theorem sortedAttrs_map (o : Object) :
    (sortedAttrs o).map attrEntry = sortParts (o.attrs.map attrEntry) :=
  insertionSort_map attrEntry o.attrs

theorem sortedAttrs_perm (o : Object) : (sortedAttrs o).Perm o.attrs :=
  List.perm_insertionSort _ o.attrs

theorem sortedAttrs_sortedMap (o : Object) :
    List.Sorted SLe ((sortedAttrs o).map attrEntry) := by
  rw [sortedAttrs_map]
  exact sortParts_sorted _

theorem sortedAttrs_good (o : Object) (h : ∀ e ∈ o.attrs, GoodAttrB e = true) :
    ∀ e ∈ sortedAttrs o, GoodAttrB e = true :=
  fun e he => h e ((sortedAttrs_perm o).mem_iff.mp he)

theorem sortedAttrs_nodup (o : Object)
    (h : (o.attrs.map Prod.fst).Nodup) :
    ((sortedAttrs o).map Prod.fst).Nodup :=
  (((sortedAttrs_perm o).map Prod.fst).nodup_iff).mpr h

theorem goodAttr_key (e : Loc × Locator × Bool) (h : GoodAttrB e = true) :
    GoodKeyB e.1 = true := by
  obtain ⟨k, p, xi⟩ := e
  simp only [GoodAttrB, Bool.and_eq_true] at h
  exact h.1.1.1

theorem locPrint_head_gt916 (k : Loc) (hk : GoodKeyB k = true) :
    ∃ c rest, Loc.print k = c :: rest ∧ 916 < c.toNat := by
  cases k with
  | Delta => exact absurd hk (by decide)
  | Root => exact ⟨'Φ', [], rfl, by decide⟩
  | Rho => exact ⟨'ρ', [], rfl, by decide⟩
  | Phi => exact ⟨'𝜑', [], rfl, by decide⟩
  | Pi => exact ⟨'𝜋', [], rfl, by decide⟩
  | Sigma => exact ⟨'σ', [], rfl, by decide⟩
  | Attr i => exact ⟨'𝛼', intToChars i, rfl, by decide⟩
  | Obj n => exact ⟨'ν', decDigits n, rfl, by decide⟩

theorem locPrint_head_gt955 (k : Loc) (hk : GoodKeyB k = true)
    (hr : k ≠ Loc.Root) : ∃ c rest, Loc.print k = c :: rest ∧ 955 < c.toNat := by
  cases k with
  | Delta => exact absurd hk (by decide)
  | Root => exact absurd rfl hr
  | Rho => exact ⟨'ρ', [], rfl, by decide⟩
  | Phi => exact ⟨'𝜑', [], rfl, by decide⟩
  | Pi => exact ⟨'𝜋', [], rfl, by decide⟩
  | Sigma => exact ⟨'σ', [], rfl, by decide⟩
  | Attr i => exact ⟨'𝛼', intToChars i, rfl, by decide⟩
  | Obj n => exact ⟨'ν', decDigits n, rfl, by decide⟩

theorem SLe_cons_lt (a b : Char) (x y : Str) (hab : a < b) :
    SLe (a :: x) (b :: y) := by
  simp [SLe, strLeB, hab]

theorem deltaPart_le_attrEntry (d : Int) (e : Loc × Locator × Bool)
    (hk : GoodKeyB e.1 = true) : SLe (deltaPart d) (attrEntry e) := by
  obtain ⟨c, rest, hpr, hgt⟩ := locPrint_head_gt916 e.1 hk
  rw [attrEntry_eq, attrPart, hpr, List.cons_append]
  show SLe ('Δ' :: _) _
  exact SLe_cons_lt _ _ _ _ (show 'Δ'.toNat < c.toNat from hgt)

theorem lambdaPart_le_attrEntry (n : Str) (e : Loc × Locator × Bool)
    (hk : GoodKeyB e.1 = true) (hr : e.1 ≠ Loc.Root) :
    SLe (lambdaPart n) (attrEntry e) := by
  obtain ⟨c, rest, hpr, hgt⟩ := locPrint_head_gt955 e.1 hk hr
  rw [attrEntry_eq, attrPart, hpr, List.cons_append]
  show SLe ('λ' :: _) _
  exact SLe_cons_lt _ _ _ _ (show 'λ'.toNat < c.toNat from hgt)

theorem attrEntry_head (e : Loc × Locator × Bool) (hk : GoodKeyB e.1 = true) :
    ∃ c t, attrEntry e = c :: t ∧ printChar c = true := by
  obtain ⟨c, rest, hpr, _⟩ := locPrint_head_gt916 e.1 hk
  refine ⟨c, rest ++ '↦' :: (Locator.print e.2.1 ++ attrSuffix e.2.1 e.2.2),
    ?_, ?_⟩
  · rw [attrEntry_eq, attrPart, hpr, List.cons_append]
  · exact locPrint_printChar e.1 c (by rw [hpr]; simp)

/-- Head- and last-character conditions under which `trim` is the
identity. -/
theorem trim_eq_self_ends (l : Str)
    (hh : ∀ c t, l = c :: t → ¬ isWhite c)
    (hl : ∀ c, l.getLast? = some c → ¬ isWhite c) : trim l = l := by
  have h1 : trimLeft l = l := by
    cases l with
    | nil => rfl
    | cons c cs =>
      rw [trimLeft, List.dropWhile_cons_of_neg]
      simp [hh c cs rfl]
  rw [trim, h1, trimRight]
  cases hrev : l.reverse with
  | nil =>
    have h0 : l = [] := List.reverse_eq_nil_iff.mp hrev
    subst h0
    rfl
  | cons c cs =>
    have hc : l.getLast? = some c := by
      rw [← List.head?_reverse, hrev]
      rfl
    rw [List.dropWhile_cons_of_neg (by simp [hl c hc]), ← hrev,
      List.reverse_reverse]

theorem joinSep_head (sep : Str) (p : Str) (rest : List Str) (c : Char)
    (t : Str) (hp : p = c :: t) :
    ∃ t2, joinSep sep (p :: rest) = c :: t2 := by
  cases rest with
  | nil => exact ⟨t, by rw [joinSep, hp]⟩
  | cons q rs =>
    refine ⟨t ++ sep ++ joinSep sep (q :: rs), ?_⟩
    rw [show joinSep sep (p :: q :: rs) = p ++ sep ++ joinSep sep (q :: rs)
      from rfl, hp]
    simp

theorem joinSep_last (sep : Str) :
    ∀ (parts : List Str), parts ≠ [] → (∀ p ∈ parts, p ≠ []) →
      ∃ p ∈ parts, ∃ c, p.getLast? = some c ∧
        (joinSep sep parts).getLast? = some c
  | [], hne, _ => absurd rfl hne
  | [p], _, hall => by
    have hp : p ≠ [] := hall p (by simp)
    obtain ⟨c, hc⟩ : ∃ c, p.getLast? = some c := by
      cases hlast : p.getLast? with
      | none => exact absurd (List.getLast?_eq_none_iff.mp hlast) hp
      | some c => exact ⟨c, rfl⟩
    exact ⟨p, by simp, c, hc, by rw [joinSep]; exact hc⟩
  | p :: q :: rest, _, hall => by
    obtain ⟨x, hx1, c, hc1, hc2⟩ := joinSep_last sep (q :: rest) (by simp)
      (fun y hy => hall y (by simp [hy]))
    refine ⟨x, by simp [hx1], c, hc1, ?_⟩
    rw [show joinSep sep (p :: q :: rest) = p ++ sep ++ joinSep sep (q :: rest)
      from rfl]
    rw [List.append_assoc, List.getLast?_append, List.getLast?_append, hc2]
    rfl

theorem atomLook_mem (n : Str) (hn : n ∈ registryNames) :
    ∃ a, atomLook n = some a := by
  simp only [registryNames, List.mem_cons, List.not_mem_nil, or_false] at hn
  rcases hn with rfl | rfl | rfl | rfl | rfl | rfl | rfl <;>
    exact ⟨_, rfl⟩

theorem registryName_chars (n : Str) (hn : n ∈ registryNames) :
    '↦' ∉ n ∧ ∀ c ∈ n, ¬ isWhite c := by
  simp only [registryNames, List.mem_cons, List.not_mem_nil, or_false] at hn
  rcases hn with rfl | rfl | rfl | rfl | rfl | rfl | rfl <;>
    exact ⟨by decide, by decide⟩


/-! ## Joined-parts facts -/

theorem joined_mem (parts : List Str) (c : Char)
    (hc : c ∈ joinSep [',', ' '] parts)
    (hchar : ∀ p ∈ parts, ∀ x ∈ p, printChar x = true) :
    printChar c = true ∨ c = ',' ∨ c = ' ' := by
  rcases joinSep_chars _ parts c hc with h | ⟨p, hp1, hp2⟩
  · rcases List.mem_cons.mp h with rfl | h
    · right; left; rfl
    · right; right; exact List.mem_singleton.mp h
  · left; exact hchar p hp1 c hp2

theorem joined_no_bad (parts : List Str)
    (hchar : ∀ p ∈ parts, ∀ x ∈ p, printChar x = true) :
    '⟧' ∉ joinSep [',', ' '] parts ∧ '\n' ∉ joinSep [',', ' '] parts ∧
      ']' ∉ joinSep [',', ' '] parts := by
  refine ⟨fun hm => ?_, fun hm => ?_, fun hm => ?_⟩ <;>
    rcases joined_mem parts _ hm hchar with h | h | h <;>
      first
        | exact absurd rfl (printChar_facts _ h).2.2.2.1
        | exact absurd rfl (printChar_facts _ h).2.1
        | exact absurd rfl (printChar_facts _ h).2.2.2.2.2.1
        | exact absurd h (by decide)

theorem joined_trim (parts : List Str) (hne : parts ≠ [])
    (hchar : ∀ p ∈ parts, ∀ x ∈ p, printChar x = true)
    (hpne : ∀ p ∈ parts, p ≠ []) :
    trim (joinSep [',', ' '] parts) = joinSep [',', ' '] parts := by
  match parts, hne with
  | p :: rest, _ =>
    match hp : p, hpne p (by simp) with
    | c :: t, _ =>
      obtain ⟨t2, ht2⟩ := joinSep_head [',', ' '] (c :: t) rest c t rfl
      apply trim_eq_self_ends
      · intro c' t' he
        rw [ht2] at he
        have hcc : c = c' := List.head_eq_of_cons_eq he
        subst hcc
        have : printChar c = true := hchar (c :: t) (by simp) c (by simp)
        exact (printChar_facts _ this).2.2.2.2.2.2.1
      · intro c' hl
        obtain ⟨q, hq1, c2, hc21, hc22⟩ := joinSep_last [',', ' ']
          ((c :: t) :: rest) (by simp)
          (by
            intro y hy
            rcases List.mem_cons.mp hy with rfl | hy
            · simp
            · exact hpne y (by simp [hy]))
        have hcc : c' = c2 := (Option.some.inj (hc22.symm.trans hl)).symm
        subst hcc
        have hmem : c' ∈ q := List.mem_of_mem_getLast? hc21
        have : printChar c' = true := hchar q hq1 c' hmem
        exact (printChar_facts _ this).2.2.2.2.2.2.1

theorem joined_not_bang (parts : List Str) (hne : parts ≠ [])
    (hchar : ∀ p ∈ parts, ∀ x ∈ p, printChar x = true)
    (hpne : ∀ p ∈ parts, p ≠ []) :
    ∀ rest, joinSep [',', ' '] parts ≠ '!' :: rest := by
  match parts, hne with
  | p :: rest0, _ =>
    match hp : p, hpne p (by simp) with
    | c :: t, _ =>
      intro rest he
      obtain ⟨t2, ht2⟩ := joinSep_head [',', ' '] (c :: t) rest0 c t rfl
      rw [ht2] at he
      have hcc : c = '!' := List.head_eq_of_cons_eq he
      have : printChar c = true := hchar (c :: t) (by simp) c (by simp)
      exact (printChar_facts _ this).2.2.2.2.2.2.2 hcc

theorem split_trim_joined (parts : List Str) (hne : parts ≠ [])
    (hchar : ∀ p ∈ parts, ∀ x ∈ p, printChar x = true) :
    (splitOnChar ',' (joinSep [',', ' '] parts)).map trim = parts := by
  match parts, hne with
  | p :: rest, _ =>
    have hnosep : ∀ x ∈ p :: rest, ',' ∉ x := by
      intro x hx hm
      exact (printChar_facts _ (hchar x hx ',' hm)).1 rfl
    rw [splitOnChar_joinSep p rest hnosep, List.map_cons]
    have htp : trim p = p :=
      trim_eq_self p (fun c hc => (printChar_facts _ (hchar p (by simp) c hc)).2.2.2.2.2.2.1)
    rw [htp]
    congr 1
    rw [List.map_map]
    have : ∀ q ∈ rest, (trim ∘ (' ' :: ·)) q = q := by
      intro q hq
      show trim (' ' :: q) = q
      rw [trim_space_cons]
      exact trim_eq_self q
        (fun c hc => (printChar_facts _ (hchar q (by simp [hq]) c hc)).2.2.2.2.2.2.1)
    exact List.map_congr_left this |>.trans (List.map_id _)


/-! ## Sorted parts structure -/

theorem sortParts_parts_none (o : Object) (hl : o.lambda = none)
    (hd : o.delta = none) :
    sortParts (Object.parts o) = (sortedAttrs o).map attrEntry := by
  rw [objectParts_eq, hl, hd, sortedAttrs_map]
  rfl

theorem sortParts_parts_delta (o : Object) (d : Int) (hl : o.lambda = none)
    (hd : o.delta = some d) (hkeys : ∀ e ∈ o.attrs, GoodAttrB e = true) :
    sortParts (Object.parts o) = deltaPart d :: (sortedAttrs o).map attrEntry := by
  rw [objectParts_eq, hl, hd]
  have hshape : (([] : List Str) ++ [deltaPart d] ++ o.attrs.map attrEntry) =
      deltaPart d :: o.attrs.map attrEntry := by simp
  rw [hshape, sortParts_cons_min, sortedAttrs_map]
  intro y hy
  obtain ⟨e, he, rfl⟩ := List.mem_map.mp hy
  exact deltaPart_le_attrEntry d e (goodAttr_key e (hkeys e he))

theorem sortParts_parts_lambda (o : Object) (nm : Str) (a : Atom)
    (hl : o.lambda = some (nm, a)) (hd : o.delta = none)
    (hkeys : ∀ e ∈ o.attrs, GoodAttrB e = true)
    (hnr : ∀ e ∈ o.attrs, e.1 ≠ Loc.Root) :
    sortParts (Object.parts o) = lambdaPart nm :: (sortedAttrs o).map attrEntry := by
  rw [objectParts_eq, hl, hd]
  have hshape : ([lambdaPart nm] ++ ([] : List Str) ++ o.attrs.map attrEntry) =
      lambdaPart nm :: o.attrs.map attrEntry := by simp
  rw [hshape, sortParts_cons_min, sortedAttrs_map]
  intro y hy
  obtain ⟨e, he, rfl⟩ := List.mem_map.mp hy
  exact lambdaPart_le_attrEntry nm e (goodAttr_key e (hkeys e he)) (hnr e he)

/-- The sorted attribute entries are themselves already sorted, so a
further sort is the identity. -/
theorem sortParts_sortedAttrs_map (o : Object) :
    sortParts ((sortedAttrs o).map attrEntry) = (sortedAttrs o).map attrEntry :=
  sortParts_of_sorted _ (sortedAttrs_sortedMap o)


/-! ## Object round-trip -/

/-- Core of the object round-trip: once the sorted part list is known,
`Object::from_str` of the print reduces to the fold of the entry parses. -/
theorem objectFromStr_print_core (o : Object) (SP : List Str)
    (hSP : sortParts (Object.parts o) = SP) (hne : SP ≠ [])
    (hchar : ∀ p ∈ SP, ∀ c ∈ p, printChar c = true)
    (hpne : ∀ p ∈ SP, p ≠ [])
    (obj0 : Object)
    (hfold : SP.foldlM (processPair (Object.print o)) Object.open' = .ok obj0) :
    Object.fromStr (Object.print o) =
      .ok (if o.constant then { obj0 with constant := true } else obj0) := by
  have hpr : Object.print o = '⟦' ::
      (((if o.constant then ['!', ' '] else []) ++
        joinSep [',', ' '] SP) ++ ['⟧']) := by
    rw [Object.print, hSP, List.cons_append]
  obtain ⟨hnobr, hnonl, _⟩ := joined_no_bad SP hchar
  have htrim : trim (joinSep [',', ' '] SP) = joinSep [',', ' '] SP :=
    joined_trim SP hne hchar hpne
  have hsplit : (splitOnChar ',' (joinSep [',', ' '] SP)).map trim = SP :=
    split_trim_joined SP hne hchar
  by_cases hc : o.constant = true
  · have hcap : objCaptures (Object.print o) =
        some (true, ' ' :: joinSep [',', ' '] SP) := by
      rw [hpr, if_pos hc]
      exact objCaptures_bang (' ' :: joinSep [',', ' '] SP)
        (by
          intro hm
          rcases List.mem_cons.mp hm with he | hm
          · exact absurd he.symm (by decide)
          · exact hnobr hm)
        (by
          intro hm
          rcases List.mem_cons.mp hm with he | hm
          · exact absurd he.symm (by decide)
          · exact hnonl hm)
    rw [Object.fromStr, hcap]
    have hin : trim (' ' :: joinSep [',', ' '] SP) = joinSep [',', ' '] SP := by
      rw [trim_space_cons, htrim]
    simp only [hin, hsplit, hfold, hc, if_true]
  · have hcb : o.constant = false := by
      cases hcb2 : o.constant
      · rfl
      · exact absurd hcb2 hc
    have hcap : objCaptures (Object.print o) =
        some (false, joinSep [',', ' '] SP) := by
      rw [hpr, hcb]
      have h0 : (([] : Str) ++ joinSep [',', ' '] SP) ++ ['⟧'] =
          joinSep [',', ' '] SP ++ ['⟧'] := by simp
      rw [if_neg (by simp), h0]
      exact objCaptures_plain (joinSep [',', ' '] SP) hnobr hnonl
        (joined_not_bang SP hne hchar hpne)
    rw [Object.fromStr, hcap]
    simp only [htrim, hsplit, hfold, hcb, Bool.false_eq_true, if_false]

theorem goodAttr_entry_chars (e : Loc × Locator × Bool) :
    ∀ c ∈ attrEntry e, printChar c = true := by
  rw [attrEntry_eq]
  exact attrPart_printChar e.1 e.2.1 e.2.2

theorem goodAttr_entry_ne_nil (e : Loc × Locator × Bool)
    (hk : GoodKeyB e.1 = true) : attrEntry e ≠ [] := by
  obtain ⟨c, t, he, _⟩ := attrEntry_head e hk
  rw [he]
  simp

/-- The attribute entries of a sorted attribute list are pairwise below
each successor, so sorting the pure-attribute part list is the identity;
packaged per case of the λ/Δ slot. -/
theorem sortParts_lambda_cons (nm : Str) (SA : List (Loc × Locator × Bool))
    (hgood : ∀ e ∈ SA, GoodAttrB e = true)
    (hnr : ∀ e ∈ SA, e.1 ≠ Loc.Root)
    (hsorted : List.Sorted SLe (SA.map attrEntry)) :
    sortParts (lambdaPart nm :: SA.map attrEntry) =
      lambdaPart nm :: SA.map attrEntry := by
  rw [sortParts_cons_min, sortParts_of_sorted _ hsorted]
  intro y hy
  obtain ⟨e, he, rfl⟩ := List.mem_map.mp hy
  exact lambdaPart_le_attrEntry nm e (goodAttr_key e (hgood e he)) (hnr e he)

theorem sortParts_delta_cons (d : Int) (SA : List (Loc × Locator × Bool))
    (hgood : ∀ e ∈ SA, GoodAttrB e = true)
    (hsorted : List.Sorted SLe (SA.map attrEntry)) :
    sortParts (deltaPart d :: SA.map attrEntry) =
      deltaPart d :: SA.map attrEntry := by
  rw [sortParts_cons_min, sortParts_of_sorted _ hsorted]
  intro y hy
  obtain ⟨e, he, rfl⟩ := List.mem_map.mp hy
  exact deltaPart_le_attrEntry d e (goodAttr_key e (hgood e he))

/-- The amended object round-trip: for a well-formed object the printed
text parses back and reprints identically. -/
theorem objectRoundtrip (o : Object) (hgood : GoodObjectB o = true) :
    ∃ o', Object.fromStr (Object.print o) = .ok o' ∧
      Object.print o' = Object.print o := by
  simp only [GoodObjectB, Bool.and_eq_true] at hgood
  obtain ⟨⟨⟨⟨⟨hA, hB⟩, hC⟩, hD⟩, hE⟩, hF⟩ := hgood
  have hFgood : ∀ e ∈ o.attrs, GoodAttrB e = true :=
    fun e he => List.all_eq_true.mp hF e he
  have hnodup : (o.attrs.map Prod.fst).Nodup := of_decide_eq_true hE
  have hSAgood : ∀ e ∈ sortedAttrs o, GoodAttrB e = true :=
    sortedAttrs_good o hFgood
  have hSAnodup : ((sortedAttrs o).map Prod.fst).Nodup :=
    sortedAttrs_nodup o hnodup
  have hSAchar : ∀ p ∈ (sortedAttrs o).map attrEntry, ∀ c ∈ p,
      printChar c = true := by
    intro p hp
    obtain ⟨e, _, rfl⟩ := List.mem_map.mp hp
    rw [attrEntry_eq]
    exact attrPart_printChar e.1 e.2.1 e.2.2
  have hSApne : ∀ p ∈ (sortedAttrs o).map attrEntry, p ≠ [] := by
    intro p hp
    obtain ⟨e, he, rfl⟩ := List.mem_map.mp hp
    exact goodAttr_entry_ne_nil e (goodAttr_key e (hSAgood e he))
  have hSAfold : ∀ obj : Object, obj.attrs = [] →
      ((sortedAttrs o).map attrEntry).foldlM (processPair (Object.print o)) obj =
        .ok { delta := obj.delta, lambda := obj.lambda,
              constant := obj.constant, attrs := sortedAttrs o } := by
    intro obj hoa
    rw [foldlM_attrEntries (Object.print o) (sortedAttrs o) obj hSAgood,
      foldl_push_spec,
      foldl_alistInsert_fresh (sortedAttrs o) obj.attrs
        (by rw [hoa]; intro e _; simp) hSAnodup, hoa, List.nil_append]
  cases hl : o.lambda with
  | some nmav =>
    obtain ⟨nm, av⟩ := nmav
    cases hd : o.delta with
    | some d =>
      rw [hl, hd] at hC
      exact absurd hC (by simp)
    | none =>
      rw [hl] at hD
      rw [Bool.and_eq_true] at hD
      have hreg : nm ∈ registryNames := of_decide_eq_true hD.1
      have hnr : ∀ e ∈ o.attrs, e.1 ≠ Loc.Root :=
        fun e he => of_decide_eq_true (List.all_eq_true.mp hD.2 e he)
      have hSAnr : ∀ e ∈ sortedAttrs o, e.1 ≠ Loc.Root :=
        fun e he => hnr e ((sortedAttrs_perm o).mem_iff.mp he)
      obtain ⟨a2, hlook⟩ := atomLook_mem nm hreg
      obtain ⟨hmt, hwh⟩ := registryName_chars nm hreg
      have hSP : sortParts (Object.parts o) =
          lambdaPart nm :: (sortedAttrs o).map attrEntry :=
        sortParts_parts_lambda o nm av hl hd hFgood hnr
      have hchar : ∀ p ∈ lambdaPart nm :: (sortedAttrs o).map attrEntry,
          ∀ c ∈ p, printChar c = true := by
        intro p hp
        rcases List.mem_cons.mp hp with rfl | hp
        · exact lambdaPart_printChar nm hreg
        · exact hSAchar p hp
      have hpne : ∀ p ∈ lambdaPart nm :: (sortedAttrs o).map attrEntry,
          p ≠ [] := by
        intro p hp
        rcases List.mem_cons.mp hp with rfl | hp
        · simp [lambdaPart]
        · exact hSApne p hp
      have hfold : (lambdaPart nm :: (sortedAttrs o).map attrEntry).foldlM
          (processPair (Object.print o)) Object.open' =
          .ok ⟨none, some (nm, a2), false, sortedAttrs o⟩ := by
        rw [List.foldlM_cons,
          processPair_lambda (Object.print o) Object.open' nm a2 hmt hwh hlook]
        show ((sortedAttrs o).map attrEntry).foldlM (processPair (Object.print o))
          (Object.atomic nm a2) = _
        rw [hSAfold (Object.atomic nm a2) rfl]
        rfl
      have hcore := objectFromStr_print_core o _ hSP (by simp) hchar hpne
        ⟨none, some (nm, a2), false, sortedAttrs o⟩ hfold
      refine ⟨_, hcore, ?_⟩
      have ho2 : (if o.constant then
            ({ (⟨none, some (nm, a2), false, sortedAttrs o⟩ : Object) with
               constant := true } : Object)
          else (⟨none, some (nm, a2), false, sortedAttrs o⟩ : Object)) =
          (⟨none, some (nm, a2), o.constant, sortedAttrs o⟩ : Object) := by
        cases hoc : o.constant <;> rfl
      rw [ho2]
      have hparts2 : Object.parts ⟨none, some (nm, a2), o.constant,
          sortedAttrs o⟩ = lambdaPart nm :: (sortedAttrs o).map attrEntry := by
        rw [objectParts_eq]
        simp [attrEntry_eq]
      rw [Object.print, Object.print, hSP, hparts2,
        sortParts_lambda_cons nm (sortedAttrs o) hSAgood hSAnr
          (sortedAttrs_sortedMap o)]
  | none =>
    cases hd : o.delta with
    | some d =>
      rw [hd] at hB
      simp only [Bool.and_eq_true, decide_eq_true_eq] at hB
      obtain ⟨⟨h0, h32⟩, hoc⟩ := hB
      have hSP : sortParts (Object.parts o) =
          deltaPart d :: (sortedAttrs o).map attrEntry :=
        sortParts_parts_delta o d hl hd hFgood
      have hchar : ∀ p ∈ deltaPart d :: (sortedAttrs o).map attrEntry,
          ∀ c ∈ p, printChar c = true := by
        intro p hp
        rcases List.mem_cons.mp hp with rfl | hp
        · exact deltaPart_printChar d
        · exact hSAchar p hp
      have hpne : ∀ p ∈ deltaPart d :: (sortedAttrs o).map attrEntry,
          p ≠ [] := by
        intro p hp
        rcases List.mem_cons.mp hp with rfl | hp
        · simp [deltaPart]
        · exact hSApne p hp
      have hfold : (deltaPart d :: (sortedAttrs o).map attrEntry).foldlM
          (processPair (Object.print o)) Object.open' =
          .ok ⟨some d, none, true, sortedAttrs o⟩ := by
        rw [List.foldlM_cons,
          processPair_delta (Object.print o) Object.open' d h0 h32]
        show ((sortedAttrs o).map attrEntry).foldlM (processPair (Object.print o))
          (Object.dataic d) = _
        rw [hSAfold (Object.dataic d) rfl]
        rfl
      have hcore := objectFromStr_print_core o _ hSP (by simp) hchar hpne
        ⟨some d, none, true, sortedAttrs o⟩ hfold
      refine ⟨_, hcore, ?_⟩
      have ho2 : (if o.constant then
            ({ (⟨some d, none, true, sortedAttrs o⟩ : Object) with
               constant := true } : Object)
          else (⟨some d, none, true, sortedAttrs o⟩ : Object)) =
          (⟨some d, none, true, sortedAttrs o⟩ : Object) := by
        rw [hoc]
        rfl
      rw [ho2]
      have hparts2 : Object.parts ⟨some d, none, true, sortedAttrs o⟩ =
          deltaPart d :: (sortedAttrs o).map attrEntry := by
        rw [objectParts_eq]
        simp [attrEntry_eq]
      rw [Object.print, Object.print, hSP, hparts2,
        sortParts_delta_cons d (sortedAttrs o) hSAgood
          (sortedAttrs_sortedMap o)]
      rw [show (⟨some d, none, true, sortedAttrs o⟩ : Object).constant = true
          from rfl, hoc]
    | none =>
      rw [hl, hd] at hA
      simp only [Option.isSome_none, Bool.false_or, Bool.or_eq_true,
        decide_eq_true_eq] at hA
      have hSAne : sortedAttrs o ≠ [] := by
        intro hnil
        exact hA ((hnil ▸ sortedAttrs_perm o).symm.eq_nil)
      have hSP : sortParts (Object.parts o) = (sortedAttrs o).map attrEntry :=
        sortParts_parts_none o hl hd
      have hne2 : (sortedAttrs o).map attrEntry ≠ [] := by
        intro hnil
        exact hSAne (List.map_eq_nil.mp hnil)
      have hfold : ((sortedAttrs o).map attrEntry).foldlM
          (processPair (Object.print o)) Object.open' =
          .ok ⟨none, none, false, sortedAttrs o⟩ := by
        rw [hSAfold Object.open' rfl]
        rfl
      have hcore := objectFromStr_print_core o _ hSP hne2 hSAchar hSApne
        ⟨none, none, false, sortedAttrs o⟩ hfold
      refine ⟨_, hcore, ?_⟩
      have ho2 : (if o.constant then
            ({ (⟨none, none, false, sortedAttrs o⟩ : Object) with
               constant := true } : Object)
          else (⟨none, none, false, sortedAttrs o⟩ : Object)) =
          (⟨none, none, o.constant, sortedAttrs o⟩ : Object) := by
        cases hoc : o.constant <;> rfl
      rw [ho2]
      have hparts2 : Object.parts ⟨none, none, o.constant, sortedAttrs o⟩ =
          (sortedAttrs o).map attrEntry := by
        rw [objectParts_eq]
        simp [attrEntry_eq]
      rw [Object.print, Object.print, hSP, hparts2,
        sortParts_of_sorted _ (sortedAttrs_sortedMap o)]


/-! ## Basket round-trip -/

theorem sortedKids_map (b : Basket) :
    (sortedKids b).map kidEntry = sortParts (b.kids.map kidEntry) :=
  insertionSort_map kidEntry b.kids

theorem sortedKids_perm (b : Basket) : (sortedKids b).Perm b.kids :=
  List.perm_insertionSort _ b.kids

theorem sortedKids_sortedMap (b : Basket) :
    List.Sorted SLe ((sortedKids b).map kidEntry) := by
  rw [sortedKids_map]
  exact sortParts_sorted _

theorem sortedKids_nodup (b : Basket) (h : (b.kids.map Prod.fst).Nodup) :
    ((sortedKids b).map Prod.fst).Nodup :=
  (((sortedKids_perm b).map Prod.fst).nodup_iff).mpr h

theorem sortedKids_good (b : Basket)
    (h : ∀ e ∈ b.kids, GoodStepB e.1 = true ∧ GoodKidB e.2 = true) :
    ∀ e ∈ sortedKids b, GoodStepB e.1 = true ∧ GoodKidB e.2 = true :=
  fun e he => h e ((sortedKids_perm b).mem_iff.mp he)

/-- Folding the kid-entry parses over printed entries performs the
corresponding puts. -/
theorem foldlM_kidEntries :
    ∀ (entries : List (Loc × Kid)) (b : Basket),
      (∀ e ∈ entries, GoodStepB e.1 = true ∧ GoodKidB e.2 = true) →
      (entries.map kidEntry).foldlM processKid b =
        .ok (entries.foldl (fun bb e => bb.put e.1 e.2) b)
  | [], b, _ => rfl
  | e :: rest, b, hgood => by
    obtain ⟨hk, hkid⟩ := hgood e (by simp)
    have h1 : processKid b (kidEntry e) = .ok (b.put e.1 e.2) :=
      processKid_entry b e.1 e.2 hk hkid
    rw [List.map_cons, List.foldlM_cons, h1]
    show (rest.map kidEntry).foldlM processKid (b.put e.1 e.2) = _
    rw [foldlM_kidEntries rest _ (fun x hx => hgood x (by simp [hx]))]
    rfl

/-- Folding puts only grows the kid list. -/
theorem foldl_put_spec :
    ∀ (entries : List (Loc × Kid)) (b : Basket),
      entries.foldl (fun bb e => bb.put e.1 e.2) b =
        { ob := b.ob, psi := b.psi,
          kids := entries.foldl (fun l e => alistInsert l e.1 e.2) b.kids }
  | [], _ => rfl
  | e :: rest, b => by
    rw [List.foldl_cons, List.foldl_cons, foldl_put_spec rest]
    rfl

theorem kidEntry_printChar (e : Loc × Kid) :
    ∀ c ∈ kidEntry e, printChar c = true := by
  intro c hc
  rw [kidEntry, List.mem_append] at hc
  rcases hc with hc | hc
  · exact locPrint_printChar e.1 c hc
  · exact kidPrint_printChar e.2 c hc

theorem kidEntry_ne_nil (e : Loc × Kid) : kidEntry e ≠ [] := by
  rw [kidEntry]
  intro h
  exact locPrint_ne_nil e.1 (List.append_eq_nil.mp h).1

/-- The amended basket round-trip: for a well-formed basket the printed
text parses back and reprints identically. -/
theorem basketRoundtrip (b : Basket) (hgood : GoodBasketB b = true) :
    ∃ b2, Basket.fromStr (Basket.print b) = .ok b2 ∧
      Basket.print b2 = Basket.print b := by
  simp only [GoodBasketB, Bool.and_eq_true, decide_eq_true_eq] at hgood
  obtain ⟨⟨⟨⟨hob, hpsi1⟩, hpsi2⟩, hnd⟩, hkids⟩ := hgood
  have hK : ∀ e ∈ b.kids, GoodStepB e.1 = true ∧ GoodKidB e.2 = true := by
    intro e he
    have := List.all_eq_true.mp hkids e he
    simpa using this
  have hSK : ∀ e ∈ sortedKids b, GoodStepB e.1 = true ∧ GoodKidB e.2 = true :=
    sortedKids_good b hK
  have hSKnd : ((sortedKids b).map Prod.fst).Nodup := sortedKids_nodup b hnd
  have hchar : ∀ p ∈ ('ν' :: decDigits b.ob) ::
      (['ξ', ':', 'β'] ++ intToChars b.psi) :: (sortedKids b).map kidEntry,
      ∀ c ∈ p, printChar c = true := by
    intro p hp
    rcases List.mem_cons.mp hp with rfl | hp
    · intro c hc
      rcases List.mem_cons.mp hc with rfl | hc
      · decide
      · exact printChar_of_isDigit c (decDigits_digits _ c hc)
    rcases List.mem_cons.mp hp with rfl | hp
    · intro c hc
      rcases List.mem_append.mp hc with hc | hc
      · fin_cases hc <;> decide
      · exact printChar_intToChars b.psi c hc
    obtain ⟨e, _, rfl⟩ := List.mem_map.mp hp
    exact kidEntry_printChar e
  have hpne : ∀ p ∈ ('ν' :: decDigits b.ob) ::
      (['ξ', ':', 'β'] ++ intToChars b.psi) :: (sortedKids b).map kidEntry,
      p ≠ [] := by
    intro p hp
    rcases List.mem_cons.mp hp with rfl | hp
    · simp
    rcases List.mem_cons.mp hp with rfl | hp
    · simp
    obtain ⟨e, _, rfl⟩ := List.mem_map.mp hp
    exact kidEntry_ne_nil e
  obtain ⟨_, hnonl, hnobr⟩ := joined_no_bad _ hchar
  have hprint : Basket.print b = '[' :: (joinSep [',', ' ']
      (('ν' :: decDigits b.ob) :: (['ξ', ':', 'β'] ++ intToChars b.psi) ::
        (sortedKids b).map kidEntry) ++ [']']) := by
    have h0 : Basket.print b = '[' :: (joinSep [',', ' ']
        (('ν' :: decDigits b.ob) :: (['ξ', ':', 'β'] ++ intToChars b.psi) ::
          sortParts (b.kids.map kidEntry)) ++ [']']) := rfl
    rw [h0, ← sortedKids_map]
  have hcap : basketCaptures (Basket.print b) = some (joinSep [',', ' ']
      (('ν' :: decDigits b.ob) :: (['ξ', ':', 'β'] ++ intToChars b.psi) ::
        (sortedKids b).map kidEntry)) := by
    rw [hprint]
    exact basketCaptures_wrap _ hnobr hnonl
  have htrim : trim (joinSep [',', ' ']
      (('ν' :: decDigits b.ob) :: (['ξ', ':', 'β'] ++ intToChars b.psi) ::
        (sortedKids b).map kidEntry)) = joinSep [',', ' ']
      (('ν' :: decDigits b.ob) :: (['ξ', ':', 'β'] ++ intToChars b.psi) ::
        (sortedKids b).map kidEntry) :=
    joined_trim _ (by simp) hchar hpne
  have hsplit : (splitOnChar ',' (joinSep [',', ' ']
      (('ν' :: decDigits b.ob) :: (['ξ', ':', 'β'] ++ intToChars b.psi) ::
        (sortedKids b).map kidEntry))).map trim =
      ('ν' :: decDigits b.ob) :: (['ξ', ':', 'β'] ++ intToChars b.psi) ::
        (sortedKids b).map kidEntry :=
    split_trim_joined _ (by simp) hchar
  have hfold : ((sortedKids b).map kidEntry).foldlM processKid
      (⟨b.ob, b.psi, []⟩ : Basket) = .ok ⟨b.ob, b.psi, sortedKids b⟩ := by
    rw [foldlM_kidEntries (sortedKids b) _ hSK, foldl_put_spec,
      foldl_alistInsert_fresh (sortedKids b) [] (by intro e _; simp) hSKnd,
      List.nil_append]
  have hparse : Basket.fromStr (Basket.print b) =
      .ok ⟨b.ob, b.psi, sortedKids b⟩ := by
    rw [Basket.fromStr, hcap]
    simp only [htrim, hsplit]
    rw [show ('ν' :: decDigits b.ob).drop 1 = decDigits b.ob from rfl,
      parseUsize_decDigits b.ob hob]
    rw [show ((['ξ', ':', 'β'] ++ intToChars b.psi)).drop 3 =
        intToChars b.psi from rfl,
      parseIsize_intToChars b.psi hpsi1 hpsi2]
    exact hfold
  refine ⟨_, hparse, ?_⟩
  have h2 : Basket.print ⟨b.ob, b.psi, sortedKids b⟩ = '[' :: (joinSep [',', ' ']
      (('ν' :: decDigits b.ob) :: (['ξ', ':', 'β'] ++ intToChars b.psi) ::
        (sortedKids b).map kidEntry) ++ [']']) := by
    have h0 : Basket.print ⟨b.ob, b.psi, sortedKids b⟩ = '[' :: (joinSep [',', ' ']
        (('ν' :: decDigits b.ob) :: (['ξ', ':', 'β'] ++ intToChars b.psi) ::
          sortParts ((sortedKids b).map kidEntry)) ++ [']']) := rfl
    rw [h0, sortParts_of_sorted _ (sortedKids_sortedMap b)]
  rw [h2, hprint]


/-! ## Permutation invariance of the printers -/

theorem sortParts_congr_perm (l1 l2 : List Str) (h : l1.Perm l2) :
    sortParts l1 = sortParts l2 :=
  List.eq_of_perm_of_sorted
    ((sortParts_perm l1).trans (h.trans (sortParts_perm l2).symm))
    (sortParts_sorted l1) (sortParts_sorted l2)

/-- Two objects with the same λ/Δ/constant fields and permuted attribute
lists print identically. -/
theorem objectPrint_congr_perm (o1 o2 : Object) (hd : o1.delta = o2.delta)
    (hl : o1.lambda = o2.lambda) (hc : o1.constant = o2.constant)
    (ha : o1.attrs.Perm o2.attrs) : Object.print o1 = Object.print o2 := by
  have hparts : (Object.parts o1).Perm (Object.parts o2) := by
    rw [objectParts_eq, objectParts_eq, hd, hl]
    exact List.Perm.append_left _ (ha.map _)
  rw [Object.print, Object.print, hc, sortParts_congr_perm _ _ hparts]

/-- Two baskets with the same ob/psi fields and permuted kid lists print
identically. -/
theorem basketPrint_congr_perm (b1 b2 : Basket) (ho : b1.ob = b2.ob)
    (hp : b1.psi = b2.psi) (hk : b1.kids.Perm b2.kids) :
    Basket.print b1 = Basket.print b2 := by
  rw [Basket.print, Basket.print, ho, hp,
    sortParts_congr_perm _ _ (hk.map _)]

/-! ## The delta/lambda exclusivity invariant -/

theorem processPair_ok_shape (s : Str) (obj : Object) (p : Str)
    (obj2 : Object) (h : processPair s obj p = .ok obj2) :
    (∃ n a, obj2 = Object.atomic n a) ∨ (∃ d, obj2 = Object.dataic d) ∨
    (∃ l lp xi, obj2 = obj.push l lp xi) := by
  rw [processPair] at h
  split at h
  · rename_i i p2 heq
    cases i with
    | nil => exact Except.noConfusion h
    | cons c cs =>
      simp only at h
      by_cases hlam : c = 'λ'
      · rw [if_pos hlam] at h
        cases ha : atomLook p2 with
        | some a =>
          rw [ha] at h
          exact Or.inl ⟨p2, a, (Except.ok.inj h).symm⟩
        | none =>
          rw [ha] at h
          exact Except.noConfusion h
      · rw [if_neg hlam] at h
        by_cases hdel : c = 'Δ'
        · rw [if_pos hdel] at h
          cases hd : i16FromStrRadix16 (p2.drop 2) with
          | ok d =>
            rw [hd] at h
            exact Or.inr (Or.inl ⟨d, (Except.ok.inj h).symm⟩)
          | error e =>
            rw [hd] at h
            exact Except.noConfusion h
        · rw [if_neg hdel] at h
          cases hl : Loc.fromStr (c :: cs) with
          | error e =>
            rw [hl] at h
            exact Except.noConfusion h
          | ok loc =>
            rw [hl] at h
            cases hlp : Locator.fromStr
                (if endsWith xiSuf
                    (if endsWith piSuf p2 then
                      p2.take (strBytes p2 - 6 - 1) else p2) = true then
                  (if endsWith piSuf p2 then
                    p2.take (strBytes p2 - 6 - 1) else p2).take
                    (strBytes (if endsWith piSuf p2 then
                      p2.take (strBytes p2 - 6 - 1) else p2) - 4 - 1)
                else
                  (if endsWith piSuf p2 then
                    p2.take (strBytes p2 - 6 - 1) else p2)) with
            | error e =>
              rw [hlp] at h
              exact Except.noConfusion h
            | ok lp =>
              rw [hlp] at h
              exact Or.inr (Or.inr ⟨loc, lp, _, (Except.ok.inj h).symm⟩)
  · exact Except.noConfusion h

theorem processPair_not_both (s : Str) (obj : Object) (p : Str)
    (obj2 : Object) (h : processPair s obj p = .ok obj2)
    (hinv : ¬(obj.delta.isSome = true ∧ obj.lambda.isSome = true)) :
    ¬(obj2.delta.isSome = true ∧ obj2.lambda.isSome = true) := by
  rcases processPair_ok_shape s obj p obj2 h with ⟨n, a, rfl⟩ | ⟨d, rfl⟩ |
    ⟨l, lp, xi, rfl⟩
  · simp [Object.atomic]
  · simp [Object.dataic]
  · simpa [Object.push] using hinv

theorem foldlM_processPair_not_both (s : Str) :
    ∀ (parts : List Str) (obj obj2 : Object),
      parts.foldlM (processPair s) obj = .ok obj2 →
      ¬(obj.delta.isSome = true ∧ obj.lambda.isSome = true) →
      ¬(obj2.delta.isSome = true ∧ obj2.lambda.isSome = true)
  | [], obj, obj2, h, hinv => by
    rw [List.foldlM_nil] at h
    exact (Except.ok.inj h) ▸ hinv
  | p :: rest, obj, obj2, h, hinv => by
    rw [List.foldlM_cons] at h
    cases hp : processPair s obj p with
    | error e =>
      rw [hp] at h
      exact Except.noConfusion h
    | ok o1 =>
      rw [hp] at h
      have h2 : rest.foldlM (processPair s) o1 = .ok obj2 := h
      exact foldlM_processPair_not_both s rest o1 obj2 h2
        (processPair_not_both s obj p o1 hp hinv)

theorem objectFromStr_not_both (s : Str) (o : Object)
    (h : Object.fromStr s = .ok o) :
    ¬(o.delta.isSome = true ∧ o.lambda.isSome = true) := by
  rw [Object.fromStr] at h
  cases hcap : objCaptures s with
  | none =>
    rw [hcap] at h
    exact Except.noConfusion h
  | some pr =>
    obtain ⟨bang, inner0⟩ := pr
    rw [hcap] at h
    have h2 : (match ((splitOnChar ',' (trim inner0)).map trim).foldlM
        (processPair s) Object.open' with
      | .error e => (.error e : Except Str Object)
      | .ok obj => .ok (if bang then { obj with constant := true } else obj)) =
        .ok o := h
    cases hfold : ((splitOnChar ',' (trim inner0)).map trim).foldlM
        (processPair s) Object.open' with
    | error e =>
      rw [hfold] at h2
      exact Except.noConfusion h2
    | ok obj =>
      rw [hfold] at h2
      have hinv := foldlM_processPair_not_both s _ Object.open' obj hfold
        (by simp [Object.open'])
      have ho : o = if bang then { obj with constant := true } else obj :=
        (Except.ok.inj h2).symm
      subst ho
      cases bang
      · simpa using hinv
      · simpa using hinv

/-! ## Loc parse-failure helpers -/

theorem atomLook_none (n : Str) (hn : n ∉ registryNames) : atomLook n = none := by
  rw [atomLook,
    if_neg (fun h => hn (by rw [h]; decide)),
    if_neg (fun h => hn (by rw [h]; decide)),
    if_neg (fun h => hn (by rw [h]; decide)),
    if_neg (fun h => hn (by rw [h]; decide)),
    if_neg (fun h => hn (by rw [h]; decide)),
    if_neg (fun h => hn (by rw [h]; decide)),
    if_neg (fun h => hn (by rw [h]; decide))]

theorem locTable_error_of_not_mem (s : Str)
    (hs : s ∉ ([['Φ'], ['Q'], ['ρ'], ['^'], ['Δ'], ['D'], ['𝜑'], ['@'],
      ['𝜋'], ['P'], ['σ'], ['&']] : List Str)) :
    locTable s = .error ("Unknown loc: '".data ++ s ++ "'".data) := by
  simp only [List.mem_cons, List.not_mem_nil, or_false, not_or] at hs
  obtain ⟨h1, h2, h3, h4, h5, h6, h7, h8, h9, h10, h11, h12⟩ := hs
  rw [locTable, if_neg (by tauto), if_neg (by tauto), if_neg (by tauto),
    if_neg (by tauto), if_neg (by tauto), if_neg (by tauto)]

theorem reArgMatch_some_form (s ds : Str) (h : reArgMatch s = some ds) :
    specLocFormB s = true := by
  rw [reArgMatch.eq_def] at h
  rw [specLocFormB.eq_def]
  cases s with
  | nil =>
    simp only at h
    split at h
    next hcond => exact absurd rfl hcond.1
    · exact Option.noConfusion h
  | cons c rest =>
    simp only at h
    by_cases hc : c = '𝛼'
    · rw [if_pos hc] at h
      split at h
      next hcond =>
        obtain ⟨hne, hall⟩ := hcond
        subst hc
        simp [hne, hall]
      · exact Option.noConfusion h
    · rw [if_neg hc] at h
      split at h
      next hcond =>
        obtain ⟨hne, hall⟩ := hcond
        rw [List.all_cons, Bool.and_eq_true] at hall
        simp [hall.1, hall.2]
      · exact Option.noConfusion h

theorem reObjMatch_some_form (s ds : Str) (h : reObjMatch s = some ds) :
    specLocFormB s = true := by
  rw [reObjMatch.eq_def] at h
  rw [specLocFormB.eq_def]
  cases s with
  | nil => exact Option.noConfusion h
  | cons c rest =>
    simp only at h
    by_cases hc : c = 'ν'
    · rw [if_pos hc] at h
      split at h
      next hcond =>
        obtain ⟨hne, hall⟩ := hcond
        subst hc
        simp [hne, hall]
      · exact Option.noConfusion h
    · rw [if_neg hc] at h
      exact Option.noConfusion h


theorem locFromStr_alpha_digits (ds : Str) (hne : ds ≠ [])
    (hall : ∀ c ∈ ds, isDigit c) :
    Loc.fromStr ('𝛼' :: ds) = (match parseI8 ds with
      | .ok v => .ok (Loc.Attr v)
      | .error e =>
        .error ("Failed to parse attr number '".data ++ ds ++ "': ".data ++ e)) := by
  rw [Loc.fromStr.eq_def, reArgMatch_alpha_digits ds hne hall]

theorem locFromStr_bare_digits (ds : Str) (hne : ds ≠ [])
    (hall : ∀ c ∈ ds, isDigit c) :
    Loc.fromStr ds = (match parseI8 ds with
      | .ok v => .ok (Loc.Attr v)
      | .error e =>
        .error ("Failed to parse attr number '".data ++ ds ++ "': ".data ++ e)) := by
  rw [Loc.fromStr.eq_def, reArgMatch_digits ds hne hall]


/-! ## The claims -/

/-- C1 (counterexample): the text printed for `Object::dataic(-1)` is a
canonically printed Object text, but `Object::from_str` rejects it (the
printer emits the 16-bit two's-complement pattern `0xFFFF`, the parser
only accepts values up to `i16::MAX`), so `print(parse(t)) == t` fails on
it. -/
theorem claim1_counterexample :
    Object.print (Object.dataic (-1)) = "⟦! Δ↦0xFFFF⟧".data ∧
    Object.fromStr "⟦! Δ↦0xFFFF⟧".data =
      .error "Can't parse hex 'FFFF' in '⟦! Δ↦0xFFFF⟧': number too large to fit in target type".data := by
  decide

/-- C1 (amended): for well-formed objects and baskets (`GoodObjectB`,
`GoodBasketB`: in-range numbers, non-negative Δ data, no Δ attribute key,
registry λ names, nonempty content, byte-arith-safe `(ξ)` locators),
parsing the canonically printed text succeeds and reprinting yields the
same text byte-for-byte. -/
theorem claim1_conditional_roundtrip :
    (∀ o : Object, GoodObjectB o = true →
      ∃ o2, Object.fromStr (Object.print o) = .ok o2 ∧
        Object.print o2 = Object.print o) ∧
    (∀ b : Basket, GoodBasketB b = true →
      ∃ b2, Basket.fromStr (Basket.print b) = .ok b2 ∧
        Basket.print b2 = Basket.print b) :=
  ⟨objectRoundtrip, basketRoundtrip⟩

theorem claim1_witness :
    GoodObjectB (Object.dataic 5) = true ∧
    (∃ o2, Object.fromStr (Object.print (Object.dataic 5)) = .ok o2 ∧
      Object.print o2 = Object.print (Object.dataic 5)) :=
  ⟨by decide, claim1_conditional_roundtrip.1 (Object.dataic 5) (by decide)⟩

/-- C2 (counterexample): printed entries are sorted by the FULL printed
entry string, not by the Loc canonical form: in the printed basket the
`𝛼12` entry precedes the `𝛼1` entry although `𝛼1` sorts strictly before
`𝛼12` as a Loc canonical form. -/
theorem claim2_counterexample :
    Basket.print ⟨0, -1, [(Loc.Attr 1, Kid.Rqtd), (Loc.Attr 12, Kid.Rqtd)]⟩ =
      "[ν0, ξ:β-1, 𝛼12→?, 𝛼1→?]".data ∧
    strLeB (Loc.print (Loc.Attr 1)) (Loc.print (Loc.Attr 12)) = true ∧
    Loc.print (Loc.Attr 1) ≠ Loc.print (Loc.Attr 12) := by
  decide

/-- C2 (amended): printed attribute/slot entries appear sorted by the
byte order of the full printed entry strings (`SLe`), and two
objects/baskets holding permuted attribute/kid lists (with equal other
fields) print to the identical string. -/
theorem claim2_sorted_entries :
    (∀ o : Object, List.Sorted SLe (sortParts (Object.parts o))) ∧
    (∀ b : Basket, List.Sorted SLe (sortParts (b.kids.map kidEntry))) ∧
    (∀ o1 o2 : Object, o1.delta = o2.delta → o1.lambda = o2.lambda →
      o1.constant = o2.constant → o1.attrs.Perm o2.attrs →
      Object.print o1 = Object.print o2) ∧
    (∀ b1 b2 : Basket, b1.ob = b2.ob → b1.psi = b2.psi →
      b1.kids.Perm b2.kids → Basket.print b1 = Basket.print b2) :=
  ⟨fun _ => sortParts_sorted _, fun _ => sortParts_sorted _,
   objectPrint_congr_perm, basketPrint_congr_perm⟩

theorem claim2_witness :
    Object.print ⟨none, none, false, [(Loc.Attr 1, ([Loc.Root], false)),
        (Loc.Attr 2, ([Loc.Rho], true))]⟩ =
      Object.print ⟨none, none, false, [(Loc.Attr 2, ([Loc.Rho], true)),
        (Loc.Attr 1, ([Loc.Root], false))]⟩ :=
  claim2_sorted_entries.2.2.1 _ _ rfl rfl rfl (List.Perm.swap _ _ _)

/-- C3: the literal basket text round-trips byte-for-byte (the parsed
kid list in source order, the reprint reproducing the text with `𝛼12`
before `𝛼1`). -/
theorem claim3_basket_literal_roundtrip :
    Basket.fromStr "[ν5, ξ:β18, Δ⇶0x1F21, ρ⇉β4.𝜑, 𝛼12→?, 𝛼1→?, 𝛼3→(ν5;β5), 𝜑→∅]".data =
      .ok ⟨5, 18, [(Loc.Delta, Kid.Dtzd 7969), (Loc.Rho, Kid.Wait 4 Loc.Phi),
        (Loc.Attr 12, Kid.Rqtd), (Loc.Attr 1, Kid.Rqtd),
        (Loc.Attr 3, Kid.Need 5 5), (Loc.Phi, Kid.Empt)]⟩ ∧
    Basket.print ⟨5, 18, [(Loc.Delta, Kid.Dtzd 7969), (Loc.Rho, Kid.Wait 4 Loc.Phi),
        (Loc.Attr 12, Kid.Rqtd), (Loc.Attr 1, Kid.Rqtd),
        (Loc.Attr 3, Kid.Need 5 5), (Loc.Phi, Kid.Empt)]⟩ =
      "[ν5, ξ:β18, Δ⇶0x1F21, ρ⇉β4.𝜑, 𝛼12→?, 𝛼1→?, 𝛼3→(ν5;β5), 𝜑→∅]".data := by
  decide

/-- C4 (counterexample): `𝛼128` and `ν18446744073709551616` are textual
forms of the §4.1 table (argument slot, object reference), yet
`Loc::from_str` fails on both — the claim's universal quantification over
all table forms is false without number bounds. -/
theorem claim4_counterexample :
    specLocFormB "𝛼128".data = true ∧
    Loc.fromStr "𝛼128".data =
      .error "Failed to parse attr number '128': number too large to fit in target type".data ∧
    specLocFormB "ν18446744073709551616".data = true ∧
    Loc.fromStr "ν18446744073709551616".data =
      .error "Failed to parse obj number '18446744073709551616': number too large to fit in target type".data := by
  decide

/-- C4 (amended): every §4.1 table form with in-range numbers parses, and
printing the parsed value yields the canonical symbolic form: `𝛼`-prefixed
and bare canonical digit strings for `0 ≤ i ≤ 127`, `ν`-prefixed canonical
digit strings for `n ≤ usize::MAX`, and the six symbolic/ASCII pairs. -/
theorem claim4_loc_roundtrip_bounded :
    (∀ i : Int, 0 ≤ i → i ≤ 127 →
      Loc.fromStr ('𝛼' :: intToChars i) = .ok (Loc.Attr i) ∧
      Loc.fromStr (intToChars i) = .ok (Loc.Attr i) ∧
      Loc.print (Loc.Attr i) = '𝛼' :: intToChars i) ∧
    (∀ n : Nat, n ≤ usizeMax →
      Loc.fromStr ('ν' :: decDigits n) = .ok (Loc.Obj n) ∧
      Loc.print (Loc.Obj n) = 'ν' :: decDigits n) ∧
    (∀ p ∈ ([(['Φ'], ['Q'], Loc.Root), (['ρ'], ['^'], Loc.Rho),
        (['Δ'], ['D'], Loc.Delta), (['𝜑'], ['@'], Loc.Phi),
        (['𝜋'], ['P'], Loc.Pi), (['σ'], ['&'], Loc.Sigma)] :
          List (Str × Str × Loc)),
      Loc.fromStr p.1 = .ok p.2.2 ∧ Loc.fromStr p.2.1 = .ok p.2.2 ∧
      Loc.print p.2.2 = p.1) := by
  refine ⟨?_, ?_, ?_⟩
  · intro i h0 h127
    have hpr : intToChars i = decDigits i.toNat := by
      rw [intToChars, if_neg (not_lt.mpr h0)]
    refine ⟨locFromStr_attrPrint i h0 h127, ?_, rfl⟩
    rw [hpr, locFromStr_bare_digits (decDigits i.toNat) (decDigits_ne_nil _)
        (decDigits_digits _),
      parseI8_digits _ (decDigits_ne_nil _) (decDigits_digits _),
      decValOf_decDigits, if_pos (by omega)]
    have : (Int.ofNat i.toNat) = i := Int.toNat_of_nonneg h0
    rw [this]
  · intro n h
    exact ⟨locFromStr_objPrint n h, rfl⟩
  · intro p hp
    fin_cases hp <;> exact ⟨by decide, by decide, rfl⟩

theorem claim4_witness :
    (0 : Int) ≤ 7 ∧ (7 : Int) ≤ 127 ∧
    (Loc.fromStr ('𝛼' :: intToChars 7) = .ok (Loc.Attr 7) ∧
     Loc.fromStr (intToChars 7) = .ok (Loc.Attr 7) ∧
     Loc.print (Loc.Attr 7) = '𝛼' :: intToChars 7) :=
  ⟨by decide, by decide, claim4_loc_roundtrip_bounded.1 7 (by decide) (by decide)⟩

/-- C5: every object reachable through the public constructors, the
operations `push`/`with`/`as_constant`/`copy`, or `Object::from_str`
never has `delta` and `lambda` both set. -/
theorem claim5_delta_lambda_exclusive (o : Object) (h : Object.Reach o) :
    ¬(o.delta.isSome = true ∧ o.lambda.isSome = true) := by
  induction h with
  | open_ => simp [Object.open']
  | dataic d => simp [Object.dataic]
  | atomic n a => simp [Object.atomic]
  | push o l p xi _ ih => simpa [Object.push] using ih
  | with' o l p xi _ ih => simpa [Object.with', Object.copy] using ih
  | as_constant o _ ih => simpa [Object.as_constant, Object.copy] using ih
  | copy o _ ih => simpa [Object.copy] using ih
  | fromStr s o h => exact objectFromStr_not_both s o h

theorem claim5_witness :
    Object.Reach ((Object.dataic 3).push Loc.Rho [Loc.Pi] false) ∧
    ¬(((Object.dataic 3).push Loc.Rho [Loc.Pi] false).delta.isSome = true ∧
      ((Object.dataic 3).push Loc.Rho [Loc.Pi] false).lambda.isSome = true) :=
  ⟨Object.Reach.push _ _ _ _ (Object.Reach.dataic 3),
   claim5_delta_lambda_exclusive _
     (Object.Reach.push _ _ _ _ (Object.Reach.dataic 3))⟩

/-- C6: for every 16-bit `Data` value, the printed literal is `0x`
followed by exactly four uppercase zero-padded hex digits of the 16-bit
two's-complement pattern `data16 d = (d % 2^16).toNat`, in both the Δ
part of objects and the `⇶` kid form of baskets. -/
theorem claim6_data_hex_print (d : Int) (h1 : -32768 ≤ d) (h2 : d < 32768) :
    deltaPart d = ['Δ', '↦', '0', 'x'] ++ hex4 (data16 d) ∧
    Kid.print (Kid.Dtzd d) = ['⇶', '0', 'x'] ++ hex4 (data16 d) ∧
    (hex4 (data16 d)).length = 4 ∧
    (∀ c ∈ hex4 (data16 d), isUpperHex c) ∧
    hexValOf (hex4 (data16 d)) = data16 d ∧
    (data16 d : Int) = d % 65536 ∧
    (d < 0 → (data16 d : Int) = d + 65536) := by
  have hmod : (0 : Int) ≤ d % 65536 := Int.emod_nonneg d (by norm_num)
  have hmodlt : d % 65536 < 65536 := Int.emod_lt_of_pos d (by norm_num)
  have hd16 : (data16 d : Int) = d % 65536 := by
    rw [data16]
    exact Int.toNat_of_nonneg hmod
  have hlt : data16 d < 65536 := by
    rw [data16]
    omega
  refine ⟨rfl, rfl, hex4_length _ hlt, hex4_chars _, hexValOf_hex4 _, hd16, ?_⟩
  intro hneg
  rw [hd16]
  omega

theorem claim6_witness :
    hex4 (data16 (-1)) = "FFFF".data ∧
    (hex4 (data16 (-1))).length = 4 ∧
    (data16 (-1) : Int) = -1 + 65536 :=
  ⟨by decide, (claim6_data_hex_print (-1) (by decide) (by decide)).2.2.1,
   (claim6_data_hex_print (-1) (by decide) (by decide)).2.2.2.2.2.2 (by decide)⟩

/-- C9: every `λ↦name` or `Δ↦0xHHHH` entry replaces the whole object
built so far — for any accumulated object the loop body's result is the
same and carries no attributes, because the λ and Δ branches construct a
fresh object via `atomic`/`dataic`. -/
theorem claim9_replacement (s p i pr : Str)
    (hsplit : (splitOnChar '↦' p).map trim = [i, pr])
    (hhead : i.head? = some 'λ' ∨ i.head? = some 'Δ') :
    (∀ obj obj' : Object, processPair s obj p = processPair s obj' p) ∧
    (∀ obj obj2 : Object, processPair s obj p = .ok obj2 →
      obj2.attrs = [] ∧
      ((∃ a, obj2 = Object.atomic pr a) ∨ (∃ d, obj2 = Object.dataic d))) := by
  cases i with
  | nil =>
    rcases hhead with h | h <;> exact absurd h (by simp)
  | cons c cs =>
    have hc : c = 'λ' ∨ c = 'Δ' := by
      rcases hhead with h | h
      · exact Or.inl (Option.some.inj h)
      · exact Or.inr (Option.some.inj h)
    constructor
    · intro obj obj'
      simp only [processPair]
      rw [hsplit]
      rcases hc with rfl | rfl <;> rfl
    · intro obj obj2 h
      rw [processPair, hsplit] at h
      rcases hc with rfl | rfl
      · have h2 : (match atomLook pr with
            | some a => (.ok (Object.atomic pr a) : Except Str Object)
            | none =>
              .error ("Unknown lambda '".data ++ pr ++ "' in '".data ++ s ++
                "'".data)) = .ok obj2 := h
        cases ha : atomLook pr with
        | some a =>
          rw [ha] at h2
          exact ⟨by rw [← Except.ok.inj h2]; rfl,
            Or.inl ⟨a, (Except.ok.inj h2).symm⟩⟩
        | none =>
          rw [ha] at h2
          exact Except.noConfusion h2
      · have h2 : (match i16FromStrRadix16 (pr.drop 2) with
            | .ok d => (.ok (Object.dataic d) : Except Str Object)
            | .error e =>
              .error ("Can't parse hex '".data ++ pr.drop 2 ++ "' in '".data ++
                s ++ "': ".data ++ e)) = .ok obj2 := h
        cases hd : i16FromStrRadix16 (pr.drop 2) with
        | ok d =>
          rw [hd] at h2
          exact ⟨by rw [← Except.ok.inj h2]; rfl,
            Or.inr ⟨d, (Except.ok.inj h2).symm⟩⟩
        | error e =>
          rw [hd] at h2
          exact Except.noConfusion h2

theorem claim9_witness :
    (splitOnChar '↦' "Δ↦0x0001".data).map trim = [['Δ'], "0x0001".data] ∧
    Object.fromStr "⟦ ρ ↦ 𝜋, Δ ↦ 0x0001 ⟧".data =
      .ok ⟨some 1, none, true, []⟩ ∧
    processPair "⟦ ρ ↦ 𝜋, Δ ↦ 0x0001 ⟧".data
      (Object.open'.push Loc.Rho [Loc.Pi] false) "Δ↦0x0001".data =
      .ok (Object.dataic 1) ∧
    ((Object.dataic 1).attrs = [] ∧
      ((∃ a, Object.dataic 1 = Object.atomic "0x0001".data a) ∨
       (∃ d, (Object.dataic 1 : Object) = Object.dataic d))) :=
  ⟨by decide, by decide, by decide,
   (claim9_replacement "⟦ ρ ↦ 𝜋, Δ ↦ 0x0001 ⟧".data "Δ↦0x0001".data ['Δ']
       "0x0001".data (by decide) (Or.inr rfl)).2
     (Object.open'.push Loc.Rho [Loc.Pi] false) (Object.dataic 1) (by decide)⟩


/-- C7: for a λ-attribute body `⟦λ↦name⟧` (name made of printable
characters, no `↦`), `Object::from_str` succeeds exactly when the name is
in the fixed seven-name registry, and otherwise fails with an error
starting with `Unknown lambda`. -/
theorem claim7_lambda_registry (name : Str)
    (hpc : ∀ c ∈ name, printChar c = true) (hmt : '↦' ∉ name) :
    (name ∈ registryNames →
      ∃ a, atomLook name = some a ∧
        Object.fromStr ('⟦' :: (lambdaPart name ++ ['⟧'])) =
          .ok (Object.atomic name a)) ∧
    (name ∉ registryNames →
      ∃ e, Object.fromStr ('⟦' :: (lambdaPart name ++ ['⟧'])) = .error e ∧
        "Unknown lambda".data <+: e) := by
  have hwh : ∀ c ∈ name, ¬ isWhite c :=
    fun c hc => (printChar_facts c (hpc c hc)).2.2.2.2.2.2.1
  have h1 : '⟧' ∉ lambdaPart name := by
    intro hm
    rw [lambdaPart, List.mem_append] at hm
    rcases hm with hm | hm
    · revert hm; decide
    · exact (printChar_facts _ (hpc _ hm)).2.2.2.1 rfl
  have h2 : '\n' ∉ lambdaPart name := by
    intro hm
    rw [lambdaPart, List.mem_append] at hm
    rcases hm with hm | hm
    · revert hm; decide
    · exact (printChar_facts _ (hpc _ hm)).2.1 rfl
  have h3 : ∀ rest, lambdaPart name ≠ '!' :: rest := by
    intro rest heq
    rw [lambdaPart] at heq
    exact absurd (List.head_eq_of_cons_eq heq) (by decide)
  have hcap : objCaptures ('⟦' :: (lambdaPart name ++ ['⟧'])) =
      some (false, lambdaPart name) := objCaptures_plain _ h1 h2 h3
  have htrim : trim (lambdaPart name) = lambdaPart name := by
    apply trim_eq_self
    intro c hc
    rw [lambdaPart, List.mem_append] at hc
    rcases hc with hc | hc
    · simp only [List.mem_cons, List.not_mem_nil, or_false] at hc
      rcases hc with rfl | rfl <;> decide
    · exact hwh c hc
  have hnoc : ',' ∉ lambdaPart name := by
    intro hm
    rw [lambdaPart, List.mem_append] at hm
    rcases hm with hm | hm
    · revert hm; decide
    · exact (printChar_facts _ (hpc _ hm)).1 rfl
  have hsplit : (splitOnChar ',' (lambdaPart name)).map trim =
      [lambdaPart name] := by
    rw [splitOnChar_noSep _ _ hnoc, List.map_cons, List.map_nil, htrim]
  constructor
  · intro hmem
    obtain ⟨a, hlook⟩ := atomLook_mem name hmem
    have hproc := processPair_lambda ('⟦' :: (lambdaPart name ++ ['⟧']))
      Object.open' name a hmt hwh hlook
    have hfold : [lambdaPart name].foldlM
        (processPair ('⟦' :: (lambdaPart name ++ ['⟧']))) Object.open' =
        .ok (Object.atomic name a) := by
      rw [List.foldlM_cons, hproc]
      rfl
    refine ⟨a, hlook, ?_⟩
    rw [Object.fromStr, hcap]
    simp only [htrim, hsplit, hfold, Bool.false_eq_true, if_false]
  · intro hmem
    have hlook := atomLook_none name hmem
    have hproc := processPair_lambda_bad ('⟦' :: (lambdaPart name ++ ['⟧']))
      Object.open' name hmt hwh hlook
    have hfold : [lambdaPart name].foldlM
        (processPair ('⟦' :: (lambdaPart name ++ ['⟧']))) Object.open' =
        .error ("Unknown lambda '".data ++ name ++ "' in '".data ++
          ('⟦' :: (lambdaPart name ++ ['⟧'])) ++ "'".data) := by
      rw [List.foldlM_cons, hproc]
      rfl
    refine ⟨"Unknown lambda '".data ++ name ++ "' in '".data ++
      ('⟦' :: (lambdaPart name ++ ['⟧'])) ++ "'".data, ?_, ?_⟩
    · rw [Object.fromStr, hcap]
      simp only [htrim, hsplit, hfold]
    · exact ⟨_, rfl⟩

theorem claim7_witness :
    ∃ a, atomLook "int-add".data = some a ∧
      Object.fromStr ('⟦' :: (lambdaPart "int-add".data ++ ['⟧'])) =
        .ok (Object.atomic "int-add".data a) :=
  (claim7_lambda_registry "int-add".data (by decide) (by decide)).1 (by decide)

/-- C8: `Loc::from_str` fails on every string matching no §4.1 table
form, and every failure message is one of exactly three kinds: `Unknown
loc`, `Failed to parse attr number`, `Failed to parse obj number`. -/
theorem claim8_loc_failure_kinds (s : Str) :
    (specLocFormB s = false → ∃ e, Loc.fromStr s = .error e) ∧
    (∀ e, Loc.fromStr s = .error e →
      "Unknown loc".data <+: e ∨ "Failed to parse attr number".data <+: e ∨
      "Failed to parse obj number".data <+: e) := by
  constructor
  · intro hform
    cases hre : reArgMatch s with
    | some ds =>
      rw [reArgMatch_some_form s ds hre] at hform
      exact absurd hform (by simp)
    | none =>
      cases hro : reObjMatch s with
      | some ds =>
        rw [reObjMatch_some_form s ds hro] at hform
        exact absurd hform (by simp)
      | none =>
        have hnm : s ∉ ([['Φ'], ['Q'], ['ρ'], ['^'], ['Δ'], ['D'], ['𝜑'],
            ['@'], ['𝜋'], ['P'], ['σ'], ['&']] : List Str) := by
          intro hmem
          have hT : specLocFormB s = true := by
            rw [specLocFormB.eq_def]
            simp [hmem]
          rw [hT] at hform
          exact absurd hform (by simp)
        refine ⟨"Unknown loc: '".data ++ s ++ "'".data, ?_⟩
        rw [Loc.fromStr.eq_def, hre, hro]
        exact locTable_error_of_not_mem s hnm
  · intro e he
    rw [Loc.fromStr.eq_def] at he
    cases hre : reArgMatch s with
    | some ds =>
      rw [hre] at he
      have he1 : (match parseI8 ds with
        | .ok v => (.ok (Loc.Attr v) : Except Str Loc)
        | .error e2 =>
          .error ("Failed to parse attr number '".data ++ ds ++ "': ".data ++
            e2)) = .error e := he
      cases hp : parseI8 ds with
      | ok v =>
        rw [hp] at he1
        exact Except.noConfusion he1
      | error e2 =>
        rw [hp] at he1
        have he2 := Except.error.inj he1
        right; left
        rw [← he2]
        exact ⟨_, rfl⟩
    | none =>
      rw [hre] at he
      cases hro : reObjMatch s with
      | some ds =>
        rw [hro] at he
        have he1 : (match parseUsize ds with
          | .ok v => (.ok (Loc.Obj v) : Except Str Loc)
          | .error e2 =>
            .error ("Failed to parse obj number '".data ++ ds ++ "': ".data ++
              e2)) = .error e := he
        cases hp : parseUsize ds with
        | ok v =>
          rw [hp] at he1
          exact Except.noConfusion he1
        | error e2 =>
          rw [hp] at he1
          have he2 := Except.error.inj he1
          right; right
          rw [← he2]
          exact ⟨_, rfl⟩
      | none =>
        rw [hro] at he
        have he1 : locTable s = .error e := he
        rw [locTable] at he1
        repeat' split at he1
        any_goals exact Except.noConfusion he1
        left
        rw [← Except.error.inj he1]
        exact ⟨_, rfl⟩

theorem claim8_witness :
    specLocFormB "xyz".data = false ∧
    (∃ e, Loc.fromStr "xyz".data = .error e) :=
  ⟨by decide, (claim8_loc_failure_kinds "xyz".data).1 (by decide)⟩

/-- C10: an argument-slot digit string (bare or 𝛼-prefixed) parses to
`Loc::Attr` exactly when its value is at most 127; every larger digit
string fails with a `Failed to parse attr number` overflow error. -/
theorem claim10_attr_bound (ds : Str) (hne : ds ≠ [])
    (hall : ∀ c ∈ ds, isDigit c) :
    (decValOf ds ≤ 127 →
      Loc.fromStr ('𝛼' :: ds) = .ok (Loc.Attr (Int.ofNat (decValOf ds))) ∧
      Loc.fromStr ds = .ok (Loc.Attr (Int.ofNat (decValOf ds)))) ∧
    (127 < decValOf ds →
      Loc.fromStr ('𝛼' :: ds) = .error
        ("Failed to parse attr number '".data ++ ds ++ "': ".data ++
          msgPosOver) ∧
      Loc.fromStr ds = .error
        ("Failed to parse attr number '".data ++ ds ++ "': ".data ++
          msgPosOver)) := by
  have ha := locFromStr_alpha_digits ds hne hall
  have hb := locFromStr_bare_digits ds hne hall
  have hp := parseI8_digits ds hne hall
  constructor
  · intro hle
    rw [if_pos hle] at hp
    rw [ha, hb, hp]
    exact ⟨rfl, rfl⟩
  · intro hgt
    rw [if_neg (not_le.mpr hgt)] at hp
    rw [ha, hb, hp]
    exact ⟨rfl, rfl⟩

theorem claim10_witness :
    ("128".data ≠ ([] : Str)) ∧
    Loc.fromStr "𝛼128".data = .error
      ("Failed to parse attr number '".data ++ "128".data ++ "': ".data ++
        msgPosOver) :=
  ⟨by decide,
   ((claim10_attr_bound "128".data (by decide) (by decide)).2 (by decide)).1⟩

end Phie
